import Mathlib

/-!
Verification of the tryparse repository (a forgiving JSON-ish extractor and
type-directed coercion engine) against its natural-language specification.

The Rust sources are shallowly embedded: pure functions become Lean functions,
`&mut` state (coercion contexts, transformation logs) becomes explicit state
passing, machine integers become `Nat`/`Int`, and `f32`/`f64` quantities that
the claims treat as exact decimal values (confidence factors, parsed numbers)
are modelled as exact rationals `ℚ`.  Fallible Rust functions returning
`Result`/`Option` become `Except`/`Option`.
-/

set_option maxHeartbeats 1000000

unseal Rat.mul Rat.inv Rat.add Rat.sub Rat.ofScientific

namespace TryParse

/-! ### JSON value model

`serde_json::Value`: a tagged tree of null / bool / number / string / array /
object.  `Number` preserves the integer vs. float distinction
(`as_i64`/`as_u64` succeed only on integer-backed numbers).  Floats are
modelled as exact rationals.  Objects are modelled as entry lists in input
order. -/

inductive JsonNumber where
  | int (i : Int)
  | float (q : ℚ)
deriving DecidableEq, Repr

inductive JsonValue where
  | null
  | bool (b : Bool)
  | num (n : JsonNumber)
  | str (s : String)
  | arr (items : List JsonValue)
  | obj (entries : List (String × JsonValue))

mutual

/-- Structural equality on JSON values (`serde_json::Value: PartialEq`). -/
def JsonValue.beq : JsonValue → JsonValue → Bool
  | .null, .null => true
  | .bool a, .bool b => a == b
  | .num a, .num b => a == b
  | .str a, .str b => a == b
  | .arr xs, .arr ys => JsonValue.beqList xs ys
  | .obj xs, .obj ys => JsonValue.beqEntries xs ys
  | _, _ => false

def JsonValue.beqList : List JsonValue → List JsonValue → Bool
  | [], [] => true
  | x :: xs, y :: ys => JsonValue.beq x y && JsonValue.beqList xs ys
  | _, _ => false

def JsonValue.beqEntries : List (String × JsonValue) → List (String × JsonValue) → Bool
  | [], [] => true
  | (k, v) :: xs, (l, w) :: ys => k == l && JsonValue.beq v w && JsonValue.beqEntries xs ys
  | _, _ => false

end

instance : BEq JsonValue := ⟨JsonValue.beq⟩

/-- `i64::MIN ≤ i < i64::MAX + 1` (range check used by `Number::as_i64`). -/
def inI64Range (i : Int) : Bool := -(2 ^ 63) ≤ i && i < 2 ^ 63

/-- `serde_json::Number::as_i64`: integer-backed numbers in `i64` range only. -/
def JsonNumber.as_i64 : JsonNumber → Option Int
  | .int i => if inI64Range i then some i else none
  | .float _ => none

/-- `serde_json::Number::as_u64`: nonnegative integer-backed numbers in `u64` range. -/
def JsonNumber.as_u64 : JsonNumber → Option Int
  | .int i => if 0 ≤ i && i < 2 ^ 64 then some i else none
  | .float _ => none

/-- `serde_json::Number::as_f64` (lossy for large ints in Rust; exact here). -/
def JsonNumber.as_f64 : JsonNumber → Option ℚ
  | .int i => some (i : ℚ)
  | .float q => some q

/-! ### Fix and transformation taxonomy (src/tryparse/src/value.rs) -/

inductive JsonFix where
  | UnquotedKeys
  | TrailingCommas
  | SingleQuotes
  | MissingCommas
  | UnclosedBraces
  | Comments
  | SmartQuotes
  | FieldNormalization
  | DoubleEscaped
  | TemplateLiterals
  | HexNumbers
  | UnescapedNewlines
  | JavaScriptFunctions
  | TripleQuotedStrings
  | UnquotedValues
deriving DecidableEq, Repr

/-- `JsonFix::penalty` (value.rs:387-410). -/
def JsonFix.penalty : JsonFix → Nat
  | .TrailingCommas => 1
  | .Comments => 1
  | .SmartQuotes => 1
  | .DoubleEscaped => 1
  | .TemplateLiterals => 1
  | .UnescapedNewlines => 1
  | .JavaScriptFunctions => 1
  | .SingleQuotes => 2
  | .UnquotedKeys => 2
  | .HexNumbers => 2
  | .TripleQuotedStrings => 2
  | .MissingCommas => 3
  | .UnclosedBraces => 3
  | .UnquotedValues => 5
  | .FieldNormalization => 4

inductive Source where
  | Direct
  | Markdown (lang : Option String)
  | Fixed (fixes : List JsonFix)
  | MultiJson (index : Nat)
  | MultiJsonArray
  | Heuristic (pat : String)
  | Yaml
deriving DecidableEq, Repr

inductive Transformation where
  | ExtractedFromMarkdown
  | JsonRepaired (fixes : List JsonFix)
  | StringToNumber (original : String)
  | FloatToInt (original : ℚ)
  | SingleToArray
  | FieldNameCaseChanged (fromName toName : String)
  | DefaultValueInserted (field : String)
  | ExtraKey (key : String)
  | ImpliedKey (field : String)
  | ObjectFromMarkdown (score : Int)
  | ArrayItemParseError (index : Nat) (error : String)
  | JsonToString (original : String)
  | ConstraintChecked (name : String) (passed isAssert : Bool)
  | DefaultButHadUnparseableValue (field bad error : String)
  | SubstringMatch (original target : String)
  | StrippedNonAlphaNumeric (original stripped : String)
  | UnionMatch (index : Nat) (candidates : List String)
  | FirstMatch (index total : Nat)
deriving DecidableEq, Repr

/-- `Transformation::penalty` (value.rs:591-633). -/
def Transformation.penalty : Transformation → Nat
  | .ExtractedFromMarkdown => 0
  | .JsonRepaired _ => 0
  | .StringToNumber _ => 2
  | .FloatToInt _ => 3
  | .SingleToArray => 5
  | .FieldNameCaseChanged _ _ => 4
  | .DefaultValueInserted _ => 50
  | .ExtraKey _ => 10
  | .ImpliedKey _ => 8
  | .ObjectFromMarkdown score => if 0 ≤ score then score.toNat else 0
  | .ArrayItemParseError index _ => 1 + index
  | .JsonToString _ => 2
  | .ConstraintChecked _ passed isAssert =>
      match passed, isAssert with
      | false, true => 100
      | false, false => 10
      | true, _ => 0
  | .DefaultButHadUnparseableValue _ _ _ => 2
  | .SubstringMatch _ _ => 2
  | .StrippedNonAlphaNumeric _ _ => 3
  | .UnionMatch _ _ => 0
  | .FirstMatch _ _ => 1

/-! ### FlexValue (src/tryparse/src/value.rs)

`confidence` is an `f32` in Rust; it is modelled as an exact rational. -/

/-- `CONFIDENCE_PENALTY_FACTOR` (value.rs:9). -/
def CONFIDENCE_PENALTY_FACTOR : ℚ := 0.95

structure FlexValue where
  value : JsonValue
  source : Source
  transformations : List Transformation
  confidence : ℚ
  max_transformation_depth : Nat

/-- `FlexValue::new` (value.rs:64-72). -/
def FlexValue.new (value : JsonValue) (source : Source) : FlexValue :=
  { value := value
    source := source
    transformations := []
    confidence := 1
    max_transformation_depth := 0 }

/-- `FlexValue::from_fixed_json` (value.rs:76-84). -/
def FlexValue.from_fixed_json (value : JsonValue) (fixes : List JsonFix) : FlexValue :=
  { value := value
    source := .Fixed fixes
    transformations := []
    confidence := 0.9
    max_transformation_depth := 0 }

/-- `FlexValue::add_transformation` (value.rs:89-92). -/
def FlexValue.add_transformation (v : FlexValue) (t : Transformation) : FlexValue :=
  { v with
    transformations := v.transformations ++ [t]
    confidence := v.confidence * CONFIDENCE_PENALTY_FACTOR }

/-- `FlexValue::add_transformation_at_depth` (value.rs:98-102). -/
def FlexValue.add_transformation_at_depth (v : FlexValue) (t : Transformation)
    (depth : Nat) : FlexValue :=
  { v with
    transformations := v.transformations ++ [t]
    confidence := v.confidence * CONFIDENCE_PENALTY_FACTOR
    max_transformation_depth := max v.max_transformation_depth depth }

/-! ### Scoring (src/tryparse/src/scoring.rs) -/

/-- `DEPTH_SCORE_MULTIPLIER` (scoring.rs:7). -/
def DEPTH_SCORE_MULTIPLIER : Nat := 10

/-- `source_base_score` (scoring.rs:71-87). -/
def source_base_score : Source → Nat
  | .Direct => 0
  | .Markdown _ => 10
  | .Yaml => 15
  | .Fixed fixes => 20 + (fixes.map JsonFix.penalty).sum
  | .MultiJsonArray => 25
  | .MultiJson _ => 30
  | .Heuristic _ => 50

/-- Rust's `expr as u32` applied to a nonnegative-or-clamped float expression:
truncation toward zero with saturation at 0. On the values that arise
(`(1 - confidence) * 100`), truncation toward zero agrees with
`Int.toNat ∘ Rat.floor`: both give `⌊q⌋` for `q ≥ 0` and `0` for `q < 0`. -/
def ratAsU32 (q : ℚ) : Nat := (Rat.floor q).toNat

/-- `score_candidate_recursive` (scoring.rs:40-65). -/
def score_candidate_recursive (candidate : FlexValue) (use_recursive : Bool) : Nat :=
  let score := source_base_score candidate.source
  let transformation_score := (candidate.transformations.map Transformation.penalty).sum
  let score :=
    if use_recursive && candidate.max_transformation_depth > 0 then
      score + transformation_score * DEPTH_SCORE_MULTIPLIER ^ candidate.max_transformation_depth
    else
      score + transformation_score
  let confidence_penalty := ratAsU32 ((1 - candidate.confidence) * 100)
  score + confidence_penalty

/-- `score_candidate` (scoring.rs:32-34). -/
def score_candidate (candidate : FlexValue) : Nat :=
  score_candidate_recursive candidate false

/-- Stable insertion used to model `rank_candidates` (scoring.rs:109-112), which
sorts by `score_candidate` with Rust's stable `sort_by_cached_key`. Equal
scores keep earlier candidates first. -/
def insertRanked (c : FlexValue) : List FlexValue → List FlexValue
  | [] => [c]
  | d :: ds =>
      if score_candidate c ≤ score_candidate d then c :: d :: ds
      else d :: insertRanked c ds

/-- `rank_candidates` (scoring.rs:109-112): stable sort by score, best first. -/
def rank_candidates : List FlexValue → List FlexValue
  | [] => []
  | c :: cs => insertRanked c (rank_candidates cs)

/-- `best_candidate` (scoring.rs:133-140). -/
def best_candidate (candidates : List FlexValue) : Option FlexValue :=
  (rank_candidates candidates).head?

/-! ### Errors (src/tryparse/src/error.rs) -/

inductive DeserializeError where
  | TypeMismatch (expected found : String)
  | MissingField (field : String)
  | InvalidValue (message : String)
  | UnknownVariant (enumName variant : String)
  | Custom (msg : String)
  | DepthLimitExceeded (depth maxDepth : Nat)
  | CircularReference (typeName : String)
deriving DecidableEq, Repr

inductive ParseError where
  | NoCandidates
  | AllStrategiesFailed (attempts : List (String × String))
  | DeserializeFailed (e : DeserializeError)
  | JsonError (msg : String)
  | InvalidConfig (msg : String)
deriving DecidableEq, Repr

/-! ### Coercion context (src/tryparse/src/deserializer/traits.rs)

The Rust visited sets are `HashSet<(String, FlexValue)>` where `FlexValue`'s
`Eq`/`Hash` consider only the `value` field (value.rs:33-49); the sets are
therefore modelled as lists of `(type_name, JsonValue)` pairs with structural
equality, and `&mut CoercionContext` becomes explicit state passing. -/

structure ConstraintResult where
  isAssert : Bool
  name : String
  description : String
  passed : Bool
deriving DecidableEq, Repr

/-- `DEFAULT_MAX_DEPTH` (traits.rs:12). -/
def DEFAULT_MAX_DEPTH : Nat := 100

structure CoercionContext where
  visited_for_strict : List (String × JsonValue)
  visited_for_lenient : List (String × JsonValue)
  depth : Nat
  max_depth : Nat
  scope : List String
  constraints : List ConstraintResult
  transformations : List Transformation

/-- `CoercionContext::new` (traits.rs:42-52). -/
def CoercionContext.new : CoercionContext :=
  { visited_for_strict := []
    visited_for_lenient := []
    depth := 0
    max_depth := DEFAULT_MAX_DEPTH
    scope := ["<root>"]
    constraints := []
    transformations := [] }

/-- `CoercionContext::with_max_depth` (traits.rs:55-65). -/
def CoercionContext.with_max_depth (max_depth : Nat) : CoercionContext :=
  { CoercionContext.new with max_depth := max_depth }

/-- `CoercionContext::add_transformation` (traits.rs:115-117). -/
def CoercionContext.add_transformation (ctx : CoercionContext) (t : Transformation) :
    CoercionContext :=
  { ctx with transformations := ctx.transformations ++ [t] }

/-- Membership in a visited set (`HashSet::contains` with FlexValue's
value-only equality). -/
def visitedContains (set : List (String × JsonValue)) (type_name : String)
    (value : JsonValue) : Bool :=
  set.any (fun p => p.1 == type_name && p.2 == value)

/-- `CoercionContext::check_can_enter_strict` (traits.rs:134-155). -/
def CoercionContext.check_can_enter_strict (ctx : CoercionContext) (type_name : String)
    (value : FlexValue) : Except ParseError Unit :=
  if ctx.depth ≥ ctx.max_depth then
    .error (.DeserializeFailed (.DepthLimitExceeded ctx.depth ctx.max_depth))
  else if visitedContains ctx.visited_for_strict type_name value.value then
    .error (.DeserializeFailed (.CircularReference type_name))
  else
    .ok ()

/-- `CoercionContext::with_visited_strict` (traits.rs:160-167). -/
def CoercionContext.with_visited_strict (ctx : CoercionContext) (type_name : String)
    (value : FlexValue) : CoercionContext :=
  { ctx with
    visited_for_strict := ctx.visited_for_strict ++ [(type_name, value.value)]
    depth := ctx.depth + 1 }

/-- `CoercionContext::check_can_enter_lenient` (traits.rs:172-193). -/
def CoercionContext.check_can_enter_lenient (ctx : CoercionContext) (type_name : String)
    (value : FlexValue) : Except ParseError Unit :=
  if ctx.depth ≥ ctx.max_depth then
    .error (.DeserializeFailed (.DepthLimitExceeded ctx.depth ctx.max_depth))
  else if visitedContains ctx.visited_for_lenient type_name value.value then
    .error (.DeserializeFailed (.CircularReference type_name))
  else
    .ok ()

/-- `CoercionContext::with_visited_lenient` (traits.rs:198-205). -/
def CoercionContext.with_visited_lenient (ctx : CoercionContext) (type_name : String)
    (value : FlexValue) : CoercionContext :=
  { ctx with
    visited_for_lenient := ctx.visited_for_lenient ++ [(type_name, value.value)]
    depth := ctx.depth + 1 }

/-! ### Rust standard-library string and number helpers used by the coercers -/

def isAsciiDigit (c : Char) : Bool := '0' ≤ c && c ≤ '9'

def digitVal (c : Char) : Nat := c.toNat - '0'.toNat

/-- Numeric value of a nonempty all-digit character list. -/
def digitsToNat (cs : List Char) : Nat := cs.foldl (fun a c => a * 10 + digitVal c) 0

/-- Whole-string unsigned digit run, as used by integer `from_str`. -/
def parseDigitsNat (cs : List Char) : Option Nat :=
  if cs ≠ [] && cs.all isAsciiDigit then some (digitsToNat cs) else none

/-- Rust `char::is_whitespace` (Unicode `White_Space`). -/
def isRustWhitespace (c : Char) : Bool :=
  ['\u0009', '\u000a', '\u000b', '\u000c', '\u000d', '\u0020', '\u0085',
   '\u00a0', '\u1680', '\u2000', '\u2001', '\u2002', '\u2003', '\u2004',
   '\u2005', '\u2006', '\u2007', '\u2008', '\u2009', '\u200a', '\u2028',
   '\u2029', '\u202f', '\u205f', '\u3000'].contains c

/-- Rust `str::trim` on character lists. -/
def trimChars (cs : List Char) : List Char :=
  ((cs.dropWhile isRustWhitespace).reverse.dropWhile isRustWhitespace).reverse

/-- Rust `str::trim_end_matches(',')`: strips every trailing comma. -/
def trimEndCommas (cs : List Char) : List Char :=
  (cs.reverse.dropWhile (· == ',')).reverse

/-- Rust `str::parse::<i64>`: optional sign, then one or more ASCII digits,
with an `i64` range check. -/
def parseI64 (cs : List Char) : Option Int :=
  let signed : Option Int :=
    match cs with
    | '+' :: rest => (parseDigitsNat rest).map Int.ofNat
    | '-' :: rest => (parseDigitsNat rest).map (fun n => -(n : Int))
    | rest => (parseDigitsNat rest).map Int.ofNat
  signed.bind (fun i => if inI64Range i then some i else none)

/-- Rust `str::parse::<u64>`: optional `+`, digits, `u64` range check.
The value is returned as an `Int` for further use. -/
def parseU64 (cs : List Char) : Option Int :=
  let ds := match cs with
    | '+' :: rest => rest
    | rest => rest
  (parseDigitsNat ds).bind (fun n => if (n : Int) < 2 ^ 64 then some (n : Int) else none)

/-- `u as i64` two's-complement wrap for `u ∈ [0, 2^64)`. -/
def u64AsI64 (u : Int) : Int := if u < 2 ^ 63 then u else u - 2 ^ 64

/-- Fractional value of a digit run placed after the decimal point. -/
def fracOfDigits (ds : List Char) : ℚ :=
  (digitsToNat ds : ℚ) / (10 : ℚ) ^ ds.length

/-- Mantissa of a float literal: integer digits, then optionally a point and
fraction digits. Returns the value, whether at least one digit was seen, and
the rest of the input. -/
def parseMantissa (cs : List Char) : ℚ × Bool × List Char :=
  let ip := cs.takeWhile isAsciiDigit
  let r1 := cs.dropWhile isAsciiDigit
  match r1 with
  | '.' :: rest =>
      let fp := rest.takeWhile isAsciiDigit
      let r2 := rest.dropWhile isAsciiDigit
      ((digitsToNat ip : ℚ) + fracOfDigits fp, !ip.isEmpty || !fp.isEmpty, r2)
  | _ => ((digitsToNat ip : ℚ), !ip.isEmpty, r1)

/-- Signed decimal exponent (`[+-]?digits`, whole-string). -/
def parseExpPart (cs : List Char) : Option Int :=
  match cs with
  | '+' :: rest => (parseDigitsNat rest).map Int.ofNat
  | '-' :: rest => (parseDigitsNat rest).map (fun n => -(n : Int))
  | rest => (parseDigitsNat rest).map Int.ofNat

/-- Rust `str::parse::<f64>`, modelled exactly over ℚ: `[+-]? (digits [.
digits*]? | . digits) ([eE][+-]?digits)?`.  The special forms `inf`,
`infinity` and `nan` (which have no rational value) are not modelled, and
binary rounding is not applied; the claims under proof only involve exact
decimal values. -/
def parseF64 (cs : List Char) : Option ℚ :=
  let sb : ℚ × List Char :=
    match cs with
    | '+' :: rest => (1, rest)
    | '-' :: rest => (-1, rest)
    | rest => (1, rest)
  let sign := sb.1
  let pm := parseMantissa sb.2
  if !pm.2.1 then none
  else
    match pm.2.2 with
    | [] => some (sign * pm.1)
    | c :: rest =>
        if c = 'e' ∨ c = 'E' then
          (parseExpPart rest).map (fun e => sign * pm.1 * (10 : ℚ) ^ e)
        else none

/-- Rust `f64::round`: round half away from zero (for negative arguments,
`round(q) = -round(-q)`, and `⌈q - 1/2⌉ = -⌊-q + 1/2⌋`). -/
def rustRound (q : ℚ) : Int :=
  if 0 ≤ q then Rat.floor (q + 1 / 2) else -Rat.floor (-q + 1 / 2)

/-! ### JSON serialization (model of `serde_json::to_string`)

Only the escaping structure matters for the proofs (which characters can
appear in the output); float rendering is modelled as exact decimal digits. -/

/-- Digit characters of a natural number, most significant first. -/
def natReprChars (n : Nat) : List Char :=
  let rec go (fuel n : Nat) (acc : List Char) : List Char :=
    match fuel with
    | 0 => acc
    | fuel + 1 =>
        if n = 0 then acc
        else go fuel (n / 10) (Char.ofNat ('0'.toNat + n % 10) :: acc)
  if n = 0 then ['0'] else go (n + 1) n []

def intReprChars (i : Int) : List Char :=
  if i < 0 then '-' :: natReprChars i.natAbs else natReprChars i.natAbs

/-- Hex digit character (uppercase, as serde emits `\u00XX` escapes). -/
def hexDigitChar (n : Nat) : Char :=
  if n < 10 then Char.ofNat ('0'.toNat + n) else Char.ofNat ('A'.toNat + (n - 10))

/-- serde_json's string escaping: `"` and `\` are escaped, control characters
use the short escapes or `\u00XX`; everything else is emitted verbatim. -/
def escapeJsonChar (c : Char) : List Char :=
  if c = '"' then ['\\', '"']
  else if c = '\\' then ['\\', '\\']
  else if c = '\x08' then ['\\', 'b']
  else if c = '\x09' then ['\\', 't']
  else if c = '\x0a' then ['\\', 'n']
  else if c = '\x0c' then ['\\', 'f']
  else if c = '\x0d' then ['\\', 'r']
  else if c.toNat < 0x20 then
    ['\\', 'u', '0', '0', hexDigitChar (c.toNat / 16), hexDigitChar (c.toNat % 16)]
  else [c]

def encodeJsonString (s : String) : List Char :=
  '"' :: (s.data.flatMap escapeJsonChar) ++ ['"']

/-- Smallest `k ≤ 64` with `d ∣ 10^k`, for decimal float rendering. -/
def pow10Multiple (d : Nat) : Option Nat :=
  (List.range 65).find? (fun k => 10 ^ k % d = 0)

/-- Decimal digits of `n` padded on the left to at least `k + 1` digits,
with a point inserted `k` places from the right. -/
def insertDecimalPoint (n : Nat) (k : Nat) : List Char :=
  let ds := natReprChars n
  let ds := List.replicate (k + 1 - ds.length) '0' ++ ds
  ds.take (ds.length - k) ++ '.' :: ds.drop (ds.length - k)

/-- Rendering of a float value as decimal text (models ryu's shortest
round-trip output; the exact digits are irrelevant to the proofs, the
character set is what matters). -/
def floatReprChars (q : ℚ) : List Char :=
  if q.den = 1 then intReprChars q.num ++ ['.', '0']
  else
    match pow10Multiple q.den with
    | some k =>
        let scaled := q.num.natAbs * (10 ^ k / q.den)
        (if q.num < 0 then ['-'] else []) ++ insertDecimalPoint scaled k
    | none => intReprChars q.num ++ '/' :: natReprChars q.den

def numReprChars : JsonNumber → List Char
  | .int i => intReprChars i
  | .float q => floatReprChars q

mutual

/-- `serde_json::to_string` (compact form), as a character list. -/
def jsonToStringVal : JsonValue → List Char
  | .null => "null".data
  | .bool b => (if b then "true" else "false").data
  | .num n => numReprChars n
  | .str s => encodeJsonString s
  | .arr items => '[' :: jsonToStringItems items ++ [']']
  | .obj entries => '{' :: jsonToStringEntries entries ++ ['}']

def jsonToStringItems : List JsonValue → List Char
  | [] => []
  | [x] => jsonToStringVal x
  | x :: xs => jsonToStringVal x ++ ',' :: jsonToStringItems xs

def jsonToStringEntries : List (String × JsonValue) → List Char
  | [] => []
  | [(k, v)] => encodeJsonString k ++ ':' :: jsonToStringVal v
  | (k, v) :: xs =>
      encodeJsonString k ++ ':' :: jsonToStringVal v ++ ',' :: jsonToStringEntries xs

end

/-- `Value::to_string()` / `serde_json::to_string(&value)`. -/
def json_to_string (v : JsonValue) : String := String.mk (jsonToStringVal v)

/-- `value_type_name` (primitives.rs:366-375). -/
def value_type_name : JsonValue → String
  | .null => "null"
  | .bool _ => "bool"
  | .num _ => "number"
  | .str _ => "string"
  | .arr _ => "array"
  | .obj _ => "object"

/-! ### BAML number helpers (src/tryparse/src/deserializer/primitives.rs) -/

/-- `str::split_once('/')`. -/
def splitOnceSlash : List Char → Option (List Char × List Char)
  | [] => none
  | '/' :: rest => some ([], rest)
  | c :: rest => (splitOnceSlash rest).map (fun p => (c :: p.1, p.2))

/-- `parse_fraction` (primitives.rs:300-312): `"a/b"` with both sides parsing
as floats and a nonzero denominator. -/
def parse_fraction (cs : List Char) : Option ℚ :=
  match splitOnceSlash cs with
  | some (numerator, denominator) =>
      match parseF64 (trimChars numerator), parseF64 (trimChars denominator) with
      | some num, some denom => if denom ≠ 0 then some (num / denom) else none
      | _, _ => none
  | none => none

/-- Unicode general category `Sc` (currency symbols), the class matched by the
`CURRENCY_REGEX` `\p{Sc}` (primitives.rs:330-331). -/
def isScChar (c : Char) : Bool :=
  ['$', '¢', '£', '¤', '¥', '֏', '؋', '߾',
   '߿', '৲', '৳', '৻', '૱', '௹', '฿', '៛',
   '₠', '₡', '₢', '₣', '₤', '₥', '₦', '₧',
   '₨', '₩', '₪', '₫', '€', '₭', '₮', '₯',
   '₰', '₱', '₲', '₳', '₴', '₵', '₶', '₷',
   '₸', '₹', '₺', '₻', '₼', '₽', '₾', '₿',
   '⃀', '꠸', '﷼', '﹩', '＄', '￠', '￡', '￥',
   '￦'].contains c

/-! Matcher for the `NUMBER_REGEX`
`([-+]?)\$?(?:\d+(?:,\d+)*(?:\.\d+)?|\d+\.\d+|\d+|\.\d+)(?:e[-+]?\d+)?%?`
(primitives.rs:324-327), with the regex crate's leftmost-first semantics.
Optional groups are matched greedily; a failed optional group consumes
nothing, which is exact here because no later part of the pattern can consume
the characters a failed group rejected.  The second and third alternatives of
the number body are subsumed by the first, so the body reduces to
`\d+(?:,\d+)*(?:\.\d+)?` or `\.\d+`.  `\d` is modelled as an ASCII digit. -/

/-- `(?:,\d+)*`, greedy. -/
def takeCommaGroups : Nat → List Char → List Char × List Char
  | 0, cs => ([], cs)
  | fuel + 1, ',' :: rest =>
      let ds := rest.takeWhile isAsciiDigit
      if ds.isEmpty then ([], ',' :: rest)
      else
        let p := takeCommaGroups fuel (rest.dropWhile isAsciiDigit)
        (',' :: (ds ++ p.1), p.2)
  | _ + 1, cs => ([], cs)

/-- `(?:\.\d+)?`, greedy. -/
def takeFracGroup : List Char → List Char × List Char
  | '.' :: rest =>
      let ds := rest.takeWhile isAsciiDigit
      if ds.isEmpty then ([], '.' :: rest)
      else ('.' :: ds, rest.dropWhile isAsciiDigit)
  | cs => ([], cs)

/-- `(?:e[-+]?\d+)?`, greedy (lowercase `e` only, as in the pattern). -/
def takeExpGroup : List Char → List Char × List Char
  | 'e' :: rest =>
      let sr : List Char × List Char :=
        match rest with
        | '+' :: r => (['+'], r)
        | '-' :: r => (['-'], r)
        | r => ([], r)
      let ds := sr.2.takeWhile isAsciiDigit
      if ds.isEmpty then ([], 'e' :: rest)
      else ('e' :: (sr.1 ++ ds), sr.2.dropWhile isAsciiDigit)
  | cs => ([], cs)

/-- `%?`. -/
def takePercent : List Char → List Char × List Char
  | '%' :: rest => (['%'], rest)
  | cs => ([], cs)

/-- The number body of the pattern. -/
def takeNumberCore (cs : List Char) : Option (List Char × List Char) :=
  let ds := cs.takeWhile isAsciiDigit
  if !ds.isEmpty then
    let r := cs.dropWhile isAsciiDigit
    let cg := takeCommaGroups r.length r
    let fg := takeFracGroup cg.2
    some (ds ++ cg.1 ++ fg.1, fg.2)
  else
    match cs with
    | '.' :: rest =>
        let fs := rest.takeWhile isAsciiDigit
        if fs.isEmpty then none
        else some ('.' :: fs, rest.dropWhile isAsciiDigit)
    | _ => none

/-- Anchored match of the whole pattern at the start of `cs`.  If the optional
sign or `$` is present but the number body then fails, no match starts here:
retrying without the optional prefix puts a sign or `$` where the body needs a
digit or a point. -/
def matchNumberAt (cs : List Char) : Option (List Char × List Char) :=
  let sb : List Char × List Char :=
    match cs with
    | '-' :: r => (['-'], r)
    | '+' :: r => (['+'], r)
    | r => ([], r)
  let db : List Char × List Char :=
    match sb.2 with
    | '$' :: r => (['$'], r)
    | r => ([], r)
  match takeNumberCore db.2 with
  | some (core, r1) =>
      let eg := takeExpGroup r1
      let pg := takePercent eg.2
      some (sb.1 ++ db.1 ++ core ++ eg.1 ++ pg.1, pg.2)
  | none => none

/-- `NUMBER_REGEX.find_iter`: successive non-overlapping leftmost matches. -/
def findIterNumber : Nat → List Char → List (List Char)
  | 0, _ => []
  | _, [] => []
  | fuel + 1, cs =>
      match matchNumberAt cs with
      | some (m, r) => m :: findIterNumber fuel r
      | none => findIterNumber fuel cs.tail

def find_number_matches (cs : List Char) : List (List Char) :=
  findIterNumber cs.length cs

/-- `parse_comma_separated_number` (primitives.rs:334-362): exactly one regex
match; strip commas, strip `\p{Sc}` currency symbols, strip the trailing `%`
without dividing, then parse as a float. -/
def parse_comma_separated_number (cs : List Char) : Option ℚ :=
  match find_number_matches cs with
  | [m] =>
      let without_commas := m.filter (fun c => !(c == ','))
      let without_currency := without_commas.filter (fun c => !isScChar c)
      let without_percent := (without_currency.reverse.dropWhile (· == '%')).reverse
      parseF64 without_percent
  | _ => none

/-! ### Primitive coercers (src/tryparse/src/deserializer/primitives.rs)

`&FlexValue` receivers only read `.value` and `.source`, so the lenient
deserializers recurse on those two components (the array-unwrapping branch
recurses on the single element).  At primitives.rs:44-46, 67-69, 74-76, 80-82,
95-96, 166-169, 183-184 and 247-248 the Rust code clones the input FlexValue,
calls `add_transformation` on the clone, and immediately drops the clone; the
transformation therefore never reaches the coercion context or the caller, and
the embedding's context is returned unchanged at those points. -/

/-- `<i64 as LlmDeserialize>::deserialize` (primitives.rs:34-109). -/
def i64_deserialize_val : JsonValue → Source → CoercionContext →
    Except ParseError (Int × CoercionContext)
  | .num n, _, ctx =>
      match n.as_i64 with
      | some i => .ok (i, ctx)
      | none =>
          match n.as_u64 with
          | some u => .ok (u64AsI64 u, ctx)
          | none =>
              match n.as_f64 with
              | some f => .ok (rustRound f, ctx)
              | none => .error (.DeserializeFailed (.TypeMismatch "integer" "invalid number"))
  | .str s, _, ctx =>
      let t := trimEndCommas (trimChars s.data)
      match parseI64 t with
      | some i => .ok (i, ctx)
      | none =>
          match parseU64 t with
          | some u => .ok (u64AsI64 u, ctx)
          | none =>
              match parseF64 t with
              | some f => .ok (rustRound f, ctx)
              | none =>
                  match parse_fraction t with
                  | some f => .ok (rustRound f, ctx)
                  | none =>
                      match parse_comma_separated_number t with
                      | some f => .ok (rustRound f, ctx)
                      | none =>
                          .error (.DeserializeFailed
                            (.TypeMismatch "integer" ("string: " ++ String.mk t)))
  | .arr [x], src, ctx => i64_deserialize_val x src ctx
  | v, _, _ => .error (.DeserializeFailed (.TypeMismatch "integer" (value_type_name v)))
termination_by structural v _ _ => v

/-- `<f64 as LlmDeserialize>::deserialize` (primitives.rs:125-197). -/
def f64_deserialize_val : JsonValue → Source → CoercionContext →
    Except ParseError (ℚ × CoercionContext)
  | .num n, _, ctx =>
      match n.as_f64 with
      | some f => .ok (f, ctx)
      | none => .error (.DeserializeFailed (.TypeMismatch "float" "invalid number"))
  | .str s, _, ctx =>
      let t := trimEndCommas (trimChars s.data)
      match parseF64 t with
      | some f => .ok (f, ctx)
      | none =>
          match parseI64 t with
          | some i => .ok ((i : ℚ), ctx)
          | none =>
              match parseU64 t with
              | some u => .ok ((u : ℚ), ctx)
              | none =>
                  match parse_fraction t with
                  | some f => .ok (f, ctx)
                  | none =>
                      match parse_comma_separated_number t with
                      | some f => .ok (f, ctx)
                      | none =>
                          .error (.DeserializeFailed
                            (.TypeMismatch "float" ("string: " ++ String.mk t)))
  | .arr [x], src, ctx => f64_deserialize_val x src ctx
  | v, _, _ => .error (.DeserializeFailed (.TypeMismatch "float" (value_type_name v)))
termination_by structural v _ _ => v

/-- Rust `str::to_lowercase` (modelled per character). -/
def rustToLowercase (s : String) : String := String.mk (s.data.map Char.toLower)

/-- `<bool as LlmDeserialize>::deserialize` (primitives.rs:213-261). -/
def bool_deserialize_val : JsonValue → Source → CoercionContext →
    Except ParseError (Bool × CoercionContext)
  | .bool b, _, ctx => .ok (b, ctx)
  | .str s, _, ctx =>
      if rustToLowercase s = "true" then .ok (true, ctx)
      else if rustToLowercase s = "false" then .ok (false, ctx)
      else .error (.DeserializeFailed (.TypeMismatch "bool" ("string: " ++ s)))
  | .num n, _, ctx =>
      match n.as_i64 with
      | some i => .ok (decide (i ≠ 0), ctx)
      | none =>
          match n.as_f64 with
          | some f => .ok (decide (f ≠ 0), ctx)
          | none => .error (.DeserializeFailed (.TypeMismatch "bool" "number"))
  | .arr [x], src, ctx => bool_deserialize_val x src ctx
  | v, _, _ => .error (.DeserializeFailed (.TypeMismatch "bool" (value_type_name v)))
termination_by structural v _ _ => v

/-- A pair of the two coercion modes of `LlmDeserialize`, used to pass
type-class instances to the generic container/union code. -/
structure Coercer (α : Type) where
  try_deserialize : FlexValue → CoercionContext → Option (α × CoercionContext)
  deserialize : FlexValue → CoercionContext → Except ParseError (α × CoercionContext)

/-- `impl LlmDeserialize for i64` (primitives.rs:25-110). -/
def i64Coercer : Coercer Int where
  try_deserialize v ctx :=
    match v.value with
    | .num n => (n.as_i64).map (fun i => (i, ctx))
    | _ => none
  deserialize v ctx := i64_deserialize_val v.value v.source ctx

/-- `impl LlmDeserialize for f64` (primitives.rs:116-198). -/
def f64Coercer : Coercer ℚ where
  try_deserialize v ctx :=
    match v.value with
    | .num n => (n.as_f64).map (fun f => (f, ctx))
    | _ => none
  deserialize v ctx := f64_deserialize_val v.value v.source ctx

/-- `impl LlmDeserialize for bool` (primitives.rs:204-262). -/
def boolCoercer : Coercer Bool where
  try_deserialize v ctx :=
    match v.value with
    | .bool b => some (b, ctx)
    | _ => none
  deserialize v ctx := bool_deserialize_val v.value v.source ctx

/-- `impl LlmDeserialize for String` (primitives.rs:268-291). -/
def stringCoercer : Coercer String where
  try_deserialize v ctx :=
    match v.value with
    | .str s => some (s, ctx)
    | _ => none
  deserialize v ctx :=
    match v.value with
    | .str s => .ok (s, ctx)
    | .num n => .ok (String.mk (numReprChars n), ctx)
    | .bool b => .ok (if b then "true" else "false", ctx)
    | .null => .ok ("null", ctx)
    | .obj entries => .ok (json_to_string (.obj entries), ctx)
    | .arr items => .ok (json_to_string (.arr items), ctx)

/-! ### Containers (src/tryparse/src/deserializer/primitives.rs:381-505) -/

/-- The strict element loop of `Vec<T>::try_deserialize`:
`arr.iter().map(..).collect::<Option<Vec<T>>>()` threading the shared
context. -/
def vecTryGo (c : Coercer α) (src : Source) :
    List JsonValue → CoercionContext → Option (List α × CoercionContext)
  | [], ctx => some ([], ctx)
  | x :: xs, ctx =>
      match c.try_deserialize (FlexValue.new x src) ctx with
      | some (a, ctx') => (vecTryGo c src xs ctx').map (fun p => (a :: p.1, p.2))
      | none => none

/-- `Vec<T>::try_deserialize` (primitives.rs:382-397). -/
def vec_try_deserialize (c : Coercer α) (value : FlexValue) (ctx : CoercionContext) :
    Option (List α × CoercionContext) :=
  match value.value with
  | .arr items => vecTryGo c value.source items ctx
  | _ => none

/-- The lenient element loop of `Vec<T>::deserialize`:
`arr.iter().map(..).collect::<Result<Vec<T>>>()`, which stops at the first
failing element and propagates its error. -/
def vecLenientGo (c : Coercer α) (src : Source) :
    List JsonValue → CoercionContext → Except ParseError (List α × CoercionContext)
  | [], ctx => .ok ([], ctx)
  | x :: xs, ctx =>
      match c.deserialize (FlexValue.new x src) ctx with
      | .ok (a, ctx') => (vecLenientGo c src xs ctx').map (fun p => (a :: p.1, p.2))
      | .error e => .error e

/-- `Vec<T>::deserialize` (primitives.rs:399-418). -/
def vec_deserialize (c : Coercer α) (value : FlexValue) (ctx : CoercionContext) :
    Except ParseError (List α × CoercionContext) :=
  match value.value with
  | .arr items => vecLenientGo c value.source items ctx
  | _ => (c.deserialize value ctx).map (fun p => ([p.1], p.2))

/-- `HashMap::insert`: replaces the value of an existing key, appends
otherwise. -/
def mapInsert [BEq κ] (m : List (κ × α)) (k : κ) (v : α) : List (κ × α) :=
  if m.any (fun p => p.1 == k) then m.map (fun p => if p.1 == k then (k, v) else p)
  else m ++ [(k, v)]

/-- The strict entry loop of `HashMap<K, V>::try_deserialize`
(primitives.rs:436-459). -/
def hashmapTryGo [BEq κ] (kc : Coercer κ) (vc : Coercer α) (src : Source) :
    List (String × JsonValue) → List (κ × α) → CoercionContext →
      Option (List (κ × α) × CoercionContext)
  | [], m, ctx => some (m, ctx)
  | (key_str, val) :: rest, m, ctx =>
      match kc.try_deserialize (FlexValue.new (.str key_str) src) ctx with
      | none => none
      | some (k, ctx') =>
          match vc.try_deserialize (FlexValue.new val src) ctx' with
          | none => none
          | some (v, ctx'') => hashmapTryGo kc vc src rest (mapInsert m k v) ctx''

/-- `HashMap<K, V>::try_deserialize` (primitives.rs:436-459). -/
def hashmap_try_deserialize [BEq κ] (kc : Coercer κ) (vc : Coercer α)
    (value : FlexValue) (ctx : CoercionContext) :
    Option (List (κ × α) × CoercionContext) :=
  match value.value with
  | .obj entries => hashmapTryGo kc vc value.source entries [] ctx
  | _ => none

/-- The lenient entry loop of `HashMap<K, V>::deserialize`
(primitives.rs:461-500): entries whose key or value fails are skipped.
(When a Rust call fails it may still have mutated the shared context before
erroring; the model resumes from the context as of the last success, which is
identical for every coercer in this file since they never touch the context.) -/
def hashmapLenientGo [BEq κ] (kc : Coercer κ) (vc : Coercer α) (src : Source) :
    List (String × JsonValue) → List (κ × α) → CoercionContext →
      List (κ × α) × CoercionContext
  | [], m, ctx => (m, ctx)
  | (key_str, val) :: rest, m, ctx =>
      match kc.deserialize (FlexValue.new (.str key_str) src) ctx with
      | .error _ => hashmapLenientGo kc vc src rest m ctx
      | .ok (k, ctx') =>
          match vc.deserialize (FlexValue.new val src) ctx' with
          | .error _ => hashmapLenientGo kc vc src rest m ctx'
          | .ok (v, ctx'') => hashmapLenientGo kc vc src rest (mapInsert m k v) ctx''

/-- `HashMap<K, V>::deserialize` (primitives.rs:461-500). -/
def hashmap_deserialize [BEq κ] (kc : Coercer κ) (vc : Coercer α)
    (value : FlexValue) (ctx : CoercionContext) :
    Except ParseError (List (κ × α) × CoercionContext) :=
  match value.value with
  | .obj entries => .ok (hashmapLenientGo kc vc value.source entries [] ctx)
  | _ => .error (.DeserializeFailed (.TypeMismatch "object" "non-object"))

/-! ### Union coercion (src/tryparse/src/deserializer/union_coercer.rs)

The generic Rust method is parameterized by two variant types `V1, V2` with
`Into<T>` conversions; here the two coercers and the two injections into the
union type are explicit arguments.  `ctx.clone()` before each attempt becomes
passing the unchanged `ctx` value. -/

structure UnionVariantMatch (τ : Type) where
  value : τ
  score : Nat
  transformations : List Transformation

/-- `calculate_score_from_context` (union_coercer.rs:178-180). -/
def calculate_score_from_context (ctx : CoercionContext) : Nat :=
  (ctx.transformations.map Transformation.penalty).sum

/-- `UnionDeserializer::try_all` (union_coercer.rs:41-97). -/
def union_try_all (c1 : Coercer α₁) (c2 : Coercer α₂) (f1 : α₁ → τ) (f2 : α₂ → τ)
    (value : FlexValue) (ctx : CoercionContext) : List (UnionVariantMatch τ) :=
  let strict1 : List (UnionVariantMatch τ) :=
    match c1.try_deserialize value ctx with
    | some (v1, ctx1) => [{ value := f1 v1, score := 0, transformations := ctx1.transformations }]
    | none => []
  let strict2 : List (UnionVariantMatch τ) :=
    match c2.try_deserialize value ctx with
    | some (v2, ctx2) => [{ value := f2 v2, score := 0, transformations := ctx2.transformations }]
    | none => []
  let strictMatches := strict1 ++ strict2
  if strictMatches.isEmpty then
    let lenient1 : List (UnionVariantMatch τ) :=
      match c1.deserialize value ctx with
      | .ok (v1, ctx1) =>
          [{ value := f1 v1, score := calculate_score_from_context ctx1,
             transformations := ctx1.transformations }]
      | .error _ => []
    let lenient2 : List (UnionVariantMatch τ) :=
      match c2.deserialize value ctx with
      | .ok (v2, ctx2) =>
          [{ value := f2 v2, score := calculate_score_from_context ctx2,
             transformations := ctx2.transformations }]
      | .error _ => []
    lenient1 ++ lenient2
  else strictMatches

/-! ### Struct coercion (src/tryparse/src/deserializer/struct_coercer.rs)

`deserialize_fn` models the `FnMut(&str, &FlexValue, &mut CoercionContext,
bool) -> Result<Box<dyn Any>>` dispatcher: the `Box<dyn Any>` payload becomes
a type parameter `β` and the mutable context is threaded.  When a Rust call
fails it may still have mutated the shared context before erroring; as with
the containers, the model resumes from the context passed in. -/

structure FieldDescriptor where
  name : String
  type_name : String
  is_optional : Bool

/-- `serde_json::Map::get`. -/
def objGet (obj : List (String × JsonValue)) (k : String) : Option JsonValue :=
  (obj.find? (fun p => p.1 == k)).map Prod.snd

/-- `to_camel_case` (struct_coercer.rs:174-195). -/
def to_camel_case (s : String) : String :=
  let step := fun (acc : List Char × Bool × Bool) (ch : Char) =>
    let (result, capitalize_next, first_char) := acc
    if ch = '_' then (result, true, first_char)
    else if capitalize_next then (result ++ [ch.toUpper], false, false)
    else if first_char then (result ++ [ch.toLower], false, false)
    else (result ++ [ch], capitalize_next, first_char)
  String.mk (s.data.foldl step ([], false, true)).1

/-- `to_snake_case` (struct_coercer.rs:210-228). -/
def to_snake_case (s : String) : String :=
  let step := fun (result : List Char) (ch : Char) =>
    if ch.isUpper then
      (if result.isEmpty then result else result ++ ['_']) ++ [ch.toLower]
    else if ch = '-' ∨ ch = '.' then result ++ ['_']
    else result ++ [ch]
  String.mk (s.data.foldl step [])

/-- Base letters of the common precomposed Latin characters, modelling NFKD
decomposition followed by removal of combining marks
(`remove_accents`, struct_coercer.rs:248-263). -/
def accentBase (c : Char) : Char :=
  if ['à', 'á', 'â', 'ã', 'ä', 'å'].contains c then 'a'
  else if ['è', 'é', 'ê', 'ë'].contains c then 'e'
  else if ['ì', 'í', 'î', 'ï'].contains c then 'i'
  else if ['ò', 'ó', 'ô', 'õ', 'ö'].contains c then 'o'
  else if ['ù', 'ú', 'û', 'ü'].contains c then 'u'
  else if ['ç'].contains c then 'c'
  else if ['ñ'].contains c then 'n'
  else if ['ý', 'ÿ'].contains c then 'y'
  else if ['À', 'Á', 'Â', 'Ã', 'Ä', 'Å'].contains c then 'A'
  else if ['È', 'É', 'Ê', 'Ë'].contains c then 'E'
  else if ['Ì', 'Í', 'Î', 'Ï'].contains c then 'I'
  else if ['Ò', 'Ó', 'Ô', 'Õ', 'Ö'].contains c then 'O'
  else if ['Ù', 'Ú', 'Û', 'Ü'].contains c then 'U'
  else if ['Ç'].contains c then 'C'
  else if ['Ñ'].contains c then 'N'
  else if ['Ý'].contains c then 'Y'
  else c

/-- `remove_accents` (struct_coercer.rs:248-263): ligature expansion, then
NFKD-decompose and drop combining marks (modelled by `accentBase`). -/
def remove_accents (s : String) : String :=
  let expanded := s.data.flatMap (fun c =>
    if c = 'ß' then ['s', 's']
    else if c = 'æ' then ['a', 'e']
    else if c = 'Æ' then ['A', 'E']
    else if c = 'ø' then ['o']
    else if c = 'Ø' then ['O']
    else if c = 'œ' then ['o', 'e']
    else if c = 'Œ' then ['O', 'E']
    else [c])
  String.mk (expanded.map accentBase)

/-- `strip_punctuation` (struct_coercer.rs:277-281). -/
def strip_punctuation (s : String) : String :=
  String.mk (s.data.filter (fun c => c.isAlphanum ∨ c = '-' ∨ c = '_'))

/-- `FieldMatcher::find_in_object` (struct_coercer.rs:81-152): the six
matching strategies in order.  `allow_substring` is `false` for struct fields
(`FieldMatcher::new`). -/
def find_in_object (expected : String) (allow_substring : Bool)
    (obj : List (String × JsonValue)) : Option (String × JsonValue) :=
  let expected_camel := to_camel_case expected
  let expected_snake := to_snake_case expected
  match obj.find? (fun p => p.1 == expected) with
  | some p => some p
  | none =>
  match obj.find? (fun p =>
      let key := p.1
      let key_camel := to_camel_case key
      let key_snake := to_snake_case key
      key == expected_camel || key == expected_snake ||
      key_camel == expected || key_snake == expected ||
      key_camel == expected_camel || key_snake == expected_snake) with
  | some p => some p
  | none =>
  match obj.find? (fun p => remove_accents p.1 == remove_accents expected) with
  | some p => some p
  | none =>
  match obj.find? (fun p => strip_punctuation p.1 == strip_punctuation expected) with
  | some p => some p
  | none =>
  match obj.find? (fun p =>
      rustToLowercase (strip_punctuation p.1)
        == rustToLowercase (strip_punctuation expected)) with
  | some p => some p
  | none =>
  if allow_substring then
    obj.find? (fun p =>
      let lower_key := rustToLowercase p.1
      let lower_expected := rustToLowercase expected
      lower_key.containsSubstr lower_expected || lower_expected.containsSubstr lower_key)
  else none

/-- Display rendering of deserialization errors (`thiserror` messages),
used for the `error` payloads of tracked transformations. -/
def DeserializeError.toDisplay : DeserializeError → String
  | .TypeMismatch expected found => "Type mismatch: expected " ++ expected ++ ", found " ++ found
  | .MissingField field => "Missing required field: " ++ field
  | .InvalidValue message => "Invalid value: " ++ message
  | .UnknownVariant enumName variant =>
      "Unknown variant '" ++ variant ++ "' for enum " ++ enumName
  | .Custom msg => msg
  | .DepthLimitExceeded d m =>
      "Depth limit exceeded: " ++ String.mk (natReprChars d) ++ " >= " ++ String.mk (natReprChars m)
  | .CircularReference typeName => "Circular reference detected for type: " ++ typeName

def ParseError.toDisplay : ParseError → String
  | .NoCandidates => "No valid candidates found in response"
  | .AllStrategiesFailed _ => "All parsing strategies failed"
  | .DeserializeFailed e => "Deserialization failed: " ++ e.toDisplay
  | .JsonError msg => "JSON error: " ++ msg
  | .InvalidConfig msg => "Invalid configuration: " ++ msg

/-- The field loop of `try_strict_match` (struct_coercer.rs:477-485). -/
def tryStrictFields (f : String → FlexValue → CoercionContext → Bool →
      Except ParseError (β × CoercionContext)) (obj : List (String × JsonValue)) :
    List FieldDescriptor → List (String × β) → CoercionContext →
      Option (List (String × β) × CoercionContext)
  | [], result, ctx => some (result, ctx)
  | field :: rest, result, ctx =>
      match objGet obj field.name with
      | none => none
      | some val =>
          match f field.name (FlexValue.new val .Direct) ctx true with
          | .error _ => none
          | .ok (b, ctx') => tryStrictFields f obj rest (mapInsert result field.name b) ctx'

/-- `try_strict_match` (struct_coercer.rs:464-493): exact keys, strict field
coercion, and no extra keys. -/
def try_strict_match (fields : List FieldDescriptor) (obj : List (String × JsonValue))
    (ctx : CoercionContext)
    (f : String → FlexValue → CoercionContext → Bool →
      Except ParseError (β × CoercionContext)) :
    Option (List (String × β) × CoercionContext) :=
  match tryStrictFields f obj fields [] ctx with
  | none => none
  | some (result, ctx') => if obj.length ≠ fields.length then none else some (result, ctx')

/-- The field loop of `try_lenient_match` (struct_coercer.rs:516-575). -/
def tryLenientFields (f : String → FlexValue → CoercionContext → Bool →
      Except ParseError (β × CoercionContext)) (obj : List (String × JsonValue)) :
    List FieldDescriptor → List (String × β) → List String → List Transformation →
      CoercionContext →
      Except ParseError (List (String × β) × List String × List Transformation × CoercionContext)
  | [], result, matched_keys, st, ctx => .ok (result, matched_keys, st, ctx)
  | field :: rest, result, matched_keys, st, ctx =>
      match find_in_object field.name false obj with
      | some (actual_key, val) =>
          let matched_keys := matched_keys ++ [actual_key]
          let st :=
            if actual_key ≠ field.name then
              st ++ [Transformation.FieldNameCaseChanged actual_key field.name]
            else st
          match f field.name (FlexValue.new val .Direct) ctx false with
          | .ok (b, ctx') =>
              tryLenientFields f obj rest (mapInsert result field.name b) matched_keys st ctx'
          | .error e =>
              if field.is_optional then
                let t := Transformation.DefaultValueInserted field.name
                tryLenientFields f obj rest result matched_keys (st ++ [t])
                  (ctx.add_transformation t)
              else .error e
      | none =>
          if field.is_optional then
            let t := Transformation.DefaultValueInserted field.name
            tryLenientFields f obj rest result matched_keys (st ++ [t])
              (ctx.add_transformation t)
          else .error (.DeserializeFailed (.MissingField field.name))

/-- `try_lenient_match` (struct_coercer.rs:501-587): fuzzy matching, defaults
for optionals, then one `ExtraKey` per unconsumed object key. -/
def try_lenient_match (fields : List FieldDescriptor) (st : List Transformation)
    (obj : List (String × JsonValue)) (ctx : CoercionContext)
    (f : String → FlexValue → CoercionContext → Bool →
      Except ParseError (β × CoercionContext)) :
    Except ParseError (List (String × β) × List Transformation × CoercionContext) :=
  match tryLenientFields f obj fields [] [] st ctx with
  | .error e => .error e
  | .ok (result, matched_keys, st, ctx) =>
      let extras := (obj.filter (fun p => !matched_keys.contains p.1)).map
        (fun p => Transformation.ExtraKey p.1)
      .ok (result, st ++ extras, extras.foldl CoercionContext.add_transformation ctx)

/-- `try_single_field_coercion` (struct_coercer.rs:592-637). -/
def try_single_field_coercion (fields : List FieldDescriptor) (st : List Transformation)
    (value : FlexValue) (ctx : CoercionContext)
    (f : String → FlexValue → CoercionContext → Bool →
      Except ParseError (β × CoercionContext)) :
    Except ParseError (List (String × β) × List Transformation × CoercionContext) :=
  match fields with
  | [field] =>
      match f field.name value ctx false with
      | .ok (b, ctx') =>
          let t := Transformation.ImpliedKey field.name
          .ok ([(field.name, b)], st ++ [t], ctx'.add_transformation t)
      | .error e =>
          if field.is_optional then
            let t := Transformation.DefaultValueInserted field.name
            .ok ([], st ++ [t], ctx.add_transformation t)
          else .error e
  | _ =>
      -- the Rust code asserts `fields.len() == 1`; every caller checks first
      .error (.DeserializeFailed (.Custom "Single field coercion requires exactly one field"))

/-- The indexed field loop of `try_array_to_struct_coercion`
(struct_coercer.rs:677-729). -/
def arrayToStructFields (f : String → FlexValue → CoercionContext → Bool →
      Except ParseError (β × CoercionContext)) (arr : List JsonValue) :
    List FieldDescriptor → Nat → List (String × β) → List Transformation → CoercionContext →
      Except ParseError (List (String × β) × List Transformation × CoercionContext)
  | [], _, result, st, ctx => .ok (result, st, ctx)
  | field :: rest, index, result, st, ctx =>
      match arr.get? index with
      | none =>
          if field.is_optional then
            let t := Transformation.DefaultValueInserted field.name
            arrayToStructFields f arr rest (index + 1) result (st ++ [t])
              (ctx.add_transformation t)
          else .error (.DeserializeFailed (.Custom
            ("Required field '" ++ field.name ++ "' missing - array only has "
              ++ String.mk (natReprChars arr.length) ++ " elements")))
      | some element =>
          match f field.name (FlexValue.new element .Direct) ctx false with
          | .ok (b, ctx') =>
              let t := Transformation.FirstMatch index arr.length
              arrayToStructFields f arr rest (index + 1) (mapInsert result field.name b)
                (st ++ [t]) (ctx'.add_transformation t)
          | .error e =>
              if field.is_optional then
                let t := Transformation.DefaultButHadUnparseableValue field.name
                  (json_to_string element) e.toDisplay
                arrayToStructFields f arr rest (index + 1) result (st ++ [t])
                  (ctx.add_transformation t)
              else .error e

/-- `try_array_to_struct_coercion` (struct_coercer.rs:650-732). -/
def try_array_to_struct_coercion (fields : List FieldDescriptor) (st : List Transformation)
    (arr : List JsonValue) (ctx : CoercionContext)
    (f : String → FlexValue → CoercionContext → Bool →
      Except ParseError (β × CoercionContext)) :
    Except ParseError (List (String × β) × List Transformation × CoercionContext) :=
  let required_count := (fields.filter (fun fd => !fd.is_optional)).length
  if arr.length < required_count then
    .error (.DeserializeFailed (.Custom
      ("Array has " ++ String.mk (natReprChars arr.length) ++ " elements but struct requires "
        ++ String.mk (natReprChars required_count) ++ " fields")))
  else arrayToStructFields f arr fields 0 [] st ctx

/-- `StructDeserializer::deserialize` (struct_coercer.rs:413-457): dispatch on
the value shape, cycle/depth guard on the object branch, strict-first then
lenient matching. -/
def structDeserialize (fields : List FieldDescriptor) (st : List Transformation)
    (value : FlexValue) (ctx : CoercionContext) (type_name : String)
    (f : String → FlexValue → CoercionContext → Bool →
      Except ParseError (β × CoercionContext)) :
    Except ParseError (List (String × β) × List Transformation × CoercionContext) :=
  match value.value with
  | .obj obj =>
      match ctx.check_can_enter_lenient type_name value with
      | .error e => .error e
      | .ok _ =>
          let nested_ctx := ctx.with_visited_lenient type_name value
          match try_strict_match fields obj nested_ctx f with
          | some (result, nested_ctx') => .ok (result, st, nested_ctx')
          | none => try_lenient_match fields st obj nested_ctx f
  | .arr arr =>
      if fields.length = 1 then try_single_field_coercion fields st value ctx f
      else try_array_to_struct_coercion fields st arr ctx f
  | _ =>
      if fields.length = 1 then try_single_field_coercion fields st value ctx f
      else .error (.DeserializeFailed (.TypeMismatch "object" "non-object"))

/-- The strict field loop of `StructDeserializer::try_deserialize`
(struct_coercer.rs:372-389). -/
def structTryFields (f : String → FlexValue → CoercionContext → Option (β × CoercionContext))
    (obj : List (String × JsonValue)) :
    List FieldDescriptor → List (String × β) → CoercionContext →
      Except ParseError (List (String × β) × CoercionContext)
  | [], result, ctx => .ok (result, ctx)
  | field :: rest, result, ctx =>
      match objGet obj field.name with
      | none => .error (.DeserializeFailed (.MissingField field.name))
      | some val =>
          match f field.name (FlexValue.new val .Direct) ctx with
          | none => .error (.DeserializeFailed (.TypeMismatch field.type_name "value"))
          | some (b, ctx') => structTryFields f obj rest (mapInsert result field.name b) ctx'

/-- `StructDeserializer::try_deserialize` (struct_coercer.rs:344-399): strict
mode with its own cycle/depth guard on the strict visited set. -/
def structTryDeserialize (fields : List FieldDescriptor) (value : FlexValue)
    (ctx : CoercionContext) (type_name : String)
    (f : String → FlexValue → CoercionContext → Option (β × CoercionContext)) :
    Except ParseError (List (String × β) × CoercionContext) :=
  match value.value with
  | .obj obj =>
      match ctx.check_can_enter_strict type_name value with
      | .error e => .error e
      | .ok _ =>
          let nested_ctx := ctx.with_visited_strict type_name value
          match structTryFields f obj fields [] nested_ctx with
          | .error e => .error e
          | .ok (result, ctx') =>
              if obj.length ≠ fields.length then
                .error (.DeserializeFailed (.Custom "Extra fields not allowed in strict mode"))
              else .ok (result, ctx')
  | _ => .error (.DeserializeFailed (.TypeMismatch "object" "non-object"))

/-! ### JSON text parsing (model of `serde_json::from_str::<Value>`)

Numbers are parsed exactly: integer literals that fit `u64`/`i64` become
integer-backed numbers (serde's `PosInt`/`NegInt` variants, both of which
the model's `JsonNumber.int` covers), all other numeric literals become
floats, modelled as exact rationals (no binary rounding and no `f64`
overflow, consistently with the float model used elsewhere in this
development).  Object entries are kept in input order; a duplicate key
overwrites the value at the first occurrence. -/

/-- JSON insignificant whitespace: space, tab, line feed, carriage return. -/
def isJsonWs (c : Char) : Bool :=
  c = ' ' || c = '\u0009' || c = '\u000a' || c = '\u000d'

def skipJsonWs : List Char → List Char
  | [] => []
  | c :: rest => if isJsonWs c then skipJsonWs rest else c :: rest

def hexDigitVal (c : Char) : Option Nat :=
  if isAsciiDigit c then some (digitVal c)
  else if 'a' ≤ c ∧ c ≤ 'f' then some (c.toNat - 'a'.toNat + 10)
  else if 'A' ≤ c ∧ c ≤ 'F' then some (c.toNat - 'A'.toNat + 10)
  else none

/-- Four hex digits of a `\u` escape. -/
def parseHex4 : List Char → Option (Nat × List Char)
  | a :: b :: c :: d :: rest =>
      match hexDigitVal a, hexDigitVal b, hexDigitVal c, hexDigitVal d with
      | some va, some vb, some vc, some vd =>
          some (((va * 16 + vb) * 16 + vc) * 16 + vd, rest)
      | _, _, _, _ => none
  | _ => none

/-- Body of a JSON string literal, after the opening quote: processes the
escapes (including `\u` surrogate pairs) up to the closing quote.  Unescaped
control characters and lone surrogates are rejected, as serde does. -/
def parseStringBody : Nat → List Char → Option (List Char × List Char)
  | 0, _ => none
  | _ + 1, [] => none
  | fuel + 1, c :: rest =>
      if c = '"' then some ([], rest)
      else if c = '\\' then
        match rest with
        | [] => none
        | e :: rest2 =>
            if e = '"' ∨ e = '\\' ∨ e = '/' then
              (parseStringBody fuel rest2).map (fun p => (e :: p.1, p.2))
            else if e = 'b' then
              (parseStringBody fuel rest2).map (fun p => ('\u0008' :: p.1, p.2))
            else if e = 'f' then
              (parseStringBody fuel rest2).map (fun p => ('\u000c' :: p.1, p.2))
            else if e = 'n' then
              (parseStringBody fuel rest2).map (fun p => ('\u000a' :: p.1, p.2))
            else if e = 'r' then
              (parseStringBody fuel rest2).map (fun p => ('\u000d' :: p.1, p.2))
            else if e = 't' then
              (parseStringBody fuel rest2).map (fun p => ('\u0009' :: p.1, p.2))
            else if e = 'u' then
              match parseHex4 rest2 with
              | none => none
              | some (n, rest3) =>
                  if 0xd800 ≤ n ∧ n ≤ 0xdbff then
                    match rest3 with
                    | '\\' :: 'u' :: rest4 =>
                        match parseHex4 rest4 with
                        | some (m, rest5) =>
                            if 0xdc00 ≤ m ∧ m ≤ 0xdfff then
                              (parseStringBody fuel rest5).map (fun p =>
                                (Char.ofNat
                                  (0x10000 + (n - 0xd800) * 0x400 + (m - 0xdc00)) ::
                                  p.1, p.2))
                            else none
                        | none => none
                    | _ => none
                  else if 0xdc00 ≤ n ∧ n ≤ 0xdfff then none
                  else (parseStringBody fuel rest3).map (fun p =>
                    (Char.ofNat n :: p.1, p.2))
            else none
      else if c.toNat < 0x20 then none
      else (parseStringBody fuel rest).map (fun p => (c :: p.1, p.2))

/-- The integer-part digits of a JSON number: `0`, or a nonzero digit followed
by more digits (leading zeros are rejected, as in the JSON grammar). -/
def parseJsonIntDigits : List Char → Option (List Char × List Char)
  | [] => none
  | c :: rest =>
      if c = '0' then some (['0'], rest)
      else if isAsciiDigit c then
        some (c :: rest.takeWhile isAsciiDigit, rest.dropWhile isAsciiDigit)
      else none

/-- The optional sign of a JSON exponent. -/
def parseJsonExpSign : List Char → Int × List Char
  | '+' :: r => (1, r)
  | '-' :: r => (-1, r)
  | r => (1, r)

/-- The exponent part of a JSON number, after `e`/`E`. -/
def parseJsonExp (cs : List Char) : Option (Option Int × List Char) :=
  let sp := parseJsonExpSign cs
  match sp.2.takeWhile isAsciiDigit with
  | [] => none
  | ds => some (some (sp.1 * (digitsToNat ds : Int)), sp.2.dropWhile isAsciiDigit)

/-- The optional leading minus of a JSON number. -/
def parseJsonNumSign : List Char → Bool × List Char
  | '-' :: r => (true, r)
  | r => (false, r)

/-- The optional fraction part of a JSON number: nothing, or `.` followed by
at least one digit. -/
def parseJsonFrac : List Char → Option (List Char × List Char)
  | '.' :: r =>
      match r.takeWhile isAsciiDigit with
      | [] => none
      | ds => some (ds, r.dropWhile isAsciiDigit)
  | r => some ([], r)

/-- The optional exponent of a JSON number: nothing, or `e`/`E` then a signed
digit run. -/
def parseJsonExpOpt : List Char → Option (Option Int × List Char)
  | 'e' :: r => parseJsonExp r
  | 'E' :: r => parseJsonExp r
  | r => some (none, r)

/-- A JSON number literal.  serde keeps integer literals that fit `u64`
(nonnegative) or `i64` (negative) as integers and reads every other numeric
literal as a float. -/
def parseJsonNumber (cs : List Char) : Option (JsonNumber × List Char) :=
  let sp := parseJsonNumSign cs
  match parseJsonIntDigits sp.2 with
  | none => none
  | some (ids, cs2) =>
      match parseJsonFrac cs2 with
      | none => none
      | some (fds, cs3) =>
          match parseJsonExpOpt cs3 with
          | none => none
          | some (eo, cs4) =>
              match fds, eo with
              | [], none =>
                  let m : Nat := digitsToNat ids
                  if sp.1 then
                    if (m : Int) ≤ 2 ^ 63 then some (.int (-(m : Int)), cs4)
                    else some (.float (-(m : ℚ)), cs4)
                  else
                    if m < 2 ^ 64 then some (.int (m : Int), cs4)
                    else some (.float (m : ℚ), cs4)
              | _, _ =>
                  let base : ℚ := (digitsToNat ids : ℚ) + fracOfDigits fds
                  let q : ℚ := (if sp.1 then -base else base) * (10 : ℚ) ^ (eo.getD 0)
                  some (.float q, cs4)
/-- Insertion into an object entry list: a present key has its value replaced
in place, a new key is appended (serde's map insert). -/
def objEntryInsert (m : List (String × JsonValue)) (k : String) (v : JsonValue) :
    List (String × JsonValue) :=
  if m.any (fun kv => kv.1 = k) then
    m.map (fun kv => if kv.1 = k then (k, v) else kv)
  else m ++ [(k, v)]

def buildJsonObj (raw : List (String × JsonValue)) : List (String × JsonValue) :=
  raw.foldl (fun m kv => objEntryInsert m kv.1 kv.2) []

mutual

/-- One JSON value, preceded by optional whitespace (the recursive core of
serde's `Deserializer::parse_value`).  `fuel` only bounds the recursion
depth; `jsonFromStr` supplies more than any input can consume. -/
def parseJsonValueF : Nat → List Char → Option (JsonValue × List Char)
  | 0, _ => none
  | fuel + 1, cs =>
      match skipJsonWs cs with
      | [] => none
      | c :: rest =>
          if c = 'n' then
            match rest with
            | 'u' :: 'l' :: 'l' :: r => some (.null, r)
            | _ => none
          else if c = 't' then
            match rest with
            | 'r' :: 'u' :: 'e' :: r => some (.bool true, r)
            | _ => none
          else if c = 'f' then
            match rest with
            | 'a' :: 'l' :: 's' :: 'e' :: r => some (.bool false, r)
            | _ => none
          else if c = '"' then
            (parseStringBody (rest.length + 1) rest).map (fun p =>
              (.str (String.mk p.1), p.2))
          else if c = '[' then
            match skipJsonWs rest with
            | ']' :: r => some (.arr [], r)
            | cs2 => (parseJsonArrayItems fuel cs2).map (fun p => (.arr p.1, p.2))
          else if c = '{' then
            match skipJsonWs rest with
            | '}' :: r => some (.obj [], r)
            | cs2 => (parseJsonObjectItems fuel cs2).map (fun p =>
                (.obj (buildJsonObj p.1), p.2))
          else if c = '-' ∨ isAsciiDigit c then
            (parseJsonNumber (c :: rest)).map (fun p => (.num p.1, p.2))
          else none

/-- The comma-separated elements of a nonempty array, up to `]`. -/
def parseJsonArrayItems : Nat → List Char → Option (List JsonValue × List Char)
  | 0, _ => none
  | fuel + 1, cs =>
      match parseJsonValueF fuel cs with
      | none => none
      | some (v, r1) =>
          match skipJsonWs r1 with
          | ',' :: r2 => (parseJsonArrayItems fuel r2).map (fun p => (v :: p.1, p.2))
          | ']' :: r2 => some ([v], r2)
          | _ => none

/-- The comma-separated `"key": value` entries of a nonempty object, up to
`}`, in input order. -/
def parseJsonObjectItems : Nat → List Char →
    Option (List (String × JsonValue) × List Char)
  | 0, _ => none
  | fuel + 1, cs =>
      match skipJsonWs cs with
      | '"' :: rest =>
          match parseStringBody (rest.length + 1) rest with
          | none => none
          | some (kcs, r1) =>
              match skipJsonWs r1 with
              | ':' :: r2 =>
                  match parseJsonValueF fuel r2 with
                  | none => none
                  | some (v, r3) =>
                      match skipJsonWs r3 with
                      | ',' :: r4 =>
                          (parseJsonObjectItems fuel r4).map (fun p =>
                            ((String.mk kcs, v) :: p.1, p.2))
                      | '}' :: r4 => some ([(String.mk kcs, v)], r4)
                      | _ => none
              | _ => none
      | _ => none

end

/-- `serde_json::from_str::<serde_json::Value>`: one JSON value surrounded by
nothing but whitespace. -/
def jsonFromStr (cs : List Char) : Option JsonValue :=
  match parseJsonValueF (2 * cs.length + 2) cs with
  | some (v, rest) => if skipJsonWs rest = [] then some v else none
  | none => none

/-! ### The garbage cleaner (`parser/cleaner.rs`) -/

/-- The characters stripped by `remove_invisible_chars` (cleaner.rs:277-285). -/
def invisibleChars : List Char :=
  ['\u200b', '\u200c', '\u200d', '\ufeff', '\u200e', '\u200f',
   '\u202a', '\u202b', '\u202c', '\u202d', '\u202e']

/-- `GarbageCleaner::remove_invisible_chars` (cleaner.rs:277-285). -/
def remove_invisible_chars (cs : List Char) : List Char :=
  cs.filter (fun c => !invisibleChars.contains c)

/-- `GarbageCleaner::fix_unnecessary_backslashes` (cleaner.rs:88-141).  The
Rust loop looks back from index `i` for the run of backslashes immediately
before it; the model carries that run length (`prevBS`) incrementally.  The
Rust skip branch also requires `i + 1 < chars.len()`, which is why the
one-character case never rewrites. -/
def fixBackslashesGo : List Char → Bool → Bool → Nat → List Char
  | [], _, _, _ => []
  | [c], _, strEsc, _ =>
      if c = '"' ∧ strEsc = false then ['"']
      else [c]
  | c :: c2 :: rest, inString, strEsc, prevBS =>
      if c = '"' ∧ strEsc = false then
        '"' :: fixBackslashesGo (c2 :: rest) (!inString) false 0
      else if inString then
        c :: fixBackslashesGo (c2 :: rest) inString
          (if strEsc then false else c = '\\')
          (if c = '\\' then prevBS + 1 else 0)
      else if c = '\\' ∧ prevBS % 2 = 0 ∧ c2 = '"' then
        '"' :: fixBackslashesGo rest inString strEsc 0
      else
        c :: fixBackslashesGo (c2 :: rest) inString strEsc
          (if c = '\\' then prevBS + 1 else 0)
termination_by structural cs _ _ _ => cs

def fix_unnecessary_backslashes (cs : List Char) : List Char :=
  fixBackslashesGo cs false false 0

/-- The depth-counting loop of `extract_from_deep_nesting`
(cleaner.rs:157-190): maximal brace and bracket nesting depths outside
string literals.  State: input, `in_string`, `escape_next`, current brace
depth, current bracket depth, maximal brace depth, maximal bracket depth. -/
def maxNestDepths : List Char → Bool → Bool → Nat → Nat → Nat → Nat → Nat × Nat
  | [], _, _, _, _, mb, mk => (mb, mk)
  | c :: rest, inString, esc, cb, ck, mb, mk =>
      if esc then maxNestDepths rest inString false cb ck mb mk
      else if c = '\\' ∧ inString then maxNestDepths rest inString true cb ck mb mk
      else if c = '"' then maxNestDepths rest (!inString) false cb ck mb mk
      else if c = '{' ∧ inString = false then
        maxNestDepths rest inString false (cb + 1) ck (max mb (cb + 1)) mk
      else if c = '}' ∧ inString = false then
        maxNestDepths rest inString false (cb - 1) ck mb mk
      else if c = '[' ∧ inString = false then
        maxNestDepths rest inString false cb (ck + 1) mb (max mk (ck + 1))
      else if c = ']' ∧ inString = false then
        maxNestDepths rest inString false cb (ck - 1) mb mk
      else maxNestDepths rest inString false cb ck mb mk

/-- The backtracking tail of the opening-delimiter scan
(cleaner.rs:216-219): step `start` back over whitespace. -/
def dnStartBack (chars : List Char) : Nat → Nat
  | 0 => 0
  | start + 1 =>
      if isRustWhitespace (chars.getD (start + 1) ' ') then dnStartBack chars start
      else start + 1

/-- The opening-delimiter scan of `extract_from_deep_nesting`
(cleaner.rs:202-224): skip the run of opening delimiters and whitespace,
then back up to the delimiter just before the first content character. -/
def dnLeft (chars : List Char) : Nat → Nat → Nat → Nat
  | 0, _, start => start
  | fuel + 1, i, start =>
      let ch := chars.getD i ' '
      if ch = '{' ∨ ch = '[' then dnLeft chars fuel (i + 1) (i + 1)
      else if isRustWhitespace ch then dnLeft chars fuel (i + 1) start
      else if 0 < i then dnStartBack chars (i - 1)
      else start

/-- The forward whitespace skip of the closing-delimiter scan
(cleaner.rs:241-247). -/
def dnEndFwd (chars : List Char) : Nat → Nat → Nat
  | 0, e => e
  | fuel + 1, e =>
      if e < chars.length ∧ isRustWhitespace (chars.getD e ' ') then
        dnEndFwd chars fuel (e + 1)
      else e

/-- The closing-delimiter scan of `extract_from_deep_nesting`
(cleaner.rs:227-252), iterating from the right; `fuel = i + 1` encodes the
current index `i`. -/
def dnRight (chars : List Char) : Nat → Nat → Nat
  | 0, e => e
  | i + 1, e =>
      let ch := chars.getD i ' '
      if ch = '}' ∨ ch = ']' then dnRight chars i i
      else if isRustWhitespace ch then dnRight chars i e
      else if i + 1 < chars.length then
        let e2 := dnEndFwd chars chars.length (i + 1)
        if e2 < chars.length then e2 + 1 else e2
      else e

/-- `GarbageCleaner::extract_from_deep_nesting` (cleaner.rs:149-267). -/
def extract_from_deep_nesting (input : List Char) (max_depth : Nat) :
    Option (List Char) :=
  let trimmed := trimChars input
  if trimmed.head? = some '{' ∨ trimmed.head? = some '[' then
    let d := maxNestDepths trimmed false false 0 0 0 0
    if d.1 ≤ max_depth ∧ d.2 ≤ max_depth then none
    else
      let start := dnLeft trimmed trimmed.length 0 0
      let stop := dnRight trimmed trimmed.length trimmed.length
      if start < stop ∧ stop ≤ trimmed.length then
        let extracted := (trimmed.drop start).take (stop - start)
        let t := trimChars extracted
        if (t.head? = some '{' ∧ t.getLast? = some '}') ∨
            (t.head? = some '[' ∧ t.getLast? = some ']') then
          some extracted
        else none
      else none
  else none

/-! ### Parsing strategies (`parser/strategies/`) and the multi-stage parser

A strategy is modelled as a function from the input text to its candidate
list; a Rust `Err` from a strategy is skipped by the stage-0 loop exactly as
an empty candidate list is, so both are modelled as `[]`. -/

/-- Non-overlapping occurrence count, `str::matches(pat).count()`.  The fuel
is the input length; every step consumes at least one character. -/
def countOccur (pat : List Char) : Nat → List Char → Nat
  | 0, _ => 0
  | _, [] => 0
  | fuel + 1, c :: rest =>
      if pat.isPrefixOf (c :: rest) then
        1 + countOccur pat fuel (List.drop pat.length (c :: rest))
      else countOccur pat fuel rest

def countSubMatches (pat cs : List Char) : Nat := countOccur pat cs.length cs

/-- `RawPrimitiveStrategy::extract_bool_from_text` (raw_primitive.rs:57-83).
`str::to_lowercase` is modelled as a character-wise lowercase map. -/
def extract_bool_from_text (input : List Char) : Option FlexValue :=
  let lower := input.map Char.toLower
  let true_count := countSubMatches "true".data lower
  let false_count := countSubMatches "false".data lower
  if true_count = 1 ∧ false_count = 0 then
    some (FlexValue.new (.bool true) (.Heuristic "bool_from_text"))
  else if false_count = 1 ∧ true_count = 0 then
    some (FlexValue.new (.bool false) (.Heuristic "bool_from_text"))
  else none

/-- `RawPrimitiveStrategy::try_as_bool` (raw_primitive.rs:27-49). -/
def try_as_bool (input : List Char) : Option FlexValue :=
  let lowered := (trimChars input).map Char.toLower
  if lowered = "true".data then
    some (FlexValue.new (.bool true) (.Heuristic "raw_bool"))
  else if lowered = "false".data then
    some (FlexValue.new (.bool false) (.Heuristic "raw_bool"))
  else extract_bool_from_text input

/-- `RawPrimitiveStrategy::try_as_number` (raw_primitive.rs:86-127).  In the
rational model every parsed value is finite, so `Number::from_f64` always
succeeds (its `None` case is for NaN/infinity only). -/
def try_as_number (input : List Char) : Option FlexValue :=
  let trimmed := trimEndCommas (trimChars input)
  match parseI64 trimmed with
  | some n => some (FlexValue.new (.num (.float (n : ℚ))) (.Heuristic "raw_number"))
  | none =>
      match parseF64 trimmed with
      | some f => some (FlexValue.new (.num (.float f)) (.Heuristic "raw_number"))
      | none =>
          match parseF64 (trimmed.filter (fun c => c ≠ ',')) with
          | some f =>
              some (FlexValue.new (.num (.float f))
                (.Heuristic "raw_number_with_commas"))
          | none => none

/-- `RawPrimitiveStrategy::as_string` (raw_primitive.rs:130-138). -/
def rawAsString (input : List Char) : FlexValue :=
  FlexValue.new (.str (String.mk input)) (.Heuristic "raw_string")

/-- Byte length of the text, `str::len()`. -/
def byteLen (cs : List Char) : Nat := (cs.map Char.utf8Size).sum

/-- `RawPrimitiveStrategy::parse` (raw_primitive.rs:146-195). -/
def raw_primitive_parse (input : List Char) : List FlexValue :=
  let trimmed := trimChars input
  if trimmed.head? = some '{' ∨ trimmed.head? = some '[' then []
  else if trimmed.contains '{' ∨ trimmed.contains '[' then []
  else if trimmed.head? = some '"' ∧ (jsonFromStr trimmed).isSome = true then []
  else if 1000 < byteLen input then []
  else
    (match try_as_bool input with | some b => [b] | none => []) ++
    (match try_as_number input with | some n => [n] | none => []) ++
    [rawAsString input]

/-- `looks_like_json` (direct_json.rs:57-66). -/
def looks_like_json (s : List Char) : Bool :=
  (match s.head? with
   | some c => c = '{' || c = '[' || c = '"'
   | none => false) ||
  List.isPrefixOf "true".data s || List.isPrefixOf "false".data s ||
  List.isPrefixOf "null".data s ||
  (match s.head? with
   | some c => isAsciiDigit c || c = '-'
   | none => false)

/-- `DirectJsonStrategy::parse` (direct_json.rs:33-45). -/
def direct_json_parse (input : List Char) : List FlexValue :=
  let trimmed := trimChars input
  if looks_like_json trimmed then
    match jsonFromStr trimmed with
    | some v => [FlexValue.new v .Direct]
    | none => []
  else []

/-- `GarbageCleaner::normalize_field_names` (cleaner.rs:373-397): disabled in
the source, it returns its input unchanged. -/
def normalize_field_names (cs : List Char) : List Char := cs

def sourceIsDirect : Source → Bool
  | .Direct => true
  | _ => false

def sourceIsYaml : Source → Bool
  | .Yaml => true
  | _ => false

/-- The per-candidate body of `FlexibleParser::normalize_candidates`
(parser/mod.rs:252-294): re-parse a double-escaped JSON string, otherwise
re-serialize, strip invisible characters, and re-parse when that changed
anything (`serde_json::to_string` cannot fail on a `Value`, so the
`Err` branch at parser/mod.rs:286-289 is unreachable in the model). -/
def normalize_candidate (fv : FlexValue) : FlexValue :=
  let reserialize : FlexValue :=
    let json_str := jsonToStringVal fv.value
    let invisible_removed := remove_invisible_chars json_str
    let normalized_str := normalize_field_names invisible_removed
    if normalized_str ≠ json_str then
      match jsonFromStr normalized_str with
      | some new_value => FlexValue.new new_value fv.source
      | none => fv
    else fv
  match fv.value with
  | .str s =>
      match jsonFromStr s.data with
      | some inner => FlexValue.new inner fv.source
      | none => reserialize
  | _ => reserialize

def normalize_candidates (candidates : List FlexValue) : List FlexValue :=
  candidates.map normalize_candidate

/-- Stage 0 of `FlexibleParser::parse_multi_stage` (parser/mod.rs:140-194):
try the strategies in order on the cleaned input, short-circuiting on a
`Direct`/`Yaml` hit (normalizing first when a `Direct` candidate was seen);
when no strategy produced candidates, fall through to the extraction and
fixing stages, which `fallback` abstracts (parser/mod.rs:188-233; the
theorems below never reach them). -/
def stage0Loop (fallback : List Char → List FlexValue) (input : List Char) :
    List (List Char → List FlexValue) → Bool → List FlexValue → List FlexValue
  | [], _, acc => if acc.isEmpty then fallback input else acc
  | strat :: rest, needsNorm, acc =>
      let cands := strat input
      let is_direct := cands.any (fun c => sourceIsDirect c.source)
      let needsNorm2 := needsNorm || is_direct
      let acc2 := acc ++ cands
      if !acc2.isEmpty && (is_direct || cands.any (fun c => sourceIsYaml c.source)) then
        if needsNorm2 then normalize_candidates acc2 else acc2
      else stage0Loop fallback input rest needsNorm2 acc2

/-- `MAX_NESTING_DEPTH` (parser/mod.rs:19). -/
def MAX_NESTING_DEPTH : Nat := 50

/-- `FlexibleParser::parse_multi_stage` (parser/mod.rs:125-233): the
pre-cleaning pipeline followed by the stage-0 strategy loop over the given
strategy list. -/
def parse_multi_stage (strategies : List (List Char → List FlexValue))
    (fallback : List Char → List FlexValue) (input : List Char) : List FlexValue :=
  let after_nesting :=
    match extract_from_deep_nesting input MAX_NESTING_DEPTH with
    | some s => s
    | none => input
  let step1 := remove_invisible_chars after_nesting
  let preprocessed := fix_unnecessary_backslashes step1
  stage0Loop fallback preprocessed strategies false []


/-! ### `MultipleObjectsStrategy` (parser/strategies/multiple_objects.rs) -/

/-- `MultipleObjectsStrategy::find_matching_close`
(multiple_objects.rs:68-100): index of the balancing close delimiter,
tracking strings and escapes.  `idx` is the running index of the scan. -/
def fmcGo (openc closec : Char) : List Char → Bool → Bool → Int → Nat → Option Nat
  | [], _, _, _, _ => none
  | ch :: rest, inString, esc, depth, idx =>
      if esc then fmcGo openc closec rest inString false depth (idx + 1)
      else if ch = '\\' ∧ inString then
        fmcGo openc closec rest inString true depth (idx + 1)
      else if ch = '"' then fmcGo openc closec rest (!inString) false depth (idx + 1)
      else if ch = openc ∧ inString = false then
        fmcGo openc closec rest inString false (depth + 1) (idx + 1)
      else if ch = closec ∧ inString = false then
        if depth - 1 = 0 then some idx
        else fmcGo openc closec rest inString false (depth - 1) (idx + 1)
      else fmcGo openc closec rest inString false depth (idx + 1)

/-- The scan loop of `MultipleObjectsStrategy::find_all_json_values`
(multiple_objects.rs:26-65): skip whitespace, and at each `{`/`[` take the
balanced span when one exists and it parses as JSON, else advance one
character.  The fuel is the input length; each step consumes at least one
character. -/
def fajGo : Nat → List Char → List (List Char)
  | 0, _ => []
  | fuel + 1, cs =>
      match cs.dropWhile isRustWhitespace with
      | [] => []
      | c :: rest =>
          if c = '{' ∨ c = '[' then
            let closec := if c = '{' then '}' else ']'
            match fmcGo c closec (c :: rest) false false 0 0 with
            | some endIdx =>
                let json_str := (c :: rest).take (endIdx + 1)
                let rem := (c :: rest).drop (endIdx + 1)
                if (jsonFromStr json_str).isSome then json_str :: fajGo fuel rem
                else fajGo fuel rem
            | none => fajGo fuel rest
          else fajGo fuel rest

def find_all_json_values (input : List Char) : List (List Char) :=
  fajGo input.length input

/-- `MultipleObjectsStrategy::parse` (multiple_objects.rs:108-135). -/
def multiple_objects_parse (input : List Char) : List FlexValue :=
  let json_values := find_all_json_values input
  if json_values.length < 2 then []
  else
    let parsed_values := json_values.filterMap jsonFromStr
    if 2 ≤ parsed_values.length then
      [FlexValue.new (.arr parsed_values) .MultiJsonArray]
    else []

/-! ### The token shape of valid JSON text

`fix_unnecessary_backslashes` rewrites a backslash only when it occurs
outside a string literal; the following grammar captures texts in which
every backslash sits inside a complete string literal, which is the shape
of every text `jsonFromStr` accepts. -/

/-- String-literal bodies as the backslash-fixer sees them: characters other
than `"` and `\`, and two-character escape sequences. -/
inductive StrBody : List Char → Prop where
  | nil : StrBody []
  | chr {c : Char} {b : List Char} :
      c ≠ '"' → c ≠ '\\' → StrBody b → StrBody (c :: b)
  | esc {e : Char} {b : List Char} : StrBody b → StrBody ('\\' :: e :: b)

/-- Texts alternating freely between characters other than `"` and `\` and
complete string literals. -/
inductive Toks : List Char → Prop where
  | nil : Toks []
  | plain {c : Char} {r : List Char} :
      c ≠ '"' → c ≠ '\\' → Toks r → Toks (c :: r)
  | str {b r : List Char} : StrBody b → Toks r → Toks ('"' :: b ++ '"' :: r)

/-- The characters that could extend a JSON number token to its right: a
digit, the decimal point, or an exponent marker.  A trailing context whose
head is none of these leaves every number literal before it intact. -/
def numExtChar (c : Char) : Bool :=
  isAsciiDigit c || c = '.' || c = 'e' || c = 'E'

def safeBoundary (cs : List Char) : Prop :=
  ∀ c, cs.head? = some c → numExtChar c = false


/-! ### Claims C4 and C5: the scoring formula and the effect of one transformation -/

lemma ratFloor_eq_intFloor (q : ℚ) : Rat.floor q = ⌊q⌋ := by
  rw [Rat.floor_def' q, Rat.floor_def]

lemma ratAsU32_mono {p q : ℚ} (h : p ≤ q) : ratAsU32 p ≤ ratAsU32 q := by
  simp only [ratAsU32, ratFloor_eq_intFloor]
  exact Int.toNat_le_toNat (Int.floor_le_floor h)

lemma confidence_penalty_mono {c : ℚ} (h : 0 ≤ c) :
    ratAsU32 ((1 - c) * 100) ≤ ratAsU32 ((1 - c * CONFIDENCE_PENALTY_FACTOR) * 100) := by
  apply ratAsU32_mono
  have hc : c * CONFIDENCE_PENALTY_FACTOR ≤ c := by
    calc c * CONFIDENCE_PENALTY_FACTOR ≤ c * 1 := by
          apply mul_le_mul_of_nonneg_left _ h
          norm_num [CONFIDENCE_PENALTY_FACTOR]
      _ = c := mul_one c
  have : 1 - c ≤ 1 - c * CONFIDENCE_PENALTY_FACTOR := by linarith
  nlinarith

/-- Claim C4: every candidate's score equals
`source_base + Σ transformation penalties + ⌊(1 − confidence)·100⌋`, with the
source base scores Direct = 0, Markdown = 10, Yaml = 15,
Fixed = 20 + Σ fix penalties, MultiJsonArray = 25, MultiJson = 30,
Heuristic = 50 (scoring.rs:32-87). -/
theorem score_candidate_formula (c : FlexValue) (h : c.confidence ≤ 1) :
    (score_candidate c : ℤ)
        = source_base_score c.source + (c.transformations.map Transformation.penalty).sum
          + ⌊((1 - c.confidence) * 100 : ℚ)⌋
    ∧ source_base_score .Direct = 0
    ∧ (∀ lang, source_base_score (.Markdown lang) = 10)
    ∧ source_base_score .Yaml = 15
    ∧ (∀ fixes, source_base_score (.Fixed fixes) = 20 + (fixes.map JsonFix.penalty).sum)
    ∧ source_base_score .MultiJsonArray = 25
    ∧ (∀ i, source_base_score (.MultiJson i) = 30)
    ∧ (∀ p, source_base_score (.Heuristic p) = 50) := by
  refine ⟨?_, rfl, fun _ => rfl, rfl, fun _ => rfl, rfl, fun _ => rfl, fun _ => rfl⟩
  have hfloor : (0 : ℤ) ≤ ⌊((1 - c.confidence) * 100 : ℚ)⌋ := by
    apply Int.floor_nonneg.mpr
    have : (0 : ℚ) ≤ 1 - c.confidence := by linarith
    positivity
  simp only [score_candidate, score_candidate_recursive, ratAsU32, ratFloor_eq_intFloor,
    Bool.false_and, if_neg (by simp : ¬(false = true))]
  push_cast [Int.toNat_of_nonneg hfloor]
  ring

/-- Witness for `score_candidate_formula` at a concrete candidate. -/
theorem score_candidate_formula_witness :
    (FlexValue.new .null .Direct).confidence ≤ 1
    ∧ ((score_candidate (FlexValue.new .null .Direct) : ℤ)
        = source_base_score (FlexValue.new .null .Direct).source
          + (((FlexValue.new .null .Direct).transformations.map Transformation.penalty).sum : Nat)
          + ⌊((1 - (FlexValue.new .null .Direct).confidence) * 100 : ℚ)⌋
      ∧ source_base_score .Direct = 0
      ∧ (∀ lang, source_base_score (.Markdown lang) = 10)
      ∧ source_base_score .Yaml = 15
      ∧ (∀ fixes, source_base_score (.Fixed fixes) = 20 + (fixes.map JsonFix.penalty).sum)
      ∧ source_base_score .MultiJsonArray = 25
      ∧ (∀ i, source_base_score (.MultiJson i) = 30)
      ∧ (∀ p, source_base_score (.Heuristic p) = 50)) :=
  ⟨by decide, score_candidate_formula (FlexValue.new .null .Direct) (by decide)⟩

/-- Claim C5: adding one transformation `t` to a FlexValue multiplies its
confidence by exactly 0.95 (value.rs:89-92) and weakly increases its candidate
score by at least `t.penalty()` (scoring.rs:40-65). -/
theorem add_transformation_confidence_and_score (v : FlexValue) (t : Transformation)
    (h : 0 ≤ v.confidence) :
    (v.add_transformation t).confidence = 0.95 * v.confidence
    ∧ score_candidate v + t.penalty ≤ score_candidate (v.add_transformation t) := by
  constructor
  · simp [FlexValue.add_transformation, CONFIDENCE_PENALTY_FACTOR, mul_comm]
  · have hmono := confidence_penalty_mono h
    simp only [score_candidate, score_candidate_recursive, FlexValue.add_transformation,
      Bool.false_and, if_neg (by simp : ¬(false = true)), List.map_append, List.sum_append,
      List.map_cons, List.map_nil, List.sum_cons, List.sum_nil]
    omega

/-- Witness for `add_transformation_confidence_and_score` at a concrete input. -/
theorem add_transformation_confidence_and_score_witness :
    0 ≤ (FlexValue.new (.str "x") .Direct).confidence
    ∧ (((FlexValue.new (.str "x") .Direct).add_transformation .SingleToArray).confidence
          = 0.95 * (FlexValue.new (.str "x") .Direct).confidence
      ∧ score_candidate (FlexValue.new (.str "x") .Direct) + Transformation.SingleToArray.penalty
          ≤ score_candidate
              ((FlexValue.new (.str "x") .Direct).add_transformation .SingleToArray)) :=
  ⟨by decide,
    add_transformation_confidence_and_score (FlexValue.new (.str "x") .Direct)
      .SingleToArray (by decide)⟩

/-! ### Claim C3 (code bug): `FloatToInt` is constructed on a dropped clone

Lenient integer coercion rounds floats, float-strings and fractions correctly,
but the `FloatToInt` transformation the claim calls observable is added to a
clone of the input `FlexValue` that is immediately dropped
(primitives.rs:44-46, 67-69, 74-76, 80-82); neither the coercion context nor
any other reachable structure records it. -/

/-- Claim C3 evaluation: `Number(2.5)`, `"2.5"` and `"1/2"` all round as the
claim says, but the coercion's transformation log (the returned context) is
bit-for-bit the input context — no `FloatToInt` is ever observable. -/
theorem i64_float_to_int_never_recorded :
    i64_deserialize_val (.num (.float 2.5)) .Direct CoercionContext.new
        = .ok (3, CoercionContext.new)
    ∧ i64_deserialize_val (.str "2.5") .Direct CoercionContext.new
        = .ok (3, CoercionContext.new)
    ∧ i64_deserialize_val (.str "1/2") .Direct CoercionContext.new
        = .ok (1, CoercionContext.new)
    ∧ CoercionContext.new.transformations = [] := by
  refine ⟨?_, ?_, ?_, rfl⟩ <;> rfl

/-! ### Claim C2 (corrected): lenient `Vec<T>` aborts on the first element error

`Vec<T>::deserialize` collects the elements through
`collect::<Result<Vec<T>>>` (primitives.rs:399-418): the first failing element
aborts the whole coercion and its error is propagated; failed elements are
never skipped and `ArrayItemParseError` is never recorded (no code in the
crate constructs that variant). -/

/-- Claim C2 counterexample: coercing `[1, "x", 3]` into `Vec<i64>` leniently
fails with the element-1 type error even though elements 0 and 2 parse — the
claim's "fails only when no element parses" and "records ArrayItemParseError
without aborting" are both false on the code. -/
theorem vec_lenient_aborts_counterexample :
    vec_deserialize i64Coercer
        (FlexValue.new (.arr [.num (.int 1), .str "x", .num (.int 3)]) .Direct)
        CoercionContext.new
      = .error (.DeserializeFailed (.TypeMismatch "integer" "string: x"))
    ∧ i64_deserialize_val (.num (.int 1)) .Direct CoercionContext.new
        = .ok (1, CoercionContext.new)
    ∧ i64_deserialize_val (.num (.int 3)) .Direct CoercionContext.new
        = .ok (3, CoercionContext.new) :=
  ⟨rfl, rfl, rfl⟩

lemma vecLenientGo_ok_length (c : Coercer α) (src : Source) :
    ∀ (items : List JsonValue) (ctx : CoercionContext) (vs : List α)
      (ctx₂ : CoercionContext),
      vecLenientGo c src items ctx = .ok (vs, ctx₂) → vs.length = items.length := by
  intro items
  induction items with
  | nil =>
      intro ctx vs ctx₂ h
      simp only [vecLenientGo] at h
      cases h
      rfl
  | cons x xs ih =>
      intro ctx vs ctx₂ h
      simp only [vecLenientGo] at h
      cases hx : c.deserialize (FlexValue.new x src) ctx with
      | error e => rw [hx] at h; cases h
      | ok p =>
          obtain ⟨a, ctx'⟩ := p
          rw [hx] at h
          simp only [Except.map] at h
          cases hrest : vecLenientGo c src xs ctx' with
          | error e => rw [hrest] at h; cases h
          | ok q =>
              rw [hrest] at h
              cases h
              simp [ih ctx' q.1 q.2 hrest]

/-- Claim C2 amended: lenient `Vec<T>` coercion coerces the elements in order
but aborts at the first failing element, propagating that element's error; it
succeeds only when every element parses (one output item per element), and a
non-array value is coerced as a single element and wrapped, with no
transformation recorded by the container itself. -/
theorem vec_lenient_first_error_propagates (c : Coercer α) (src : Source)
    (items : List JsonValue) (ctx : CoercionContext) :
    (∀ vs ctx₂,
        vec_deserialize c (FlexValue.new (.arr items) src) ctx = .ok (vs, ctx₂) →
          vs.length = items.length)
    ∧ (∀ x xs e, items = x :: xs →
        c.deserialize (FlexValue.new x src) ctx = .error e →
          vec_deserialize c (FlexValue.new (.arr items) src) ctx = .error e)
    ∧ (∀ (v : FlexValue), (∀ l, v.value ≠ .arr l) →
        vec_deserialize c v ctx = (c.deserialize v ctx).map (fun p => ([p.1], p.2))) := by
  refine ⟨?_, ?_, ?_⟩
  · intro vs ctx₂ h
    exact vecLenientGo_ok_length c src items ctx vs ctx₂ h
  · intro x xs e hitems hx
    subst hitems
    show vecLenientGo c src (x :: xs) ctx = Except.error e
    simp only [vecLenientGo]
    rw [hx]
  · intro v hv
    obtain ⟨val, src', trans, conf, dep⟩ := v
    cases val with
    | arr l => exact absurd rfl (hv l)
    | null => rfl
    | bool b => rfl
    | num n => rfl
    | str s => rfl
    | obj o => rfl

/-- Witness for `vec_lenient_first_error_propagates` at concrete inputs. -/
theorem vec_lenient_first_error_propagates_witness :
    ([JsonValue.str "x"] = JsonValue.str "x" :: ([] : List JsonValue)
      ∧ i64Coercer.deserialize (FlexValue.new (.str "x") .Direct) CoercionContext.new
          = .error (.DeserializeFailed (.TypeMismatch "integer" "string: x")))
    ∧ vec_deserialize i64Coercer (FlexValue.new (.arr [.str "x"]) .Direct) CoercionContext.new
        = .error (.DeserializeFailed (.TypeMismatch "integer" "string: x")) :=
  ⟨⟨rfl, rfl⟩,
    (vec_lenient_first_error_propagates i64Coercer .Direct [.str "x"]
          CoercionContext.new).2.1 (.str "x") [] _ rfl rfl⟩

/-! ### Claim C8: map coercion preserves keys verbatim -/

lemma mapInsert_keys [BEq κ] (m : List (κ × α)) (k : κ) (v : α) :
    ∀ kv ∈ mapInsert m k v, kv.1 = k ∨ kv.1 ∈ m.map Prod.fst := by
  intro kv hkv
  simp only [mapInsert] at hkv
  by_cases hex : m.any (fun p => p.1 == k)
  · rw [if_pos hex] at hkv
    rcases List.mem_map.mp hkv with ⟨p, hp, hpe⟩
    by_cases hpk : p.1 == k
    · left; rw [if_pos hpk] at hpe; rw [← hpe]
    · right
      rw [if_neg hpk] at hpe
      rw [← hpe]
      exact List.mem_map_of_mem Prod.fst hp
  · rw [if_neg hex] at hkv
    rcases List.mem_append.mp hkv with h | h
    · right; exact List.mem_map_of_mem Prod.fst h
    · left; simp only [List.mem_singleton] at h; rw [h]

lemma hashmapLenientGo_keys (vc : Coercer α) (src : Source) :
    ∀ (entries : List (String × JsonValue)) (m : List (String × α))
      (ctx : CoercionContext) (kv : String × α),
      kv ∈ (hashmapLenientGo stringCoercer vc src entries m ctx).1 →
        kv.1 ∈ m.map Prod.fst ∨ kv.1 ∈ entries.map Prod.fst := by
  intro entries
  induction entries with
  | nil =>
      intro m ctx kv hkv
      left
      simp only [hashmapLenientGo] at hkv
      exact List.mem_map_of_mem Prod.fst hkv
  | cons e rest ih =>
      intro m ctx kv hkv
      obtain ⟨key_str, val⟩ := e
      rw [show hashmapLenientGo stringCoercer vc src ((key_str, val) :: rest) m ctx
            = (match vc.deserialize (FlexValue.new val src) ctx with
               | .error _ => hashmapLenientGo stringCoercer vc src rest m ctx
               | .ok (v, ctx'') =>
                   hashmapLenientGo stringCoercer vc src rest (mapInsert m key_str v) ctx'')
          from rfl] at hkv
      cases hv : vc.deserialize (FlexValue.new val src) ctx with
      | error err =>
          rw [hv] at hkv
          rcases ih m ctx kv hkv with h | h
          · left; exact h
          · right; simp only [List.map_cons, List.mem_cons]; right; exact h
      | ok p =>
          rw [hv] at hkv
          rcases ih (mapInsert m key_str p.1) p.2 kv hkv with h | h
          · rcases List.mem_map.mp h with ⟨q, hq, hqe⟩
            rcases mapInsert_keys m key_str p.1 q hq with h1 | h1
            · right; simp only [List.map_cons, List.mem_cons]; left; rw [← hqe, h1]
            · left; rw [← hqe]; exact h1
          · right; simp only [List.map_cons, List.mem_cons]; right; exact h

lemma hashmapTryGo_keys (vc : Coercer α) (src : Source) :
    ∀ (entries : List (String × JsonValue)) (m : List (String × α))
      (ctx : CoercionContext) (res : List (String × α) × CoercionContext)
      (_hgo : hashmapTryGo stringCoercer vc src entries m ctx = some res)
      (kv : String × α), kv ∈ res.1 →
        kv.1 ∈ m.map Prod.fst ∨ kv.1 ∈ entries.map Prod.fst := by
  intro entries
  induction entries with
  | nil =>
      intro m ctx res h kv hkv
      left
      simp only [hashmapTryGo] at h
      cases h
      exact List.mem_map_of_mem Prod.fst hkv
  | cons e rest ih =>
      intro m ctx res h kv hkv
      obtain ⟨key_str, val⟩ := e
      rw [show hashmapTryGo stringCoercer vc src ((key_str, val) :: rest) m ctx
            = (match vc.try_deserialize (FlexValue.new val src) ctx with
               | none => none
               | some (v, ctx'') =>
                   hashmapTryGo stringCoercer vc src rest (mapInsert m key_str v) ctx'')
          from rfl] at h
      cases hv : vc.try_deserialize (FlexValue.new val src) ctx with
      | none => rw [hv] at h; cases h
      | some p =>
          rw [hv] at h
          rcases ih (mapInsert m key_str p.1) p.2 res h kv hkv with h1 | h1
          · rcases List.mem_map.mp h1 with ⟨q, hq, hqe⟩
            rcases mapInsert_keys m key_str p.1 q hq with h2 | h2
            · right; simp only [List.map_cons, List.mem_cons]; left; rw [← hqe, h2]
            · left; rw [← hqe]; exact h2
          · right; simp only [List.map_cons, List.mem_cons]; right; exact h1

/-- Claim C8: for every JSON object coerced (strictly or leniently) into
`Map<String, V>`, every retained entry's key is byte-for-byte one of the
original object keys — the key passes through `String`'s coercion unchanged
and the fuzzy field matcher is never invoked (primitives.rs:431-505). -/
theorem map_keys_preserved_verbatim (vc : Coercer α) (entries : List (String × JsonValue))
    (src : Source) (ctx : CoercionContext) :
    (∀ m ctx₂,
        hashmap_deserialize stringCoercer vc (FlexValue.new (.obj entries) src) ctx
            = .ok (m, ctx₂) →
          ∀ kv ∈ m, kv.1 ∈ entries.map Prod.fst)
    ∧ (∀ m ctx₂,
        hashmap_try_deserialize stringCoercer vc (FlexValue.new (.obj entries) src) ctx
            = some (m, ctx₂) →
          ∀ kv ∈ m, kv.1 ∈ entries.map Prod.fst) := by
  constructor
  · intro m ctx₂ h kv hkv
    simp only [hashmap_deserialize, FlexValue.new] at h
    have hm : (hashmapLenientGo stringCoercer vc src entries [] ctx).1 = m := by
      injection h with h'
      exact congrArg Prod.fst h'
    rcases hashmapLenientGo_keys vc src entries [] ctx kv (hm.symm ▸ hkv) with h1 | h1
    · simp at h1
    · exact h1
  · intro m ctx₂ h kv hkv
    simp only [hashmap_try_deserialize, FlexValue.new] at h
    rcases hashmapTryGo_keys vc src entries [] ctx (m, ctx₂) h kv hkv with h1 | h1
    · simp at h1
    · exact h1

/-- Witness for `map_keys_preserved_verbatim` at a concrete object. -/
theorem map_keys_preserved_verbatim_witness :
    hashmap_deserialize stringCoercer i64Coercer
        (FlexValue.new (.obj [("one", .num (.int 1))]) .Direct) CoercionContext.new
      = .ok ([("one", 1)], CoercionContext.new)
    ∧ (∀ kv ∈ [(("one" : String), (1 : Int))],
        kv.1 ∈ ([("one", JsonValue.num (.int 1))].map Prod.fst)) :=
  ⟨rfl,
    (map_keys_preserved_verbatim i64Coercer [("one", .num (.int 1))] .Direct
          CoercionContext.new).1 [("one", 1)] CoercionContext.new rfl⟩

/-! ### Claim C9: comma/currency/percent string-to-number coercion -/

/-- Claim C9: when the number regex matches exactly once, the coercion strips
commas, strips Unicode `Sc` currency symbols, strips a trailing `%` without
dividing by 100, and parses the remainder ("50%" gives 50, "$1,234.56" gives
1234.56, also through `f64`'s lenient string path); zero or multiple matches
yield nothing (primitives.rs:146-179, 324-362). -/
theorem comma_currency_percent_coercion :
    (∀ cs : List Char, (find_number_matches cs).length ≠ 1 →
        parse_comma_separated_number cs = none)
    ∧ (∀ cs m, find_number_matches cs = [m] →
        parse_comma_separated_number cs
          = parseF64 ((((m.filter (fun c => !(c == ','))).filter
              (fun c => !isScChar c)).reverse.dropWhile (· == '%')).reverse))
    ∧ parse_comma_separated_number "50%".data = some 50
    ∧ parse_comma_separated_number "50".data = some 50
    ∧ parse_comma_separated_number "$1,234.56".data = some (1234.56 : ℚ)
    ∧ f64_deserialize_val (.str "50%") .Direct CoercionContext.new
        = .ok (50, CoercionContext.new)
    ∧ f64_deserialize_val (.str "$1,234.56") .Direct CoercionContext.new
        = .ok (1234.56, CoercionContext.new) := by
  refine ⟨?_, ?_, by decide, by decide, by decide, by rfl, by rfl⟩
  · intro cs h
    unfold parse_comma_separated_number
    cases hm : find_number_matches cs with
    | nil => rfl
    | cons a l =>
        cases l with
        | nil => rw [hm] at h; simp at h
        | cons b r => rfl
  · intro cs m h
    unfold parse_comma_separated_number
    rw [h]

/-- Witness for `comma_currency_percent_coercion`'s quantified conjuncts. -/
theorem comma_currency_percent_coercion_witness :
    ((find_number_matches "abc".data).length ≠ 1
      ∧ parse_comma_separated_number "abc".data = none)
    ∧ (find_number_matches "50%".data = [['5', '0', '%']]
      ∧ parse_comma_separated_number "50%".data
          = parseF64 (((((['5', '0', '%']).filter (fun c => !(c == ','))).filter
              (fun c => !isScChar c)).reverse.dropWhile (· == '%')).reverse)) :=
  ⟨⟨by decide, comma_currency_percent_coercion.1 "abc".data (by decide)⟩,
    ⟨by decide, comma_currency_percent_coercion.2.1 "50%".data ['5', '0', '%'] (by decide)⟩⟩

/-! ### Claim C6: union coercion runs the strict pass first -/

/-- Claim C6: in union coercion the strict pass runs first over the variants
with fresh context clones and every successful strict match is a candidate
with score 0 (so the lenient deserializers are never consulted when some
variant strict-matches — replacing them changes nothing); the lenient pass is
attempted only when no variant strict-matches, and each lenient success is
scored as the sum of its transformations' penalties
(union_coercer.rs:41-97, 175-180). -/
theorem union_strict_pass_first (c1 : Coercer α₁) (c2 : Coercer α₂)
    (f1 : α₁ → τ) (f2 : α₂ → τ) (value : FlexValue) (ctx : CoercionContext) :
    (((c1.try_deserialize value ctx).isSome = true
        ∨ (c2.try_deserialize value ctx).isSome = true) →
        (∀ m ∈ union_try_all c1 c2 f1 f2 value ctx, m.score = 0)
        ∧ (∀ (d1 : FlexValue → CoercionContext → Except ParseError (α₁ × CoercionContext))
            (d2 : FlexValue → CoercionContext → Except ParseError (α₂ × CoercionContext)),
            union_try_all ⟨c1.try_deserialize, d1⟩ ⟨c2.try_deserialize, d2⟩ f1 f2 value ctx
              = union_try_all c1 c2 f1 f2 value ctx))
    ∧ (c1.try_deserialize value ctx = none → c2.try_deserialize value ctx = none →
        ∀ m ∈ union_try_all c1 c2 f1 f2 value ctx,
          m.score = (m.transformations.map Transformation.penalty).sum) := by
  cases h1 : c1.try_deserialize value ctx with
  | some p1 =>
      obtain ⟨v1, ctx1⟩ := p1
      refine ⟨fun _ => ⟨?_, fun d1 d2 => ?_⟩, fun hn _ => nomatch hn⟩
      · intro m hm
        cases h2 : c2.try_deserialize value ctx with
        | some p2 =>
            obtain ⟨v2, ctx2⟩ := p2
            simp [union_try_all, h1, h2] at hm
            rcases hm with hm | hm <;> subst hm <;> rfl
        | none =>
            simp [union_try_all, h1, h2] at hm
            subst hm; rfl
      · cases h2 : c2.try_deserialize value ctx with
        | some p2 =>
            obtain ⟨v2, ctx2⟩ := p2
            simp [union_try_all, h1, h2]
        | none => simp [union_try_all, h1, h2]
  | none =>
      cases h2 : c2.try_deserialize value ctx with
      | some p2 =>
          obtain ⟨v2, ctx2⟩ := p2
          refine ⟨fun _ => ⟨?_, fun d1 d2 => ?_⟩, fun _ hn => nomatch hn⟩
          · intro m hm
            simp [union_try_all, h1, h2] at hm
            subst hm; rfl
          · simp [union_try_all, h1, h2]
      | none =>
          refine ⟨fun hs => by simp [h1, h2] at hs, fun _ _ => ?_⟩
          intro m hm
          simp only [union_try_all, h1, h2, List.nil_append, List.isEmpty_nil, if_true] at hm
          cases hl1 : c1.deserialize value ctx with
          | ok q1 =>
              obtain ⟨v1, ctx1⟩ := q1
              rw [hl1] at hm
              cases hl2 : c2.deserialize value ctx with
              | ok q2 =>
                  obtain ⟨v2, ctx2⟩ := q2
                  rw [hl2] at hm
                  simp at hm
                  rcases hm with hm | hm <;> subst hm <;> rfl
              | error e =>
                  rw [hl2] at hm
                  simp at hm
                  subst hm; rfl
          | error e =>
              rw [hl1] at hm
              cases hl2 : c2.deserialize value ctx with
              | ok q2 =>
                  obtain ⟨v2, ctx2⟩ := q2
                  rw [hl2] at hm
                  simp at hm
                  subst hm; rfl
              | error e2 =>
                  rw [hl2] at hm
                  simp at hm

/-- Witness for `union_strict_pass_first`: an `i64 | String` union over the
value `42`, where the integer variant strict-matches. -/
theorem union_strict_pass_first_witness :
    ((i64Coercer.try_deserialize (FlexValue.new (.num (.int 42)) .Direct)
          CoercionContext.new).isSome = true
      ∨ (stringCoercer.try_deserialize (FlexValue.new (.num (.int 42)) .Direct)
          CoercionContext.new).isSome = true)
    ∧ (∀ m ∈ union_try_all i64Coercer stringCoercer Sum.inl Sum.inr
          (FlexValue.new (.num (.int 42)) .Direct) CoercionContext.new, m.score = 0) :=
  ⟨Or.inl (by decide),
    ((union_strict_pass_first i64Coercer stringCoercer Sum.inl Sum.inr
        (FlexValue.new (.num (.int 42)) .Direct) CoercionContext.new).1
      (Or.inl (by decide))).1⟩

/-! ### Claim C7 (corrected): the cycle guard fires only on object values

The visited-pair check happens only on the `Value::Object` branch of
`StructDeserializer::deserialize` (struct_coercer.rs:446-448) and of
`try_deserialize` (struct_coercer.rs:364-366); array and scalar values take
the single-field / array-to-struct paths (struct_coercer.rs:426-443) with no
guard at all, so a visited `(T, v)` pair does not fail there. -/

/-- Claim C7 counterexample: a single-field struct fed the array `[]` whose
pair `("T", [])` is already in the lenient visited set still succeeds via
implied-key coercion — no `CircularReference` in spite of the visited hit. -/
theorem cycle_guard_counterexample :
    visitedContains
        ({ CoercionContext.new with
            visited_for_lenient := [("T", .arr [])] } : CoercionContext).visited_for_lenient
        "T" (FlexValue.new (.arr []) .Direct).value = true
    ∧ structDeserialize [⟨"item", "i64", true⟩] [] (FlexValue.new (.arr []) .Direct)
        { CoercionContext.new with visited_for_lenient := [("T", .arr [])] } "T"
        (fun _ _ c _ => .ok ((), c))
      = .ok ([("item", ())], [.ImpliedKey "item"],
          ({ CoercionContext.new with
              visited_for_lenient := [("T", .arr [])] } : CoercionContext).add_transformation
            (.ImpliedKey "item")) :=
  ⟨rfl, rfl⟩

/-- Claim C7 amended: when the value being coerced into a struct type `T` is
an object and the pair `(T, value)` — compared by structural equality on the
value — is in the context's visited set for the current mode (with the depth
cap not yet reached), coercion fails with `CircularReference{T}`: lenient
mode checks the lenient set, strict mode the strict set, and the two sets are
tracked separately, so a strict visit does not block a lenient entry. -/
theorem cycle_guard_object_value (fields : List FieldDescriptor)
    (st : List Transformation) (value : FlexValue) (ctx : CoercionContext)
    (type_name : String)
    (f : String → FlexValue → CoercionContext → Bool →
      Except ParseError (Unit × CoercionContext))
    (g : String → FlexValue → CoercionContext → Option (Unit × CoercionContext))
    (entries : List (String × JsonValue)) (hv : value.value = .obj entries)
    (hdepth : ctx.depth < ctx.max_depth) :
    (visitedContains ctx.visited_for_lenient type_name value.value = true →
        structDeserialize fields st value ctx type_name f
          = .error (.DeserializeFailed (.CircularReference type_name)))
    ∧ (visitedContains ctx.visited_for_strict type_name value.value = true →
        structTryDeserialize fields value ctx type_name g
          = .error (.DeserializeFailed (.CircularReference type_name)))
    ∧ ((ctx.with_visited_strict type_name value).visited_for_lenient
        = ctx.visited_for_lenient)
    ∧ ((ctx.with_visited_lenient type_name value).visited_for_strict
        = ctx.visited_for_strict)
    ∧ (visitedContains ctx.visited_for_lenient type_name value.value = false →
        ctx.depth + 1 < ctx.max_depth →
        (ctx.with_visited_strict type_name value).check_can_enter_lenient type_name value
          = .ok ()) := by
  have hguard : ∀ (s : List (String × JsonValue)) (d m : Nat), d < m →
      visitedContains s type_name value.value = true →
      (if d ≥ m then
        Except.error (ParseError.DeserializeFailed (.DepthLimitExceeded d m))
      else if visitedContains s type_name value.value then
        Except.error (ParseError.DeserializeFailed (.CircularReference type_name))
      else Except.ok ())
        = (Except.error (ParseError.DeserializeFailed (.CircularReference type_name))
            : Except ParseError Unit) := by
    intro s d m hd hc
    rw [if_neg (by omega), if_pos (by simp [hc])]
  refine ⟨?_, ?_, rfl, rfl, ?_⟩
  · intro hc
    unfold structDeserialize
    rw [hv]
    have : ctx.check_can_enter_lenient type_name value
        = .error (.DeserializeFailed (.CircularReference type_name)) := by
      unfold CoercionContext.check_can_enter_lenient
      exact hguard _ _ _ hdepth hc
    rw [this]
  · intro hc
    unfold structTryDeserialize
    rw [hv]
    have : ctx.check_can_enter_strict type_name value
        = .error (.DeserializeFailed (.CircularReference type_name)) := by
      unfold CoercionContext.check_can_enter_strict
      exact hguard _ _ _ hdepth hc
    rw [this]
  · intro hnc hd
    unfold CoercionContext.check_can_enter_lenient CoercionContext.with_visited_strict
    simp only
    rw [if_neg (by omega), if_neg (by simp [hnc])]

/-- Witness for `cycle_guard_object_value`: a concrete visited object pair in
each mode. -/
theorem cycle_guard_object_value_witness :
    ((FlexValue.new (.obj [("k", .null)]) .Direct).value = .obj [("k", .null)]
      ∧ ({ CoercionContext.new with
            visited_for_strict := [("T", .obj [("k", .null)])]
            visited_for_lenient := [("T", .obj [("k", .null)])] } : CoercionContext).depth
          < ({ CoercionContext.new with
                visited_for_strict := [("T", .obj [("k", .null)])]
                visited_for_lenient := [("T", .obj [("k", .null)])] } : CoercionContext).max_depth)
    ∧ structDeserialize [] [] (FlexValue.new (.obj [("k", .null)]) .Direct)
        { CoercionContext.new with
          visited_for_strict := [("T", .obj [("k", .null)])]
          visited_for_lenient := [("T", .obj [("k", .null)])] } "T"
        (fun _ _ c _ => .ok ((), c))
      = .error (.DeserializeFailed (.CircularReference "T"))
    ∧ structTryDeserialize [] (FlexValue.new (.obj [("k", .null)]) .Direct)
        { CoercionContext.new with
          visited_for_strict := [("T", .obj [("k", .null)])]
          visited_for_lenient := [("T", .obj [("k", .null)])] } "T"
        (fun _ _ c => some ((), c))
      = .error (.DeserializeFailed (.CircularReference "T")) := by
  refine ⟨⟨rfl, by decide⟩, ?_, ?_⟩
  · exact (cycle_guard_object_value [] [] (FlexValue.new (.obj [("k", .null)]) .Direct)
      { CoercionContext.new with
        visited_for_strict := [("T", .obj [("k", .null)])]
        visited_for_lenient := [("T", .obj [("k", .null)])] } "T"
      (fun _ _ c _ => .ok ((), c)) (fun _ _ c => some ((), c))
      [("k", .null)] rfl (by decide)).1 (by decide)
  · exact (cycle_guard_object_value [] [] (FlexValue.new (.obj [("k", .null)]) .Direct)
      { CoercionContext.new with
        visited_for_strict := [("T", .obj [("k", .null)])]
        visited_for_lenient := [("T", .obj [("k", .null)])] } "T"
      (fun _ _ c _ => .ok ((), c)) (fun _ _ c => some ((), c))
      [("k", .null)] rfl (by decide)).2.1 (by decide)

/-! ### Claim C10: the raw-string fallback keeps the candidate set nonempty -/

lemma mem_of_mem_dropWhile {p : Char → Bool} {x : Char} :
    ∀ {l : List Char}, x ∈ l.dropWhile p → x ∈ l := by
  intro l
  induction l with
  | nil => simp
  | cons a t ih =>
      intro h
      rw [List.dropWhile_cons] at h
      by_cases hpa : p a = true
      · rw [if_pos hpa] at h
        exact List.mem_cons_of_mem a (ih h)
      · rw [if_neg hpa] at h
        exact h

lemma mem_of_mem_trimChars {x : Char} {cs : List Char} (h : x ∈ trimChars cs) :
    x ∈ cs := by
  simp only [trimChars, List.mem_reverse] at h
  have h2 := mem_of_mem_dropWhile h
  rw [List.mem_reverse] at h2
  exact mem_of_mem_dropWhile h2

lemma mem_dropWhile_of_neg {p : Char → Bool} {x : Char} (hx : p x = false) :
    ∀ {l : List Char}, x ∈ l → x ∈ l.dropWhile p := by
  intro l
  induction l with
  | nil => simp
  | cons a t ih =>
      intro h
      rw [List.dropWhile_cons]
      by_cases hpa : p a = true
      · rw [if_pos hpa]
        rcases List.mem_cons.mp h with rfl | ht
        · rw [hpa] at hx; cases hx
        · exact ih ht
      · rw [if_neg hpa]
        exact h

lemma mem_trimChars_of_not_ws {x : Char} {cs : List Char}
    (hx : isRustWhitespace x = false) (h : x ∈ cs) : x ∈ trimChars cs := by
  simp only [trimChars, List.mem_reverse]
  apply mem_dropWhile_of_neg hx
  rw [List.mem_reverse]
  exact mem_dropWhile_of_neg hx h

lemma not_mem_of_head?_ne {l : List Char} {x : Char} (h : x ∉ l) :
    l.head? ≠ some x := by
  intro he
  cases l with
  | nil => cases he
  | cons a t =>
      rw [List.head?_cons, Option.some_inj] at he
      exact h (he ▸ List.mem_cons_self a t)

lemma byteLen_cons (c : Char) (l : List Char) :
    byteLen (c :: l) = c.utf8Size + byteLen l := by
  simp [byteLen]

lemma one_le_utf8Size (c : Char) : 1 ≤ c.utf8Size := by
  simp only [Char.utf8Size]
  split <;> try split <;> try split
  all_goals omega

lemma byteLen_filter_le (p : Char → Bool) (cs : List Char) :
    byteLen (cs.filter p) ≤ byteLen cs := by
  induction cs with
  | nil => simp [byteLen]
  | cons c t ih =>
      rw [List.filter_cons]
      by_cases h : p c = true
      · rw [if_pos h, byteLen_cons, byteLen_cons]
        omega
      · rw [if_neg h, byteLen_cons]
        omega

lemma fixBackslashesGo_subset {x : Char} :
    ∀ (cs : List Char) (a b : Bool) (n : Nat),
      x ∈ fixBackslashesGo cs a b n → x ∈ cs
  | [], _, _, _, h => by simp [fixBackslashesGo] at h
  | [c], a, b, n, h => by
      simp only [fixBackslashesGo] at h
      split at h <;> simp_all
  | c :: c2 :: rest, a, b, n, h => by
      simp only [fixBackslashesGo] at h
      split at h
      · next hc =>
          rcases List.mem_cons.mp h with rfl | h2
          · simp [hc.1]
          · exact List.mem_cons_of_mem _
              (fixBackslashesGo_subset (c2 :: rest) _ _ _ h2)
      · split at h
        · rcases List.mem_cons.mp h with rfl | h2
          · exact List.mem_cons_self _ _
          · exact List.mem_cons_of_mem _
              (fixBackslashesGo_subset (c2 :: rest) _ _ _ h2)
        · split at h
          · next hc =>
              rcases List.mem_cons.mp h with rfl | h2
              · simp [hc.2.2]
              · simp only [List.mem_cons]
                right; right
                exact fixBackslashesGo_subset rest _ _ _ h2
          · rcases List.mem_cons.mp h with rfl | h2
            · exact List.mem_cons_self _ _
            · exact List.mem_cons_of_mem _
                (fixBackslashesGo_subset (c2 :: rest) _ _ _ h2)

lemma fixBackslashesGo_byteLen :
    ∀ (cs : List Char) (a b : Bool) (n : Nat),
      byteLen (fixBackslashesGo cs a b n) ≤ byteLen cs
  | [], _, _, _ => by simp [fixBackslashesGo]
  | [c], a, b, n => by
      simp only [fixBackslashesGo]
      split
      · next hc => rw [hc.1]
      · exact le_refl _
  | c :: c2 :: rest, a, b, n => by
      simp only [fixBackslashesGo]
      split
      · next hc =>
          rw [byteLen_cons, byteLen_cons, hc.1]
          have := fixBackslashesGo_byteLen (c2 :: rest) (!a) false 0
          omega
      · split
        · rw [byteLen_cons, byteLen_cons]
          have := fixBackslashesGo_byteLen (c2 :: rest) a
            (if b then false else c = '\\') (if c = '\\' then n + 1 else 0)
          omega
        · split
          · next hc =>
              rw [byteLen_cons, byteLen_cons, byteLen_cons, hc.2.2]
              have h1 := fixBackslashesGo_byteLen rest a b 0
              have h2 := one_le_utf8Size c
              omega
          · rw [byteLen_cons, byteLen_cons]
            have := fixBackslashesGo_byteLen (c2 :: rest) a b
              (if c = '\\' then n + 1 else 0)
            omega

lemma normalize_candidates_ne_nil {l : List FlexValue} (h : l ≠ []) :
    normalize_candidates l ≠ [] := by
  simpa [normalize_candidates] using h

lemma stage0Loop_ne_nil (fallback : List Char → List FlexValue) (input : List Char) :
    ∀ (strategies : List (List Char → List FlexValue)) (needsNorm : Bool)
      (acc : List FlexValue),
      (acc ≠ [] ∨ ∃ s ∈ strategies, s input ≠ []) →
      stage0Loop fallback input strategies needsNorm acc ≠ [] := by
  intro strategies
  induction strategies with
  | nil =>
      intro nn acc h
      rcases h with h | ⟨s, hs, _⟩
      · simp only [stage0Loop]
        rw [if_neg (by simpa using h)]
        exact h
      · cases hs
  | cons s rest ih =>
      intro nn acc h
      simp only [stage0Loop]
      split
      · next hcond =>
          have hne : acc ++ s input ≠ [] := by
            intro he
            rw [he] at hcond
            simp at hcond
          split
          · exact normalize_candidates_ne_nil hne
          · exact hne
      · apply ih
        rcases h with h | ⟨t, ht, hne⟩
        · left
          intro he
          exact h (List.append_eq_nil.mp he).1
        · rcases List.mem_cons.mp ht with rfl | htr
          · left
            intro he
            exact hne (List.append_eq_nil.mp he).2
          · right
            exact ⟨t, htr, hne⟩

/-- Claim C10: for every input whose trimmed form contains neither `{` nor
`[`, whose byte length is at most 1000, and which — when its trimmed form
starts with a quote — is not itself valid JSON, `RawPrimitiveStrategy::parse`
emits at least one candidate, among them the entire input text as a
`Heuristic "raw_string"` `String` candidate; consequently `parse_multi_stage`
returns a nonempty candidate list for every strategy list containing the
raw-primitive and direct-JSON strategies, whatever the other strategies and
the extraction fallback do, so `parse` cannot fail with `NoCandidates` on
such plain-text inputs (the empty string included). -/
theorem raw_primitive_fallback_nonempty (input : List Char)
    (hbrace : (trimChars input).contains '{' = false)
    (hbracket : (trimChars input).contains '[' = false)
    (hlen : byteLen input ≤ 1000)
    (hq : (trimChars input).head? = some '"' →
      jsonFromStr (trimChars input) = none) :
    (raw_primitive_parse input ≠ [] ∧
      rawAsString input ∈ raw_primitive_parse input) ∧
    ∀ (strategies : List (List Char → List FlexValue))
      (fallback : List Char → List FlexValue),
      raw_primitive_parse ∈ strategies → direct_json_parse ∈ strategies →
      parse_multi_stage strategies fallback input ≠ [] := by
  have htb : '{' ∉ trimChars input := by simpa using hbrace
  have htk : '[' ∉ trimChars input := by simpa using hbracket
  have hc1 : ¬((trimChars input).head? = some '{' ∨
      (trimChars input).head? = some '[') := by
    rintro (h | h)
    · exact not_mem_of_head?_ne htb h
    · exact not_mem_of_head?_ne htk h
  have hc2 : ¬((trimChars input).contains '{' = true ∨
      (trimChars input).contains '[' = true) := by
    rw [hbrace, hbracket]
    rintro (h | h) <;> cases h
  have hc3 : ¬((trimChars input).head? = some '"' ∧
      (jsonFromStr (trimChars input)).isSome = true) := by
    rintro ⟨h1, h2⟩
    rw [hq h1] at h2
    cases h2
  have hc4 : ¬(1000 < byteLen input) := by omega
  have ha : raw_primitive_parse input =
      (match try_as_bool input with | some b => [b] | none => []) ++
      (match try_as_number input with | some n => [n] | none => []) ++
      [rawAsString input] := by
    simp only [raw_primitive_parse]
    rw [if_neg hc1, if_neg hc2, if_neg hc3, if_neg hc4]
  refine ⟨⟨by rw [ha]; simp, by rw [ha]; simp⟩, ?_⟩
  intro strategies fallback hrp hdj
  have hinb : '{' ∉ input := fun hm => htb (mem_trimChars_of_not_ws (by decide) hm)
  have hink : '[' ∉ input := fun hm => htk (mem_trimChars_of_not_ws (by decide) hm)
  have hdeep : extract_from_deep_nesting input MAX_NESTING_DEPTH = none := by
    simp only [extract_from_deep_nesting]
    rw [if_neg]
    rintro (h | h)
    · exact not_mem_of_head?_ne htb h
    · exact not_mem_of_head?_ne htk h
  have hcb : '{' ∉ fix_unnecessary_backslashes (remove_invisible_chars input) := by
    intro hm
    simp only [fix_unnecessary_backslashes] at hm
    have h1 := fixBackslashesGo_subset _ _ _ _ hm
    exact hinb (List.mem_filter.mp h1).1
  have hck : '[' ∉ fix_unnecessary_backslashes (remove_invisible_chars input) := by
    intro hm
    simp only [fix_unnecessary_backslashes] at hm
    have h1 := fixBackslashesGo_subset _ _ _ _ hm
    exact hink (List.mem_filter.mp h1).1
  have hclen : byteLen (fix_unnecessary_backslashes (remove_invisible_chars input))
      ≤ 1000 := by
    calc byteLen (fix_unnecessary_backslashes (remove_invisible_chars input))
        ≤ byteLen (remove_invisible_chars input) := by
          simp only [fix_unnecessary_backslashes]
          exact fixBackslashesGo_byteLen _ _ _ _
      _ ≤ byteLen input := byteLen_filter_le _ _
      _ ≤ 1000 := hlen
  have hctb : '{' ∉ trimChars (fix_unnecessary_backslashes
      (remove_invisible_chars input)) := fun hm => hcb (mem_of_mem_trimChars hm)
  have hctk : '[' ∉ trimChars (fix_unnecessary_backslashes
      (remove_invisible_chars input)) := fun hm => hck (mem_of_mem_trimChars hm)
  have hstrat :
      raw_primitive_parse (fix_unnecessary_backslashes
        (remove_invisible_chars input)) ≠ [] ∨
      direct_json_parse (fix_unnecessary_backslashes
        (remove_invisible_chars input)) ≠ [] := by
    by_cases hc : (trimChars (fix_unnecessary_backslashes
        (remove_invisible_chars input))).head? = some '"' ∧
        (jsonFromStr (trimChars (fix_unnecessary_backslashes
          (remove_invisible_chars input)))).isSome = true
    · right
      simp only [direct_json_parse]
      rw [if_pos (by simp [looks_like_json, hc.1])]
      obtain ⟨v, hv⟩ := Option.isSome_iff_exists.mp hc.2
      rw [hv]
      simp
    · left
      have hd1 : ¬((trimChars (fix_unnecessary_backslashes
          (remove_invisible_chars input))).head? = some '{' ∨
          (trimChars (fix_unnecessary_backslashes
            (remove_invisible_chars input))).head? = some '[') := by
        rintro (h | h)
        · exact not_mem_of_head?_ne hctb h
        · exact not_mem_of_head?_ne hctk h
      have hd2 : ¬((trimChars (fix_unnecessary_backslashes
          (remove_invisible_chars input))).contains '{' = true ∨
          (trimChars (fix_unnecessary_backslashes
            (remove_invisible_chars input))).contains '[' = true) := by
        rintro (h | h)
        · exact hctb (by simpa using h)
        · exact hctk (by simpa using h)
      have hd4 : ¬(1000 < byteLen (fix_unnecessary_backslashes
          (remove_invisible_chars input))) := by omega
      simp only [raw_primitive_parse]
      rw [if_neg hd1, if_neg hd2, if_neg hc, if_neg hd4]
      simp
  simp only [parse_multi_stage]
  rw [hdeep]
  show stage0Loop fallback
      (fix_unnecessary_backslashes (remove_invisible_chars input))
      strategies false [] ≠ []
  apply stage0Loop_ne_nil
  right
  rcases hstrat with h | h
  · exact ⟨raw_primitive_parse, hrp, h⟩
  · exact ⟨direct_json_parse, hdj, h⟩

/-- The raw-string fallback, checked on the concrete plain-text input
`"hello"` with the default strategy list's raw-primitive and direct-JSON
strategies present. -/
theorem raw_primitive_fallback_nonempty_witness :
    (raw_primitive_parse "hello".data ≠ [] ∧
      rawAsString "hello".data ∈ raw_primitive_parse "hello".data) ∧
    parse_multi_stage [direct_json_parse, raw_primitive_parse] (fun _ => [])
      "hello".data ≠ [] := by
  have h := raw_primitive_fallback_nonempty "hello".data (by decide) (by decide)
    (by decide) (fun hqq => absurd hqq (by decide))
  exact ⟨h.1, h.2 [direct_json_parse, raw_primitive_parse] (fun _ => [])
    (List.Mem.tail _ (List.Mem.head _)) (List.Mem.head _)⟩


/-! ### Valid JSON text has the token shape, and the backslash-fixer
preserves it (toward claim C1) -/

lemma toks_append_plain {pre : List Char}
    (hp : ∀ c ∈ pre, c ≠ '"' ∧ c ≠ '\\') {r : List Char} (h : Toks r) :
    Toks (pre ++ r) := by
  induction pre with
  | nil => simpa using h
  | cons c t ih =>
      have hc := hp c (List.mem_cons_self c t)
      exact Toks.plain hc.1 hc.2 (ih (fun x hx => hp x (List.mem_cons_of_mem c hx)))

lemma jsonWs_plain {c : Char} (h : isJsonWs c = true) : c ≠ '"' ∧ c ≠ '\\' := by
  simp only [isJsonWs, Bool.or_eq_true, decide_eq_true_eq] at h
  rcases h with ((h | h) | h) | h <;> subst h <;> exact ⟨by decide, by decide⟩

lemma skipJsonWs_decomp :
    ∀ (cs : List Char), ∃ w, cs = w ++ skipJsonWs cs ∧ ∀ c ∈ w, isJsonWs c = true := by
  intro cs
  induction cs with
  | nil => exact ⟨[], rfl, by simp⟩
  | cons c t ih =>
      by_cases h : isJsonWs c = true
      · obtain ⟨w, hw1, hw2⟩ := ih
        refine ⟨c :: w, ?_, ?_⟩
        · simp only [skipJsonWs, if_pos h]
          rw [List.cons_append, ← hw1]
        · intro x hx
          rcases List.mem_cons.mp hx with rfl | hx
          · exact h
          · exact hw2 x hx
      · refine ⟨[], ?_, by simp⟩
        simp only [skipJsonWs, if_neg h, List.nil_append]

lemma toks_of_skip {cs : List Char} (h : Toks (skipJsonWs cs)) : Toks cs := by
  obtain ⟨w, hw1, hw2⟩ := skipJsonWs_decomp cs
  rw [hw1]
  exact toks_append_plain (fun c hc => jsonWs_plain (hw2 c hc)) h

lemma toks_of_skip_eq {cs t : List Char} (he : skipJsonWs cs = t) (h : Toks t) :
    Toks cs :=
  toks_of_skip (he ▸ h)

lemma mem_takeWhile {p : Char → Bool} :
    ∀ {l : List Char} {c : Char}, c ∈ l.takeWhile p → p c = true := by
  intro l
  induction l with
  | nil => intro c h; cases h
  | cons a t ih =>
      intro c h
      rw [List.takeWhile_cons] at h
      by_cases ha : p a = true
      · rw [if_pos ha] at h
        rcases List.mem_cons.mp h with rfl | h2
        · exact ha
        · exact ih h2
      · rw [if_neg ha] at h
        cases h

lemma digit_ne_qb {c : Char} (h : isAsciiDigit c = true) : c ≠ '"' ∧ c ≠ '\\' := by
  constructor <;> rintro rfl
  · rw [show isAsciiDigit '"' = false from by decide] at h; cases h
  · rw [show isAsciiDigit '\\' = false from by decide] at h; cases h

lemma hexDigitVal_ne_qb {c : Char} (h : hexDigitVal c ≠ none) :
    c ≠ '"' ∧ c ≠ '\\' := by
  constructor <;> rintro rfl
  · exact h (by decide)
  · exact h (by decide)

lemma parseHex4_frame {l rest : List Char} {n : Nat}
    (h : parseHex4 l = some (n, rest)) :
    ∃ pre, l = pre ++ rest ∧ ∀ c ∈ pre, c ≠ '"' ∧ c ≠ '\\' := by
  match l with
  | [] => cases h
  | [a] => cases h
  | [a, b] => cases h
  | [a, b, c] => cases h
  | a :: b :: c :: d :: l' =>
      simp only [parseHex4] at h
      split at h
      · next va vb vc vd ha hb hc hd =>
          rw [Option.some_inj, Prod.mk.injEq] at h
          obtain ⟨h1, rfl⟩ := h
          refine ⟨[a, b, c, d], rfl, ?_⟩
          intro x hx
          simp only [List.mem_cons, List.not_mem_nil, or_false] at hx
          have hall : hexDigitVal x ≠ none := by
            rcases hx with rfl | rfl | rfl | rfl
            · rw [ha]; exact Option.some_ne_none va
            · rw [hb]; exact Option.some_ne_none vb
            · rw [hc]; exact Option.some_ne_none vc
            · rw [hd]; exact Option.some_ne_none vd
          exact hexDigitVal_ne_qb hall
      · cases h

lemma strBody_append_plain {pre : List Char}
    (hp : ∀ c ∈ pre, c ≠ '"' ∧ c ≠ '\\') {b : List Char} (hb : StrBody b) :
    StrBody (pre ++ b) := by
  induction pre with
  | nil => simpa using hb
  | cons c t ih =>
      have hc := hp c (List.mem_cons_self c t)
      exact StrBody.chr hc.1 hc.2 (ih (fun x hx => hp x (List.mem_cons_of_mem c hx)))

lemma parseStringBody_frame :
    ∀ (fuel : Nat) (cs s rest : List Char),
      parseStringBody fuel cs = some (s, rest) →
      ∃ b, cs = b ++ '"' :: rest ∧ StrBody b := by
  intro fuel
  induction fuel with
  | zero =>
      intro cs s rest h
      rw [parseStringBody.eq_def] at h
      cases cs <;> simp only [] at h <;> cases h
  | succ fuel ih =>
      intro cs s rest h
      cases cs with
      | nil =>
          rw [parseStringBody.eq_def] at h
          simp only [] at h
          cases h
      | cons c cs' =>
          rw [parseStringBody.eq_def] at h
          simp only [] at h
          by_cases h1 : c = '"'
          · rw [if_pos h1] at h
            rw [Option.some_inj, Prod.mk.injEq] at h
            obtain ⟨-, rfl⟩ := h
            subst h1
            exact ⟨[], rfl, StrBody.nil⟩
          · rw [if_neg h1] at h
            by_cases h2 : c = '\\'
            · rw [if_pos h2] at h
              subst h2
              split at h
              · cases h
              · next e rest2 =>
                  by_cases he1 : e = '"' ∨ e = '\\' ∨ e = '/'
                  · rw [if_pos he1, Option.map_eq_some'] at h
                    obtain ⟨⟨s1, r1⟩, hp, heq⟩ := h
                    rw [Prod.mk.injEq] at heq
                    obtain ⟨-, rfl⟩ := heq
                    obtain ⟨b', hb1, hb2⟩ := ih rest2 s1 r1 hp
                    exact ⟨'\\' :: e :: b', by rw [hb1]; rfl, StrBody.esc hb2⟩
                  · rw [if_neg he1] at h
                    by_cases he2 : e = 'b'
                    · rw [if_pos he2, Option.map_eq_some'] at h
                      obtain ⟨⟨s1, r1⟩, hp, heq⟩ := h
                      rw [Prod.mk.injEq] at heq
                      obtain ⟨-, rfl⟩ := heq
                      obtain ⟨b', hb1, hb2⟩ := ih rest2 s1 r1 hp
                      exact ⟨'\\' :: e :: b', by rw [hb1]; rfl, StrBody.esc hb2⟩
                    · rw [if_neg he2] at h
                      by_cases he3 : e = 'f'
                      · rw [if_pos he3, Option.map_eq_some'] at h
                        obtain ⟨⟨s1, r1⟩, hp, heq⟩ := h
                        rw [Prod.mk.injEq] at heq
                        obtain ⟨-, rfl⟩ := heq
                        obtain ⟨b', hb1, hb2⟩ := ih rest2 s1 r1 hp
                        exact ⟨'\\' :: e :: b', by rw [hb1]; rfl, StrBody.esc hb2⟩
                      · rw [if_neg he3] at h
                        by_cases he4 : e = 'n'
                        · rw [if_pos he4, Option.map_eq_some'] at h
                          obtain ⟨⟨s1, r1⟩, hp, heq⟩ := h
                          rw [Prod.mk.injEq] at heq
                          obtain ⟨-, rfl⟩ := heq
                          obtain ⟨b', hb1, hb2⟩ := ih rest2 s1 r1 hp
                          exact ⟨'\\' :: e :: b', by rw [hb1]; rfl, StrBody.esc hb2⟩
                        · rw [if_neg he4] at h
                          by_cases he5 : e = 'r'
                          · rw [if_pos he5, Option.map_eq_some'] at h
                            obtain ⟨⟨s1, r1⟩, hp, heq⟩ := h
                            rw [Prod.mk.injEq] at heq
                            obtain ⟨-, rfl⟩ := heq
                            obtain ⟨b', hb1, hb2⟩ := ih rest2 s1 r1 hp
                            exact ⟨'\\' :: e :: b', by rw [hb1]; rfl, StrBody.esc hb2⟩
                          · rw [if_neg he5] at h
                            by_cases he6 : e = 't'
                            · rw [if_pos he6, Option.map_eq_some'] at h
                              obtain ⟨⟨s1, r1⟩, hp, heq⟩ := h
                              rw [Prod.mk.injEq] at heq
                              obtain ⟨-, rfl⟩ := heq
                              obtain ⟨b', hb1, hb2⟩ := ih rest2 s1 r1 hp
                              exact ⟨'\\' :: e :: b', by rw [hb1]; rfl, StrBody.esc hb2⟩
                            · rw [if_neg he6] at h
                              by_cases he7 : e = 'u'
                              · rw [if_pos he7] at h
                                subst he7
                                split at h
                                · cases h
                                · next n rest3 hh =>
                                    obtain ⟨preh, hpre1, hpre2⟩ := parseHex4_frame hh
                                    by_cases hs1 : 0xd800 ≤ n ∧ n ≤ 0xdbff
                                    · rw [if_pos hs1] at h
                                      split at h
                                      · next rest4 =>
                                          split at h
                                          · next m rest5 hh2 =>
                                              obtain ⟨preh2, hq1, hq2⟩ :=
                                                parseHex4_frame hh2
                                              by_cases hs2 : 0xdc00 ≤ m ∧ m ≤ 0xdfff
                                              · rw [if_pos hs2,
                                                  Option.map_eq_some'] at h
                                                obtain ⟨⟨s1, r1⟩, hp, heq⟩ := h
                                                rw [Prod.mk.injEq] at heq
                                                obtain ⟨-, rfl⟩ := heq
                                                obtain ⟨b', hb1, hb2⟩ :=
                                                  ih rest5 s1 r1 hp
                                                refine ⟨'\\' :: 'u' :: preh ++
                                                  '\\' :: 'u' :: preh2 ++ b', ?_, ?_⟩
                                                · rw [hpre1, hq1, hb1]
                                                  simp
                                                · have hsb : StrBody ('\\' :: 'u' ::
                                                      (preh ++ '\\' :: 'u' ::
                                                        (preh2 ++ b'))) :=
                                                    StrBody.esc
                                                      (strBody_append_plain hpre2
                                                        (StrBody.esc
                                                          (strBody_append_plain hq2 hb2)))
                                                  simpa using hsb
                                              · rw [if_neg hs2] at h; cases h
                                          · cases h
                                      · cases h
                                    · rw [if_neg hs1] at h
                                      by_cases hs2 : 0xdc00 ≤ n ∧ n ≤ 0xdfff
                                      · rw [if_pos hs2] at h; cases h
                                      · rw [if_neg hs2, Option.map_eq_some'] at h
                                        obtain ⟨⟨s1, r1⟩, hp, heq⟩ := h
                                        rw [Prod.mk.injEq] at heq
                                        obtain ⟨-, rfl⟩ := heq
                                        obtain ⟨b', hb1, hb2⟩ := ih rest3 s1 r1 hp
                                        refine ⟨'\\' :: 'u' :: preh ++ b', ?_, ?_⟩
                                        · rw [hpre1, hb1]
                                          simp
                                        · have hsb : StrBody ('\\' :: 'u' ::
                                              (preh ++ b')) :=
                                            StrBody.esc
                                              (strBody_append_plain hpre2 hb2)
                                          simpa using hsb
                              · rw [if_neg he7] at h
                                cases h
            · rw [if_neg h2] at h
              by_cases h3 : c.toNat < 0x20
              · rw [if_pos h3] at h; cases h
              · rw [if_neg h3, Option.map_eq_some'] at h
                obtain ⟨⟨s1, r1⟩, hp, heq⟩ := h
                rw [Prod.mk.injEq] at heq
                obtain ⟨-, rfl⟩ := heq
                obtain ⟨b', hb1, hb2⟩ := ih cs' s1 r1 hp
                exact ⟨c :: b', by rw [hb1]; rfl, StrBody.chr h1 h2 hb2⟩

lemma parseJsonIntDigits_frame {cs ds rest : List Char}
    (h : parseJsonIntDigits cs = some (ds, rest)) :
    cs = ds ++ rest ∧ ∀ c ∈ ds, c ≠ '"' ∧ c ≠ '\\' := by
  cases cs with
  | nil => cases h
  | cons c cs' =>
      simp only [parseJsonIntDigits] at h
      by_cases h1 : c = '0'
      · rw [if_pos h1] at h
        rw [Option.some_inj, Prod.mk.injEq] at h
        obtain ⟨rfl, rfl⟩ := h
        subst h1
        refine ⟨rfl, ?_⟩
        intro x hx
        simp only [List.mem_singleton] at hx
        subst hx
        exact ⟨by decide, by decide⟩
      · rw [if_neg h1] at h
        by_cases h2 : isAsciiDigit c = true
        · rw [if_pos h2] at h
          rw [Option.some_inj, Prod.mk.injEq] at h
          obtain ⟨rfl, rfl⟩ := h
          constructor
          · rw [List.cons_append, List.takeWhile_append_dropWhile]
          · intro x hx
            rcases List.mem_cons.mp hx with rfl | hx
            · exact digit_ne_qb h2
            · exact digit_ne_qb (mem_takeWhile hx)
        · rw [if_neg h2] at h
          cases h

lemma parseJsonExpSign_frame (cs : List Char) :
    ∃ pre, cs = pre ++ (parseJsonExpSign cs).2 ∧
      ∀ c ∈ pre, c ≠ '"' ∧ c ≠ '\\' := by
  cases cs with
  | nil => exact ⟨[], rfl, by simp⟩
  | cons c r =>
      by_cases h1 : c = '+'
      · subst h1
        refine ⟨['+'], rfl, ?_⟩
        intro x hx
        simp only [List.mem_singleton] at hx
        subst hx
        exact ⟨by decide, by decide⟩
      · by_cases h2 : c = '-'
        · subst h2
          refine ⟨['-'], rfl, ?_⟩
          intro x hx
          simp only [List.mem_singleton] at hx
          subst hx
          exact ⟨by decide, by decide⟩
        · have hred : parseJsonExpSign (c :: r) = (1, c :: r) := by
            rw [parseJsonExpSign.eq_def]
            split
            · next heq => injection heq with a1 a2; exact absurd a1 h1
            · next heq => injection heq with a1 a2; exact absurd a1 h2
            · rfl
          exact ⟨[], by rw [hred]; rfl, by simp⟩

lemma parseJsonExp_frame {cs rest : List Char} {eo : Option Int}
    (h : parseJsonExp cs = some (eo, rest)) :
    ∃ pre, cs = pre ++ rest ∧ ∀ c ∈ pre, c ≠ '"' ∧ c ≠ '\\' := by
  unfold parseJsonExp at h
  simp only [] at h
  split at h
  · cases h
  · rw [Option.some_inj, Prod.mk.injEq] at h
    obtain ⟨-, rfl⟩ := h
    obtain ⟨pre, hp1, hp2⟩ := parseJsonExpSign_frame cs
    refine ⟨pre ++ (parseJsonExpSign cs).2.takeWhile isAsciiDigit, ?_, ?_⟩
    · rw [List.append_assoc, List.takeWhile_append_dropWhile, ← hp1]
    · intro x hx
      rcases List.mem_append.mp hx with hx | hx
      · exact hp2 x hx
      · exact digit_ne_qb (mem_takeWhile hx)

lemma parseJsonNumSign_frame (cs : List Char) :
    ∃ pre, cs = pre ++ (parseJsonNumSign cs).2 ∧
      ∀ c ∈ pre, c ≠ '"' ∧ c ≠ '\\' := by
  cases cs with
  | nil => exact ⟨[], rfl, by simp⟩
  | cons c r =>
      by_cases h1 : c = '-'
      · subst h1
        refine ⟨['-'], rfl, ?_⟩
        intro x hx
        simp only [List.mem_singleton] at hx
        subst hx
        exact ⟨by decide, by decide⟩
      · have hred : parseJsonNumSign (c :: r) = (false, c :: r) := by
          rw [parseJsonNumSign.eq_def]
          split
          · next heq => injection heq with a1 a2; exact absurd a1 h1
          · rfl
        exact ⟨[], by rw [hred]; rfl, by simp⟩

lemma parseJsonFrac_frame {cs fds rest : List Char}
    (h : parseJsonFrac cs = some (fds, rest)) :
    ∃ pre, cs = pre ++ rest ∧ ∀ c ∈ pre, c ≠ '"' ∧ c ≠ '\\' := by
  cases cs with
  | nil =>
      rw [show parseJsonFrac [] = some ([], []) from rfl,
        Option.some_inj, Prod.mk.injEq] at h
      obtain ⟨-, rfl⟩ := h
      exact ⟨[], rfl, by simp⟩
  | cons c r =>
      by_cases h1 : c = '.'
      · subst h1
        rw [show parseJsonFrac ('.' :: r) =
            (match r.takeWhile isAsciiDigit with
             | [] => none
             | ds => some (ds, r.dropWhile isAsciiDigit)) from rfl] at h
        split at h
        · cases h
        · rw [Option.some_inj, Prod.mk.injEq] at h
          obtain ⟨-, rfl⟩ := h
          refine ⟨'.' :: r.takeWhile isAsciiDigit, ?_, ?_⟩
          · rw [List.cons_append, List.takeWhile_append_dropWhile]
          · intro x hx
            rcases List.mem_cons.mp hx with rfl | hx
            · exact ⟨by decide, by decide⟩
            · exact digit_ne_qb (mem_takeWhile hx)
      · have hred : parseJsonFrac (c :: r) = some ([], c :: r) := by
          rw [parseJsonFrac.eq_def]
          split
          · next heq => injection heq with a1 a2; exact absurd a1 h1
          · rfl
        rw [hred, Option.some_inj, Prod.mk.injEq] at h
        obtain ⟨-, rfl⟩ := h
        exact ⟨[], rfl, by simp⟩

lemma parseJsonExpOpt_frame {cs rest : List Char} {eo : Option Int}
    (h : parseJsonExpOpt cs = some (eo, rest)) :
    ∃ pre, cs = pre ++ rest ∧ ∀ c ∈ pre, c ≠ '"' ∧ c ≠ '\\' := by
  cases cs with
  | nil =>
      rw [show parseJsonExpOpt [] = some (none, []) from rfl,
        Option.some_inj, Prod.mk.injEq] at h
      obtain ⟨-, rfl⟩ := h
      exact ⟨[], rfl, by simp⟩
  | cons c r =>
      by_cases h1 : c = 'e'
      · subst h1
        rw [show parseJsonExpOpt ('e' :: r) = parseJsonExp r from rfl] at h
        obtain ⟨pre, hp1, hp2⟩ := parseJsonExp_frame h
        refine ⟨'e' :: pre, by rw [List.cons_append, ← hp1], ?_⟩
        intro x hx
        rcases List.mem_cons.mp hx with rfl | hx
        · exact ⟨by decide, by decide⟩
        · exact hp2 x hx
      · by_cases h2 : c = 'E'
        · subst h2
          rw [show parseJsonExpOpt ('E' :: r) = parseJsonExp r from rfl] at h
          obtain ⟨pre, hp1, hp2⟩ := parseJsonExp_frame h
          refine ⟨'E' :: pre, by rw [List.cons_append, ← hp1], ?_⟩
          intro x hx
          rcases List.mem_cons.mp hx with rfl | hx
          · exact ⟨by decide, by decide⟩
          · exact hp2 x hx
        · have hred : parseJsonExpOpt (c :: r) = some (none, c :: r) := by
            rw [parseJsonExpOpt.eq_def]
            split
            · next heq => injection heq with a1 a2; exact absurd a1 h1
            · next heq => injection heq with a1 a2; exact absurd a1 h2
            · rfl
          rw [hred, Option.some_inj, Prod.mk.injEq] at h
          obtain ⟨-, rfl⟩ := h
          exact ⟨[], rfl, by simp⟩

lemma parseJsonNumber_frame {cs rest : List Char} {n : JsonNumber}
    (h : parseJsonNumber cs = some (n, rest)) :
    ∃ pre, cs = pre ++ rest ∧ ∀ c ∈ pre, c ≠ '"' ∧ c ≠ '\\' := by
  unfold parseJsonNumber at h
  simp only [] at h
  rcases hI : parseJsonIntDigits (parseJsonNumSign cs).2 with _ | ⟨ids, cs2⟩
  · rw [hI] at h; cases h
  · rw [hI] at h
    simp only [] at h
    rcases hF : parseJsonFrac cs2 with _ | ⟨fds, cs3⟩
    · rw [hF] at h; cases h
    · rw [hF] at h
      simp only [] at h
      rcases hE : parseJsonExpOpt cs3 with _ | ⟨eo, cs4⟩
      · rw [hE] at h; cases h
      · rw [hE] at h
        simp only [] at h
        have hrest : rest = cs4 := by
          split at h
          · split_ifs at h <;>
              (rw [Option.some_inj, Prod.mk.injEq] at h; exact h.2.symm)
          · rw [Option.some_inj, Prod.mk.injEq] at h
            exact h.2.symm
        subst hrest
        obtain ⟨p0, h01, h02⟩ := parseJsonNumSign_frame cs
        obtain ⟨h11, h12⟩ := parseJsonIntDigits_frame hI
        obtain ⟨p2, h21, h22⟩ := parseJsonFrac_frame hF
        obtain ⟨p3, h31, h32⟩ := parseJsonExpOpt_frame hE
        refine ⟨p0 ++ ids ++ p2 ++ p3, ?_, ?_⟩
        · rw [h01, h11, h21, h31]
          simp [List.append_assoc]
        · intro x hx
          simp only [List.mem_append] at hx
          rcases hx with ((hx | hx) | hx) | hx
          · exact h02 x hx
          · exact h12 x hx
          · exact h22 x hx
          · exact h32 x hx

lemma parser_toks_frame :
    ∀ (fuel : Nat),
      (∀ cs v rest, parseJsonValueF fuel cs = some (v, rest) →
        Toks rest → Toks cs) ∧
      (∀ cs vs rest, parseJsonArrayItems fuel cs = some (vs, rest) →
        Toks rest → Toks cs) ∧
      (∀ cs es rest, parseJsonObjectItems fuel cs = some (es, rest) →
        Toks rest → Toks cs) := by
  intro fuel
  induction fuel with
  | zero =>
      refine ⟨?_, ?_, ?_⟩
      · intro cs v rest h ht
        rw [show parseJsonValueF 0 cs = none from rfl] at h
        cases h
      · intro cs vs rest h ht
        rw [show parseJsonArrayItems 0 cs = none from rfl] at h
        cases h
      · intro cs es rest h ht
        rw [show parseJsonObjectItems 0 cs = none from rfl] at h
        cases h
  | succ fuel ih =>
      obtain ⟨ihV, ihA, ihO⟩ := ih
      refine ⟨?_, ?_, ?_⟩
      · intro cs v rest h ht
        simp only [parseJsonValueF] at h
        rcases hs : skipJsonWs cs with _ | ⟨c, rest0⟩
        · rw [hs] at h; cases h
        · rw [hs] at h
          simp only [] at h
          refine toks_of_skip_eq hs ?_
          by_cases h1 : c = 'n'
          · rw [if_pos h1] at h
            subst h1
            split at h
            · next r =>
                rw [Option.some_inj, Prod.mk.injEq] at h
                obtain ⟨-, rfl⟩ := h
                exact Toks.plain (by decide) (by decide)
                  (Toks.plain (by decide) (by decide)
                    (Toks.plain (by decide) (by decide)
                      (Toks.plain (by decide) (by decide) ht)))
            · cases h
          · rw [if_neg h1] at h
            by_cases h2 : c = 't'
            · rw [if_pos h2] at h
              subst h2
              split at h
              · next r =>
                  rw [Option.some_inj, Prod.mk.injEq] at h
                  obtain ⟨-, rfl⟩ := h
                  exact Toks.plain (by decide) (by decide)
                    (Toks.plain (by decide) (by decide)
                      (Toks.plain (by decide) (by decide)
                        (Toks.plain (by decide) (by decide) ht)))
              · cases h
            · rw [if_neg h2] at h
              by_cases h3 : c = 'f'
              · rw [if_pos h3] at h
                subst h3
                split at h
                · next r =>
                    rw [Option.some_inj, Prod.mk.injEq] at h
                    obtain ⟨-, rfl⟩ := h
                    exact Toks.plain (by decide) (by decide)
                      (Toks.plain (by decide) (by decide)
                        (Toks.plain (by decide) (by decide)
                          (Toks.plain (by decide) (by decide)
                            (Toks.plain (by decide) (by decide) ht))))
                · cases h
              · rw [if_neg h3] at h
                by_cases h4 : c = '"'
                · rw [if_pos h4] at h
                  subst h4
                  rw [Option.map_eq_some'] at h
                  obtain ⟨⟨s1, r1⟩, hp, heq⟩ := h
                  rw [Prod.mk.injEq] at heq
                  obtain ⟨-, rfl⟩ := heq
                  obtain ⟨b, hb1, hb2⟩ := parseStringBody_frame _ rest0 s1 r1 hp
                  rw [hb1]
                  exact Toks.str hb2 ht
                · rw [if_neg h4] at h
                  by_cases h5 : c = '['
                  · rw [if_pos h5] at h
                    subst h5
                    split at h
                    · next r heq =>
                        rw [Option.some_inj, Prod.mk.injEq] at h
                        obtain ⟨-, rfl⟩ := h
                        refine Toks.plain (by decide) (by decide) ?_
                        exact toks_of_skip_eq heq
                          (Toks.plain (by decide) (by decide) ht)
                    · rw [Option.map_eq_some'] at h
                      obtain ⟨⟨vs1, r1⟩, hp, heq2⟩ := h
                      rw [Prod.mk.injEq] at heq2
                      obtain ⟨-, rfl⟩ := heq2
                      refine Toks.plain (by decide) (by decide) ?_
                      exact toks_of_skip (ihA _ _ _ hp ht)
                  · rw [if_neg h5] at h
                    by_cases h6 : c = '{'
                    · rw [if_pos h6] at h
                      subst h6
                      split at h
                      · next r heq =>
                          rw [Option.some_inj, Prod.mk.injEq] at h
                          obtain ⟨-, rfl⟩ := h
                          refine Toks.plain (by decide) (by decide) ?_
                          exact toks_of_skip_eq heq
                            (Toks.plain (by decide) (by decide) ht)
                      · rw [Option.map_eq_some'] at h
                        obtain ⟨⟨es1, r1⟩, hp, heq2⟩ := h
                        rw [Prod.mk.injEq] at heq2
                        obtain ⟨-, rfl⟩ := heq2
                        refine Toks.plain (by decide) (by decide) ?_
                        exact toks_of_skip (ihO _ _ _ hp ht)
                    · rw [if_neg h6] at h
                      by_cases h7 : c = '-' ∨ isAsciiDigit c
                      · rw [if_pos h7] at h
                        rw [Option.map_eq_some'] at h
                        obtain ⟨⟨n1, r1⟩, hp, heq⟩ := h
                        rw [Prod.mk.injEq] at heq
                        obtain ⟨-, rfl⟩ := heq
                        obtain ⟨pre, hpre1, hpre2⟩ := parseJsonNumber_frame hp
                        rw [hpre1]
                        exact toks_append_plain hpre2 ht
                      · rw [if_neg h7] at h
                        cases h
      · intro cs vs rest h ht
        simp only [parseJsonArrayItems] at h
        rcases hv : parseJsonValueF fuel cs with _ | ⟨v, r1⟩
        · rw [hv] at h; cases h
        · rw [hv] at h
          simp only [] at h
          split at h
          · next r2 heq =>
              rw [Option.map_eq_some'] at h
              obtain ⟨⟨vs1, r3⟩, hp, heq2⟩ := h
              rw [Prod.mk.injEq] at heq2
              obtain ⟨-, rfl⟩ := heq2
              have t2 : Toks r2 := ihA _ _ _ hp ht
              exact ihV _ _ _ hv
                (toks_of_skip_eq heq (Toks.plain (by decide) (by decide) t2))
          · next r2 heq =>
              rw [Option.some_inj, Prod.mk.injEq] at h
              obtain ⟨-, rfl⟩ := h
              exact ihV _ _ _ hv
                (toks_of_skip_eq heq (Toks.plain (by decide) (by decide) ht))
          · cases h
      · intro cs es rest h ht
        simp only [parseJsonObjectItems] at h
        split at h
        · next rest1 heq =>
            rcases hk : parseStringBody (rest1.length + 1) rest1 with _ | ⟨kcs, r1⟩
            · rw [hk] at h; cases h
            · rw [hk] at h
              simp only [] at h
              split at h
              · next r2 heq2 =>
                  rcases hv : parseJsonValueF fuel r2 with _ | ⟨v, r3⟩
                  · rw [hv] at h; cases h
                  · rw [hv] at h
                    simp only [] at h
                    split at h
                    · next r4 heq3 =>
                        rw [Option.map_eq_some'] at h
                        obtain ⟨⟨es1, r5⟩, hp, heq4⟩ := h
                        rw [Prod.mk.injEq] at heq4
                        obtain ⟨-, rfl⟩ := heq4
                        have t4 : Toks r4 := ihO _ _ _ hp ht
                        have t3 : Toks r3 := toks_of_skip_eq heq3
                          (Toks.plain (by decide) (by decide) t4)
                        have t2 : Toks r2 := ihV _ _ _ hv t3
                        have t1 : Toks r1 := toks_of_skip_eq heq2
                          (Toks.plain (by decide) (by decide) t2)
                        obtain ⟨b, hb1, hb2⟩ :=
                          parseStringBody_frame _ rest1 kcs r1 hk
                        refine toks_of_skip_eq heq ?_
                        rw [hb1]
                        exact Toks.str hb2 t1
                    · next r4 heq3 =>
                        rw [Option.some_inj, Prod.mk.injEq] at h
                        obtain ⟨-, rfl⟩ := h
                        have t3 : Toks r3 := toks_of_skip_eq heq3
                          (Toks.plain (by decide) (by decide) ht)
                        have t2 : Toks r2 := ihV _ _ _ hv t3
                        have t1 : Toks r1 := toks_of_skip_eq heq2
                          (Toks.plain (by decide) (by decide) t2)
                        obtain ⟨b, hb1, hb2⟩ :=
                          parseStringBody_frame _ rest1 kcs r1 hk
                        refine toks_of_skip_eq heq ?_
                        rw [hb1]
                        exact Toks.str hb2 t1
                    · cases h
              · cases h
        · cases h

lemma jsonFromStr_toks {cs : List Char} {v : JsonValue}
    (h : jsonFromStr cs = some v) : Toks cs := by
  unfold jsonFromStr at h
  split at h
  · next v1 rest heq =>
      split at h
      · next hskip =>
          have hrest : Toks rest := by
            obtain ⟨w, hw1, hw2⟩ := skipJsonWs_decomp rest
            rw [hw1, hskip]
            exact toks_append_plain (fun c hc => jsonWs_plain (hw2 c hc)) Toks.nil
          exact (parser_toks_frame (2 * cs.length + 2)).1 cs v1 rest heq hrest
      · cases h
  · cases h

lemma fixBS_quote (rest : List Char) (inS : Bool) (k : Nat) :
    fixBackslashesGo ('"' :: rest) inS false k =
      '"' :: fixBackslashesGo rest (!inS) false 0 := by
  cases rest with
  | nil => simp [fixBackslashesGo]
  | cons c2 r => rw [fixBackslashesGo]; rw [if_pos ⟨rfl, rfl⟩]

lemma fixBS_in_plain {c : Char} (hc : c ≠ '"') (hc2 : c ≠ '\\')
    (rest : List Char) (k : Nat) :
    fixBackslashesGo (c :: rest) true false k =
      c :: fixBackslashesGo rest true false 0 := by
  cases rest with
  | nil => simp [fixBackslashesGo, hc]
  | cons c2 r =>
      rw [fixBackslashesGo, if_neg (fun h => hc h.1), if_pos rfl]
      simp [hc2]

lemma fixBS_in_bs (rest : List Char) (k : Nat) :
    fixBackslashesGo ('\\' :: rest) true false k =
      '\\' :: fixBackslashesGo rest true true (k + 1) := by
  cases rest with
  | nil => simp [fixBackslashesGo]
  | cons c2 r =>
      rw [fixBackslashesGo, if_neg (by rintro ⟨h, _⟩; exact absurd h (by decide)),
        if_pos rfl]
      simp

lemma fixBS_in_after_esc (c : Char) (rest : List Char) (k : Nat) :
    fixBackslashesGo (c :: rest) true true k =
      c :: fixBackslashesGo rest true false (if c = '\\' then k + 1 else 0) := by
  cases rest with
  | nil => simp [fixBackslashesGo]
  | cons c2 r =>
      rw [fixBackslashesGo, if_neg (by rintro ⟨_, h⟩; cases h), if_pos rfl]
      simp

lemma fixBS_out_plain {c : Char} (hc : c ≠ '"') (hc2 : c ≠ '\\')
    (rest : List Char) (k : Nat) :
    fixBackslashesGo (c :: rest) false false k =
      c :: fixBackslashesGo rest false false 0 := by
  cases rest with
  | nil => simp [fixBackslashesGo, hc]
  | cons c2 r =>
      rw [fixBackslashesGo, if_neg (fun h => hc h.1),
        if_neg (by simp), if_neg (by rintro ⟨h, _⟩; exact hc2 h)]
      simp [hc2]

lemma fixBackslashesGo_strBody {b : List Char} (hb : StrBody b) :
    ∀ (r : List Char) (k : Nat),
      fixBackslashesGo (b ++ '"' :: r) true false k =
        b ++ '"' :: fixBackslashesGo r false false 0 := by
  induction hb with
  | nil =>
      intro r k
      rw [List.nil_append, fixBS_quote]
      simp
  | @chr c b' hc hc2 _ ih =>
      intro r k
      rw [List.cons_append, fixBS_in_plain hc hc2, ih]
      simp
  | @esc e b' _ ih =>
      intro r k
      rw [List.cons_append, fixBS_in_bs, List.cons_append, fixBS_in_after_esc, ih]
      simp

lemma fixBackslashesGo_toks {cs : List Char} (h : Toks cs) :
    ∀ (k : Nat), fixBackslashesGo cs false false k = cs := by
  induction h with
  | nil => intro k; rfl
  | @plain c r hc hc2 _ ih =>
      intro k
      rw [fixBS_out_plain hc hc2, ih]
  | @str b r hb _ ih =>
      intro k
      rw [List.cons_append, fixBS_quote]
      simp only [Bool.not_false]
      rw [fixBackslashesGo_strBody hb, ih]

lemma dropWhile_length_le (p : Char → Bool) :
    ∀ (l : List Char), (l.dropWhile p).length ≤ l.length := by
  intro l
  induction l with
  | nil => simp
  | cons c t ih =>
      rw [List.dropWhile_cons]
      by_cases h : p c = true
      · rw [if_pos h]
        exact ih.trans (by simp)
      · rw [if_neg h]

lemma jsonWs_rust {c : Char} (h : isJsonWs c = true) : isRustWhitespace c = true := by
  simp only [isJsonWs, Bool.or_eq_true, decide_eq_true_eq] at h
  rcases h with ((h | h) | h) | h <;> subst h <;> decide

lemma ws_not_numExt {c : Char} (h : isJsonWs c = true) : numExtChar c = false := by
  simp only [isJsonWs, Bool.or_eq_true, decide_eq_true_eq] at h
  rcases h with ((h | h) | h) | h <;> subst h <;> decide

lemma rust_ws_not_json {c : Char} (h : isRustWhitespace c = false) :
    isJsonWs c = false := by
  by_contra hcon
  rw [Bool.not_eq_false] at hcon
  rw [jsonWs_rust hcon] at h
  cases h

lemma safeBoundary_nil : safeBoundary [] := by
  intro c hc
  cases hc

lemma safeBoundary_cons {c : Char} (h : numExtChar c = false) (t : List Char) :
    safeBoundary (c :: t) := by
  intro x hx
  rw [List.head?_cons, Option.some_inj] at hx
  subst hx
  exact h

lemma safeBoundary_ws_cons {w : List Char} (hw : ∀ c ∈ w, isJsonWs c = true)
    {d : Char} (hd : numExtChar d = false) (t : List Char) :
    safeBoundary (w ++ d :: t) := by
  cases w with
  | nil => exact safeBoundary_cons hd t
  | cons a w' =>
      refine safeBoundary_cons ?_ _
      exact ws_not_numExt (hw a (List.mem_cons_self a w'))

lemma skipJsonWs_append_ws {w : List Char} (hw : ∀ c ∈ w, isJsonWs c = true)
    (t : List Char) : skipJsonWs (w ++ t) = skipJsonWs t := by
  induction w with
  | nil => rfl
  | cons a w' ih =>
      rw [List.cons_append]
      rw [show skipJsonWs (a :: (w' ++ t)) =
          if isJsonWs a then skipJsonWs (w' ++ t) else a :: (w' ++ t) from rfl]
      rw [if_pos (hw a (List.mem_cons_self a w'))]
      exact ih (fun c hc => hw c (List.mem_cons_of_mem a hc))

lemma skipJsonWs_cons_not {c : Char} (hc : isJsonWs c = false) (t : List Char) :
    skipJsonWs (c :: t) = c :: t := by
  rw [show skipJsonWs (c :: t) = if isJsonWs c then skipJsonWs t else c :: t from rfl]
  rw [hc]
  simp

lemma skipJsonWs_all_ws {cs : List Char} (h : skipJsonWs cs = []) :
    ∀ c ∈ cs, isJsonWs c = true := by
  obtain ⟨w, hw1, hw2⟩ := skipJsonWs_decomp cs
  rw [h, List.append_nil] at hw1
  rw [hw1]
  exact hw2

lemma takeWhile_all_append {p : Char → Bool} {l₁ l₂ : List Char}
    (h1 : ∀ c ∈ l₁, p c = true) (h2 : ∀ c, l₂.head? = some c → p c = false) :
    (l₁ ++ l₂).takeWhile p = l₁ ∧ (l₁ ++ l₂).dropWhile p = l₂ := by
  induction l₁ with
  | nil =>
      simp only [List.nil_append]
      cases l₂ with
      | nil => simp
      | cons b t =>
          have hb := h2 b rfl
          rw [List.takeWhile_cons, List.dropWhile_cons, hb]
          simp
  | cons a t ih =>
      have ha := h1 a (List.mem_cons_self a t)
      obtain ⟨ih1, ih2⟩ := ih (fun c hc => h1 c (List.mem_cons_of_mem a hc))
      rw [List.cons_append, List.takeWhile_cons, List.dropWhile_cons, ha]
      simp [ih1, ih2]

lemma trimChars_exact {w core wr : List Char}
    (hw : ∀ c ∈ w, isRustWhitespace c = true)
    (hwr : ∀ c ∈ wr, isRustWhitespace c = true)
    (hne : core ≠ [])
    (hhead : ∀ c, core.head? = some c → isRustWhitespace c = false)
    (hlast : ∀ c, core.getLast? = some c → isRustWhitespace c = false) :
    trimChars (w ++ (core ++ wr)) = core := by
  unfold trimChars
  have h1 : (w ++ (core ++ wr)).dropWhile isRustWhitespace = core ++ wr := by
    refine (takeWhile_all_append hw ?_).2
    intro c hc
    cases core with
    | nil => exact absurd rfl hne
    | cons b t =>
        rw [List.cons_append, List.head?_cons, Option.some_inj] at hc
        rw [← hc]
        exact hhead b rfl
  rw [h1, List.reverse_append]
  have h2 : (wr.reverse ++ core.reverse).dropWhile isRustWhitespace =
      core.reverse := by
    refine (takeWhile_all_append ?_ ?_).2
    · intro c hc
      exact hwr c (List.mem_reverse.mp hc)
    · intro c hc
      rw [List.head?_reverse] at hc
      exact hlast c hc
  rw [h2, List.reverse_reverse]

lemma parseHex4_chop {l rest : List Char} {n : Nat}
    (h : parseHex4 l = some (n, rest)) :
    ∃ a b c d, l = a :: b :: c :: d :: rest ∧
      ∀ X, parseHex4 (a :: b :: c :: d :: X) = some (n, X) := by
  match l with
  | [] => cases h
  | [a] => cases h
  | [a, b] => cases h
  | [a, b, c] => cases h
  | a :: b :: c :: d :: l' =>
      simp only [parseHex4] at h
      split at h
      · next va vb vc vd ha hb hc hd =>
          rw [Option.some_inj, Prod.mk.injEq] at h
          obtain ⟨h1, rfl⟩ := h
          refine ⟨a, b, c, d, rfl, ?_⟩
          intro X
          simp only [parseHex4, ha, hb, hc, hd, h1]
      · cases h

lemma getLast?_cons_ne_nil {c : Char} {l : List Char} (h : l ≠ []) :
    (c :: l).getLast? = l.getLast? := by
  cases l with
  | nil => exact absurd rfl h
  | cons p t => exact List.getLast?_append_cons [c] p t

lemma parseStringBody_chop :
    ∀ (fuel : Nat) (cs s rest : List Char),
      parseStringBody fuel cs = some (s, rest) →
      ∃ pre, cs = pre ++ rest ∧ pre ≠ [] ∧ pre.getLast? = some '"' ∧
        ∀ fuel₂ rest₂, pre.length < fuel₂ →
          parseStringBody fuel₂ (pre ++ rest₂) = some (s, rest₂) := by
  intro fuel
  induction fuel with
  | zero =>
      intro cs s rest h
      rw [parseStringBody.eq_def] at h
      cases cs <;> simp only [] at h <;> cases h
  | succ fuel ih =>
      intro cs s rest h
      cases cs with
      | nil =>
          rw [parseStringBody.eq_def] at h
          simp only [] at h
          cases h
      | cons c cs' =>
          rw [parseStringBody.eq_def] at h
          simp only [] at h
          by_cases h1 : c = '"'
          · rw [if_pos h1] at h
            rw [Option.some_inj, Prod.mk.injEq] at h
            obtain ⟨rfl, rfl⟩ := h
            subst h1
            refine ⟨['"'], rfl, by simp, rfl, ?_⟩
            intro fuel₂ rest₂ hf
            cases fuel₂ with
            | zero => omega
            | succ f₂ =>
                simp only [List.cons_append, List.nil_append]
                rw [parseStringBody.eq_def]
                simp only []
                rw [if_pos trivial]
          · rw [if_neg h1] at h
            by_cases h2 : c = '\\'
            · rw [if_pos h2] at h
              subst h2
              split at h
              · cases h
              · next e rest2 =>
                  by_cases he1 : e = '"' ∨ e = '\\' ∨ e = '/'
                  · rw [if_pos he1, Option.map_eq_some'] at h
                    obtain ⟨⟨s1, r1⟩, hp, heq⟩ := h
                    rw [Prod.mk.injEq] at heq
                    obtain ⟨rfl, rfl⟩ := heq
                    obtain ⟨pre', hp1, hpne, hplast, hpfwd⟩ := ih rest2 s1 r1 hp
                    refine ⟨'\\' :: e :: pre', by rw [hp1]; rfl, by simp, ?_, ?_⟩
                    · simp only [List.getLast?_cons_cons]
                      rw [getLast?_cons_ne_nil hpne]
                      exact hplast
                    · intro fuel₂ rest₂ hf
                      cases fuel₂ with
                      | zero => omega
                      | succ f₂ =>
                          simp only [List.cons_append]
                          rw [parseStringBody.eq_def]
                          simp only []
                          rw [if_neg (by decide : ¬('\\' = '"')), if_pos trivial]
                          rw [if_pos he1]
                          rw [hpfwd f₂ rest₂
                            (by simp only [List.length_cons] at hf; omega)]
                          rfl
                  · rw [if_neg he1] at h
                    by_cases he2 : e = 'b'
                    · rw [if_pos he2, Option.map_eq_some'] at h
                      obtain ⟨⟨s1, r1⟩, hp, heq⟩ := h
                      rw [Prod.mk.injEq] at heq
                      obtain ⟨rfl, rfl⟩ := heq
                      obtain ⟨pre', hp1, hpne, hplast, hpfwd⟩ := ih rest2 s1 r1 hp
                      refine ⟨'\\' :: e :: pre', by rw [hp1]; rfl, by simp, ?_, ?_⟩
                      · simp only [List.getLast?_cons_cons]
                        rw [getLast?_cons_ne_nil hpne]
                        exact hplast
                      · intro fuel₂ rest₂ hf
                        cases fuel₂ with
                        | zero => omega
                        | succ f₂ =>
                            simp only [List.cons_append]
                            rw [parseStringBody.eq_def]
                            simp only []
                            rw [if_neg (by decide : ¬('\\' = '"')), if_pos trivial]
                            rw [if_neg he1, if_pos he2]
                            rw [hpfwd f₂ rest₂
                              (by simp only [List.length_cons] at hf; omega)]
                            rfl
                    · rw [if_neg he2] at h
                      by_cases he3 : e = 'f'
                      · rw [if_pos he3, Option.map_eq_some'] at h
                        obtain ⟨⟨s1, r1⟩, hp, heq⟩ := h
                        rw [Prod.mk.injEq] at heq
                        obtain ⟨rfl, rfl⟩ := heq
                        obtain ⟨pre', hp1, hpne, hplast, hpfwd⟩ := ih rest2 s1 r1 hp
                        refine ⟨'\\' :: e :: pre', by rw [hp1]; rfl, by simp, ?_, ?_⟩
                        · simp only [List.getLast?_cons_cons]
                          rw [getLast?_cons_ne_nil hpne]
                          exact hplast
                        · intro fuel₂ rest₂ hf
                          cases fuel₂ with
                          | zero => omega
                          | succ f₂ =>
                              simp only [List.cons_append]
                              rw [parseStringBody.eq_def]
                              simp only []
                              rw [if_neg (by decide : ¬('\\' = '"')), if_pos trivial]
                              rw [if_neg he1, if_neg he2, if_pos he3]
                              rw [hpfwd f₂ rest₂
                                (by simp only [List.length_cons] at hf; omega)]
                              rfl
                      · rw [if_neg he3] at h
                        by_cases he4 : e = 'n'
                        · rw [if_pos he4, Option.map_eq_some'] at h
                          obtain ⟨⟨s1, r1⟩, hp, heq⟩ := h
                          rw [Prod.mk.injEq] at heq
                          obtain ⟨rfl, rfl⟩ := heq
                          obtain ⟨pre', hp1, hpne, hplast, hpfwd⟩ := ih rest2 s1 r1 hp
                          refine ⟨'\\' :: e :: pre', by rw [hp1]; rfl, by simp, ?_, ?_⟩
                          · simp only [List.getLast?_cons_cons]
                            rw [getLast?_cons_ne_nil hpne]
                            exact hplast
                          · intro fuel₂ rest₂ hf
                            cases fuel₂ with
                            | zero => omega
                            | succ f₂ =>
                                simp only [List.cons_append]
                                rw [parseStringBody.eq_def]
                                simp only []
                                rw [if_neg (by decide : ¬('\\' = '"')), if_pos trivial]
                                rw [if_neg he1, if_neg he2, if_neg he3, if_pos he4]
                                rw [hpfwd f₂ rest₂
                                  (by simp only [List.length_cons] at hf; omega)]
                                rfl
                        · rw [if_neg he4] at h
                          by_cases he5 : e = 'r'
                          · rw [if_pos he5, Option.map_eq_some'] at h
                            obtain ⟨⟨s1, r1⟩, hp, heq⟩ := h
                            rw [Prod.mk.injEq] at heq
                            obtain ⟨rfl, rfl⟩ := heq
                            obtain ⟨pre', hp1, hpne, hplast, hpfwd⟩ :=
                              ih rest2 s1 r1 hp
                            refine ⟨'\\' :: e :: pre', by rw [hp1]; rfl, by simp,
                              ?_, ?_⟩
                            · simp only [List.getLast?_cons_cons]
                              rw [getLast?_cons_ne_nil hpne]
                              exact hplast
                            · intro fuel₂ rest₂ hf
                              cases fuel₂ with
                              | zero => omega
                              | succ f₂ =>
                                  simp only [List.cons_append]
                                  rw [parseStringBody.eq_def]
                                  simp only []
                                  rw [if_neg (by decide : ¬('\\' = '"')),
                                    if_pos trivial]
                                  rw [if_neg he1, if_neg he2, if_neg he3,
                                    if_neg he4, if_pos he5]
                                  rw [hpfwd f₂ rest₂
                                    (by simp only [List.length_cons] at hf; omega)]
                                  rfl
                          · rw [if_neg he5] at h
                            by_cases he6 : e = 't'
                            · rw [if_pos he6, Option.map_eq_some'] at h
                              obtain ⟨⟨s1, r1⟩, hp, heq⟩ := h
                              rw [Prod.mk.injEq] at heq
                              obtain ⟨rfl, rfl⟩ := heq
                              obtain ⟨pre', hp1, hpne, hplast, hpfwd⟩ :=
                                ih rest2 s1 r1 hp
                              refine ⟨'\\' :: e :: pre', by rw [hp1]; rfl, by simp,
                                ?_, ?_⟩
                              · simp only [List.getLast?_cons_cons]
                                rw [getLast?_cons_ne_nil hpne]
                                exact hplast
                              · intro fuel₂ rest₂ hf
                                cases fuel₂ with
                                | zero => omega
                                | succ f₂ =>
                                    simp only [List.cons_append]
                                    rw [parseStringBody.eq_def]
                                    simp only []
                                    rw [if_neg (by decide : ¬('\\' = '"')),
                                      if_pos trivial]
                                    rw [if_neg he1, if_neg he2, if_neg he3,
                                      if_neg he4, if_neg he5, if_pos he6]
                                    rw [hpfwd f₂ rest₂
                                      (by simp only [List.length_cons] at hf; omega)]
                                    rfl
                            · rw [if_neg he6] at h
                              by_cases he7 : e = 'u'
                              · rw [if_pos he7] at h
                                subst he7
                                split at h
                                · cases h
                                · next n rest3 hh =>
                                    obtain ⟨a, b, cc, d, hx1, hxf⟩ :=
                                      parseHex4_chop hh
                                    by_cases hs1 : 0xd800 ≤ n ∧ n ≤ 0xdbff
                                    · rw [if_pos hs1] at h
                                      split at h
                                      · next rest4 =>
                                          split at h
                                          · next m rest5 hh2 =>
                                              obtain ⟨a2, b2, c2, d2, hx2, hxf2⟩ :=
                                                parseHex4_chop hh2
                                              by_cases hs2 : 0xdc00 ≤ m ∧ m ≤ 0xdfff
                                              · rw [if_pos hs2,
                                                  Option.map_eq_some'] at h
                                                obtain ⟨⟨s1, r1⟩, hp, heq⟩ := h
                                                rw [Prod.mk.injEq] at heq
                                                obtain ⟨rfl, rfl⟩ := heq
                                                obtain ⟨pre', hp1, hpne, hplast,
                                                  hpfwd⟩ := ih rest5 s1 r1 hp
                                                refine ⟨'\\' :: 'u' :: a :: b ::
                                                  cc :: d :: '\\' :: 'u' :: a2 ::
                                                  b2 :: c2 :: d2 :: pre', ?_,
                                                  by simp, ?_, ?_⟩
                                                · rw [hx1, hx2, hp1]
                                                  rfl
                                                · simp only
                                                    [List.getLast?_cons_cons]
                                                  rw [getLast?_cons_ne_nil hpne]
                                                  exact hplast
                                                · intro fuel₂ rest₂ hf
                                                  cases fuel₂ with
                                                  | zero => omega
                                                  | succ f₂ =>
                                                      simp only [List.cons_append]
                                                      rw [parseStringBody.eq_def]
                                                      simp only []
                                                      rw [if_neg (by decide :
                                                        ¬('\\' = '"')), if_pos trivial]
                                                      rw [if_neg he1, if_neg he2,
                                                        if_neg he3, if_neg he4,
                                                        if_neg he5, if_neg he6,
                                                        if_pos trivial]
                                                      rw [hxf ('\\' :: 'u' :: a2 ::
                                                        b2 :: c2 :: d2 ::
                                                        (pre' ++ rest₂))]
                                                      simp only []
                                                      rw [if_pos hs1]
                                                      rw [hxf2 (pre' ++ rest₂)]
                                                      simp only []
                                                      rw [if_pos hs2]
                                                      rw [hpfwd f₂ rest₂
                                                        (by simp only [List.length_cons] at hf; omega)]
                                                      rfl
                                              · rw [if_neg hs2] at h; cases h
                                          · cases h
                                      · cases h
                                    · rw [if_neg hs1] at h
                                      by_cases hs2 : 0xdc00 ≤ n ∧ n ≤ 0xdfff
                                      · rw [if_pos hs2] at h; cases h
                                      · rw [if_neg hs2, Option.map_eq_some'] at h
                                        obtain ⟨⟨s1, r1⟩, hp, heq⟩ := h
                                        rw [Prod.mk.injEq] at heq
                                        obtain ⟨rfl, rfl⟩ := heq
                                        obtain ⟨pre', hp1, hpne, hplast, hpfwd⟩ :=
                                          ih rest3 s1 r1 hp
                                        refine ⟨'\\' :: 'u' :: a :: b :: cc :: d ::
                                          pre', ?_, by simp, ?_, ?_⟩
                                        · rw [hx1, hp1]
                                          rfl
                                        · simp only [List.getLast?_cons_cons]
                                          rw [getLast?_cons_ne_nil hpne]
                                          exact hplast
                                        · intro fuel₂ rest₂ hf
                                          cases fuel₂ with
                                          | zero => omega
                                          | succ f₂ =>
                                              simp only [List.cons_append]
                                              rw [parseStringBody.eq_def]
                                              simp only []
                                              rw [if_neg (by decide :
                                                ¬('\\' = '"')), if_pos trivial]
                                              rw [if_neg he1, if_neg he2,
                                                if_neg he3, if_neg he4,
                                                if_neg he5, if_neg he6, if_pos trivial]
                                              rw [hxf (pre' ++ rest₂)]
                                              simp only []
                                              rw [if_neg hs1, if_neg hs2]
                                              rw [hpfwd f₂ rest₂
                                                (by simp only [List.length_cons] at hf; omega)]
                                              rfl
                              · rw [if_neg he7] at h
                                cases h
            · rw [if_neg h2] at h
              by_cases h3 : c.toNat < 0x20
              · rw [if_pos h3] at h; cases h
              · rw [if_neg h3, Option.map_eq_some'] at h
                obtain ⟨⟨s1, r1⟩, hp, heq⟩ := h
                rw [Prod.mk.injEq] at heq
                obtain ⟨rfl, rfl⟩ := heq
                obtain ⟨pre', hp1, hpne, hplast, hpfwd⟩ := ih cs' s1 r1 hp
                refine ⟨c :: pre', by rw [hp1]; rfl, by simp, ?_, ?_⟩
                · rw [getLast?_cons_ne_nil hpne]
                  exact hplast
                · intro fuel₂ rest₂ hf
                  cases fuel₂ with
                  | zero => omega
                  | succ f₂ =>
                      simp only [List.cons_append]
                      rw [parseStringBody.eq_def]
                      simp only []
                      rw [if_neg h1, if_neg h2, if_neg h3]
                      rw [hpfwd f₂ rest₂
                        (by simp only [List.length_cons] at hf; omega)]
                      rfl

lemma digit_bounds {c : Char} (h : isAsciiDigit c = true) :
    '0' ≤ c ∧ c ≤ '9' := by
  simpa [isAsciiDigit] using h

lemma digit_not_special {c : Char} (h : isAsciiDigit c = true) :
    c ≠ '-' ∧ c ≠ '.' ∧ c ≠ 'e' ∧ c ≠ 'E' ∧ c ≠ '+' := by
  obtain ⟨h1, h2⟩ := digit_bounds h
  refine ⟨?_, ?_, ?_, ?_, ?_⟩ <;> (rintro rfl; revert h1 h2; decide)

lemma digit_not_rust_ws {c : Char} (h : isAsciiDigit c = true) :
    isRustWhitespace c = false := by
  obtain ⟨h1, h2⟩ := digit_bounds h
  by_contra hcon
  rw [Bool.not_eq_false] at hcon
  have hm : c ∈ ['\u0009', '\u000a', '\u000b', '\u000c', '\u000d', ' ',
      '\u0085', ' ', ' ', ' ', ' ', ' ', ' ',
      ' ', ' ', ' ', ' ', ' ', ' ', ' ',
      ' ', ' ', ' ', ' ', '　'] := by
    simpa [isRustWhitespace] using hcon
  fin_cases hm <;> revert h1 h2 <;> decide

lemma safeBoundary_facts {cs : List Char} (h : safeBoundary cs) :
    ∀ c, cs.head? = some c →
      isAsciiDigit c = false ∧ c ≠ '.' ∧ c ≠ 'e' ∧ c ≠ 'E' := by
  intro c hc
  have hx := h c hc
  simp only [numExtChar, Bool.or_eq_false_iff, decide_eq_false_iff_not] at hx
  exact ⟨hx.1.1.1, hx.1.1.2, hx.1.2, hx.2⟩

lemma parseJsonNumSign_not_minus {d : Char} (hd : d ≠ '-') (Y : List Char) :
    parseJsonNumSign (d :: Y) = (false, d :: Y) := by
  rw [parseJsonNumSign.eq_def]
  split
  · next heq => injection heq with a1 a2; exact absurd a1 hd
  · rfl

lemma parseJsonExpSign_not_sign {d : Char} (hd1 : d ≠ '+') (hd2 : d ≠ '-')
    (Y : List Char) : parseJsonExpSign (d :: Y) = (1, d :: Y) := by
  rw [parseJsonExpSign.eq_def]
  split
  · next heq => injection heq with a1 a2; exact absurd a1 hd1
  · next heq => injection heq with a1 a2; exact absurd a1 hd2
  · rfl

lemma parseJsonFrac_not_dot {X : List Char}
    (hX : ∀ c, X.head? = some c → c ≠ '.') :
    parseJsonFrac X = some ([], X) := by
  cases X with
  | nil => rfl
  | cons c r =>
      rw [parseJsonFrac.eq_def]
      split
      · next heq =>
          injection heq with a1 a2
          exact absurd a1 (hX c rfl)
      · rfl

lemma parseJsonFrac_dot {t X : List Char} (ht : t ≠ [])
    (htd : ∀ c ∈ t, isAsciiDigit c = true)
    (hX : ∀ c, X.head? = some c → isAsciiDigit c = false) :
    parseJsonFrac (('.' :: t) ++ X) = some (t, X) := by
  simp only [List.cons_append]
  rw [parseJsonFrac.eq_def]
  simp only []
  obtain ⟨htw, hdw⟩ := takeWhile_all_append htd hX
  rw [htw, hdw]
  cases t with
  | nil => exact absurd rfl ht
  | cons a t' => simp only []

lemma parseJsonIntDigits_chop {cs ds rest : List Char}
    (h : parseJsonIntDigits cs = some (ds, rest)) :
    cs = ds ++ rest ∧ ds ≠ [] ∧ (∀ c ∈ ds, isAsciiDigit c = true) ∧
      ∀ X, (∀ c, X.head? = some c → isAsciiDigit c = false) →
        parseJsonIntDigits (ds ++ X) = some (ds, X) := by
  cases cs with
  | nil => cases h
  | cons c cs' =>
      simp only [parseJsonIntDigits] at h
      by_cases h1 : c = '0'
      · rw [if_pos h1] at h
        rw [Option.some_inj, Prod.mk.injEq] at h
        obtain ⟨rfl, rfl⟩ := h
        subst h1
        refine ⟨rfl, by simp, ?_, ?_⟩
        · intro x hx
          simp only [List.mem_singleton] at hx
          subst hx
          decide
        · intro X hX
          simp only [List.cons_append, List.nil_append, parseJsonIntDigits]
          simp
      · rw [if_neg h1] at h
        by_cases h2 : isAsciiDigit c = true
        · rw [if_pos h2] at h
          rw [Option.some_inj, Prod.mk.injEq] at h
          obtain ⟨rfl, rfl⟩ := h
          refine ⟨by rw [List.cons_append, List.takeWhile_append_dropWhile],
            by simp, ?_, ?_⟩
          · intro x hx
            rcases List.mem_cons.mp hx with rfl | hx
            · exact h2
            · exact mem_takeWhile hx
          · intro X hX
            simp only [List.cons_append, parseJsonIntDigits]
            rw [if_neg h1, if_pos h2]
            obtain ⟨htw, hdw⟩ := takeWhile_all_append
              (fun x hx => mem_takeWhile hx) hX
            rw [htw, hdw]
        · rw [if_neg h2] at h
          cases h

lemma parseJsonExpSign_shape (cs : List Char) :
    (∃ r, cs = '+' :: r ∧ parseJsonExpSign cs = (1, r) ∧
      ∀ X, parseJsonExpSign ('+' :: X) = (1, X)) ∨
    (∃ r, cs = '-' :: r ∧ parseJsonExpSign cs = (-1, r) ∧
      ∀ X, parseJsonExpSign ('-' :: X) = (-1, X)) ∨
    parseJsonExpSign cs = (1, cs) := by
  cases cs with
  | nil => right; right; rfl
  | cons c r =>
      by_cases h1 : c = '+'
      · subst h1
        left
        exact ⟨r, rfl, rfl, fun X => rfl⟩
      · by_cases h2 : c = '-'
        · subst h2
          right; left
          exact ⟨r, rfl, rfl, fun X => rfl⟩
        · right; right
          exact parseJsonExpSign_not_sign h1 h2 r

lemma parseJsonExpOpt_not_e {X : List Char}
    (hX : ∀ c, X.head? = some c → c ≠ 'e' ∧ c ≠ 'E') :
    parseJsonExpOpt X = some (none, X) := by
  cases X with
  | nil => rfl
  | cons c r =>
      rw [parseJsonExpOpt.eq_def]
      split
      · next heq => injection heq with a1 a2; exact absurd a1 (hX c rfl).1
      · next heq => injection heq with a1 a2; exact absurd a1 (hX c rfl).2
      · rfl

lemma parseJsonExp_chop {r rest : List Char} {eo : Option Int}
    (h : parseJsonExp r = some (eo, rest)) :
    ∃ pre, r = pre ++ rest ∧ pre ≠ [] ∧ (∃ v, eo = some v) ∧
      (∀ c, pre.getLast? = some c → isAsciiDigit c = true) ∧
      ∀ X, (∀ c, X.head? = some c → isAsciiDigit c = false) →
        parseJsonExp (pre ++ X) = some (eo, X) := by
  unfold parseJsonExp at h
  simp only [] at h
  rcases parseJsonExpSign_shape r with ⟨r', hr, hS, hSf⟩ | ⟨r', hr, hS, hSf⟩ | hS
  · rw [hS] at h
    simp only [] at h
    rcases htw0 : r'.takeWhile isAsciiDigit with _ | ⟨a, t⟩
    · rw [htw0] at h
      simp only [] at h
      cases h
    · rw [htw0] at h
      simp only [] at h
      rw [Option.some_inj, Prod.mk.injEq] at h
      obtain ⟨rfl, rfl⟩ := h
      have hds : ∀ c ∈ a :: t, isAsciiDigit c = true := by
        intro c hc
        rw [← htw0] at hc
        exact mem_takeWhile hc
      refine ⟨'+' :: a :: t, ?_, by simp, ⟨_, rfl⟩, ?_, ?_⟩
      · rw [hr]
        have h9 : r' = (a :: t) ++ r'.dropWhile isAsciiDigit := by
          conv_lhs => rw [← List.takeWhile_append_dropWhile
            (p := isAsciiDigit) (l := r'), htw0]
        conv_lhs => rw [h9]
        simp
      · intro c hc
        rw [getLast?_cons_ne_nil (by simp)] at hc
        exact hds c (List.mem_of_mem_getLast? hc)
      · intro X hX
        unfold parseJsonExp
        simp only [List.cons_append]
        rw [hSf]
        simp only []
        obtain ⟨htw, hdw⟩ := takeWhile_all_append hds hX
        simp only [List.cons_append] at htw hdw
        rw [htw, hdw]
  · rw [hS] at h
    simp only [] at h
    rcases htw0 : r'.takeWhile isAsciiDigit with _ | ⟨a, t⟩
    · rw [htw0] at h
      simp only [] at h
      cases h
    · rw [htw0] at h
      simp only [] at h
      rw [Option.some_inj, Prod.mk.injEq] at h
      obtain ⟨rfl, rfl⟩ := h
      have hds : ∀ c ∈ a :: t, isAsciiDigit c = true := by
        intro c hc
        rw [← htw0] at hc
        exact mem_takeWhile hc
      refine ⟨'-' :: a :: t, ?_, by simp, ⟨_, rfl⟩, ?_, ?_⟩
      · rw [hr]
        have h9 : r' = (a :: t) ++ r'.dropWhile isAsciiDigit := by
          conv_lhs => rw [← List.takeWhile_append_dropWhile
            (p := isAsciiDigit) (l := r'), htw0]
        conv_lhs => rw [h9]
        simp
      · intro c hc
        rw [getLast?_cons_ne_nil (by simp)] at hc
        exact hds c (List.mem_of_mem_getLast? hc)
      · intro X hX
        unfold parseJsonExp
        simp only [List.cons_append]
        rw [hSf]
        simp only []
        obtain ⟨htw, hdw⟩ := takeWhile_all_append hds hX
        simp only [List.cons_append] at htw hdw
        rw [htw, hdw]
  · rw [hS] at h
    simp only [] at h
    rcases htw0 : r.takeWhile isAsciiDigit with _ | ⟨a, t⟩
    · rw [htw0] at h
      simp only [] at h
      cases h
    · rw [htw0] at h
      simp only [] at h
      rw [Option.some_inj, Prod.mk.injEq] at h
      obtain ⟨rfl, rfl⟩ := h
      have hds : ∀ c ∈ a :: t, isAsciiDigit c = true := by
        intro c hc
        rw [← htw0] at hc
        exact mem_takeWhile hc
      have ha : isAsciiDigit a = true := hds a (List.mem_cons_self a t)
      refine ⟨a :: t, ?_, by simp, ⟨_, rfl⟩, ?_, ?_⟩
      · conv_lhs => rw [← List.takeWhile_append_dropWhile
          (p := isAsciiDigit) (l := r), htw0]
      · intro c hc
        exact hds c (List.mem_of_mem_getLast? hc)
      · intro X hX
        unfold parseJsonExp
        simp only [List.cons_append]
        rw [parseJsonExpSign_not_sign (digit_not_special ha).2.2.2.2
          (digit_not_special ha).1]
        simp only []
        obtain ⟨htw, hdw⟩ := takeWhile_all_append hds hX
        simp only [List.cons_append] at htw hdw
        rw [htw, hdw]

lemma parseJsonExpOpt_chop {cs rest : List Char} {eo : Option Int}
    (h : parseJsonExpOpt cs = some (eo, rest)) :
    (eo = none ∧ cs = rest) ∨
    (∃ ec pre, (ec = 'e' ∨ ec = 'E') ∧ cs = (ec :: pre) ++ rest ∧ pre ≠ [] ∧
      (∃ v, eo = some v) ∧
      (∀ c, (ec :: pre).getLast? = some c → isAsciiDigit c = true) ∧
      ∀ X, (∀ c, X.head? = some c → isAsciiDigit c = false) →
        parseJsonExpOpt ((ec :: pre) ++ X) = some (eo, X)) := by
  cases cs with
  | nil =>
      rw [show parseJsonExpOpt [] = some (none, []) from rfl,
        Option.some_inj, Prod.mk.injEq] at h
      obtain ⟨h1, rfl⟩ := h
      exact Or.inl ⟨h1.symm, rfl⟩
  | cons c r =>
      by_cases h1 : c = 'e'
      · subst h1
        rw [show parseJsonExpOpt ('e' :: r) = parseJsonExp r from rfl] at h
        obtain ⟨pre, hp1, hpne, hpv, hplast, hpf⟩ := parseJsonExp_chop h
        refine Or.inr ⟨'e', pre, Or.inl rfl, by rw [hp1]; rfl, hpne, hpv, ?_, ?_⟩
        · intro x hx
          rw [getLast?_cons_ne_nil hpne] at hx
          exact hplast x hx
        · intro X hX
          simp only [List.cons_append]
          rw [show parseJsonExpOpt ('e' :: (pre ++ X)) =
            parseJsonExp (pre ++ X) from rfl]
          exact hpf X hX
      · by_cases h2 : c = 'E'
        · subst h2
          rw [show parseJsonExpOpt ('E' :: r) = parseJsonExp r from rfl] at h
          obtain ⟨pre, hp1, hpne, hpv, hplast, hpf⟩ := parseJsonExp_chop h
          refine Or.inr ⟨'E', pre, Or.inr rfl, by rw [hp1]; rfl, hpne, hpv, ?_, ?_⟩
          · intro x hx
            rw [getLast?_cons_ne_nil hpne] at hx
            exact hplast x hx
          · intro X hX
            simp only [List.cons_append]
            rw [show parseJsonExpOpt ('E' :: (pre ++ X)) =
              parseJsonExp (pre ++ X) from rfl]
            exact hpf X hX
        · have hred : parseJsonExpOpt (c :: r) = some (none, c :: r) := by
            rw [parseJsonExpOpt.eq_def]
            split
            · next heq => injection heq with a1 a2; exact absurd a1 h1
            · next heq => injection heq with a1 a2; exact absurd a1 h2
            · rfl
          rw [hred, Option.some_inj, Prod.mk.injEq] at h
          obtain ⟨h3, rfl⟩ := h
          exact Or.inl ⟨h3.symm, rfl⟩

lemma parseJsonFrac_chop {cs fds rest : List Char}
    (h : parseJsonFrac cs = some (fds, rest)) :
    (fds = [] ∧ cs = rest) ∨
    (fds ≠ [] ∧ cs = ('.' :: fds) ++ rest ∧ ∀ c ∈ fds, isAsciiDigit c = true) := by
  cases cs with
  | nil =>
      rw [show parseJsonFrac [] = some ([], []) from rfl,
        Option.some_inj, Prod.mk.injEq] at h
      obtain ⟨h1, rfl⟩ := h
      exact Or.inl ⟨h1.symm, rfl⟩
  | cons c r =>
      by_cases h1 : c = '.'
      · subst h1
        rw [show parseJsonFrac ('.' :: r) =
            (match r.takeWhile isAsciiDigit with
             | [] => none
             | ds => some (ds, r.dropWhile isAsciiDigit)) from rfl] at h
        rcases htw0 : r.takeWhile isAsciiDigit with _ | ⟨a, t⟩
        · rw [htw0] at h
          simp only [] at h
          cases h
        · rw [htw0] at h
          simp only [] at h
          rw [Option.some_inj, Prod.mk.injEq] at h
          obtain ⟨rfl, rfl⟩ := h
          have hds : ∀ c ∈ a :: t, isAsciiDigit c = true := by
            intro c hc
            rw [← htw0] at hc
            exact mem_takeWhile hc
          refine Or.inr ⟨by simp, ?_, hds⟩
          conv_lhs => rw [show ('.' :: r : List Char) =
            '.' :: (r.takeWhile isAsciiDigit ++ r.dropWhile isAsciiDigit) from
            by rw [List.takeWhile_append_dropWhile], htw0]
          rfl
      · have hred : parseJsonFrac (c :: r) = some ([], c :: r) := by
          rw [parseJsonFrac.eq_def]
          split
          · next heq => injection heq with a1 a2; exact absurd a1 h1
          · rfl
        rw [hred, Option.some_inj, Prod.mk.injEq] at h
        obtain ⟨h3, rfl⟩ := h
        exact Or.inl ⟨h3.symm, rfl⟩

lemma getLast?_append_left_ne {A M : List Char} (hM : M ≠ []) :
    (A ++ M).getLast? = M.getLast? := by
  cases M with
  | nil => exact absurd rfl hM
  | cons m mt => exact List.getLast?_append_cons A m mt

lemma ite_some_pair {α β : Type} {P Q : Prop} [Decidable P] [Decidable Q]
    {b : Bool} {v1 v2 v3 v4 : α} {z : β} :
    (if b = true then (if P then some (v1, z) else some (v2, z))
     else (if Q then some (v3, z) else some (v4, z))) =
    some (((if b = true then (if P then v1 else v2)
      else (if Q then v3 else v4)) : α), z) := by
  split_ifs <;> rfl

lemma parseJsonNumSign_chop2 (cs : List Char) :
    ∃ sgn sPre r0, parseJsonNumSign cs = (sgn, r0) ∧ cs = sPre ++ r0 ∧
      ∀ d Y, isAsciiDigit d = true →
        parseJsonNumSign (sPre ++ d :: Y) = (sgn, d :: Y) := by
  cases cs with
  | nil =>
      exact ⟨false, [], [], rfl, rfl, fun d Y hd =>
        parseJsonNumSign_not_minus (digit_not_special hd).1 Y⟩
  | cons c r =>
      by_cases h1 : c = '-'
      · subst h1
        exact ⟨true, ['-'], r, rfl, rfl, fun d Y hd => rfl⟩
      · exact ⟨false, [], c :: r, parseJsonNumSign_not_minus h1 r, rfl,
          fun d Y hd => parseJsonNumSign_not_minus (digit_not_special hd).1 Y⟩

lemma parseJsonNumber_chop {cs rest : List Char} {n : JsonNumber}
    (h : parseJsonNumber cs = some (n, rest)) :
    ∃ pre, cs = pre ++ rest ∧ pre ≠ [] ∧
      (∀ c, pre.getLast? = some c → isAsciiDigit c = true) ∧
      ∀ X, safeBoundary X → parseJsonNumber (pre ++ X) = some (n, X) := by
  obtain ⟨sgn, sPre, r0, hS, hcs, hSfwd⟩ := parseJsonNumSign_chop2 cs
  unfold parseJsonNumber at h
  rw [hS] at h
  simp only [] at h
  rcases hI : parseJsonIntDigits r0 with _ | ⟨ids, cs2⟩
  · rw [hI] at h; cases h
  · rw [hI] at h
    simp only [] at h
    obtain ⟨hI1, hIne, hIds, hIfwd⟩ := parseJsonIntDigits_chop hI
    rcases hF : parseJsonFrac cs2 with _ | ⟨fds, cs3⟩
    · rw [hF] at h; cases h
    · rw [hF] at h
      simp only [] at h
      rcases hE : parseJsonExpOpt cs3 with _ | ⟨eo, cs4⟩
      · rw [hE] at h; cases h
      · rw [hE] at h
        simp only [] at h
        obtain ⟨i0, ids', rfl⟩ : ∃ i0 ids', ids = i0 :: ids' := by
          cases ids with
          | nil => exact absurd rfl hIne
          | cons a b => exact ⟨a, b, rfl⟩
        have hi0 : isAsciiDigit i0 = true := hIds i0 (List.mem_cons_self _ _)
        rcases parseJsonFrac_chop hF with ⟨rfl, hF2⟩ | ⟨hFne, hF2, hFds⟩
        · rcases parseJsonExpOpt_chop hE with ⟨rfl, hE2⟩ |
            ⟨ec, epre, hec, hE2, hEne, ⟨ev, rfl⟩, hElast, hEfwd⟩
          · -- no frac, no exp: the integer assembly
            rw [ite_some_pair, Option.some_inj, Prod.mk.injEq] at h
            obtain ⟨rfl, rfl⟩ := h
            refine ⟨sPre ++ i0 :: ids', ?_, ?_, ?_, ?_⟩
            · rw [hcs, hI1, hF2, hE2, List.append_assoc]
            · cases sPre <;> simp
            · intro c hc
              rw [getLast?_append_left_ne (by simp)] at hc
              exact hIds c (List.mem_of_mem_getLast? hc)
            · intro X hX
              have hXd : ∀ c, X.head? = some c → isAsciiDigit c = false :=
                fun c hc => (safeBoundary_facts hX c hc).1
              have hXdot : ∀ c, X.head? = some c → c ≠ '.' :=
                fun c hc => (safeBoundary_facts hX c hc).2.1
              have hXe : ∀ c, X.head? = some c → c ≠ 'e' ∧ c ≠ 'E' :=
                fun c hc => ⟨(safeBoundary_facts hX c hc).2.2.1,
                  (safeBoundary_facts hX c hc).2.2.2⟩
              unfold parseJsonNumber
              have hnorm : (sPre ++ i0 :: ids') ++ X =
                  sPre ++ i0 :: (ids' ++ X) := by
                simp [List.append_assoc]
              rw [hnorm, hSfwd i0 (ids' ++ X) hi0]
              simp only []
              have hIfwd2 := hIfwd X hXd
              rw [List.cons_append] at hIfwd2
              rw [hIfwd2]
              simp only []
              rw [parseJsonFrac_not_dot hXdot]
              simp only []
              rw [parseJsonExpOpt_not_e hXe]
              simp only []
              rw [ite_some_pair]
          · -- no frac, exponent present: float assembly
            simp only [] at h
            rw [Option.some_inj, Prod.mk.injEq] at h
            obtain ⟨rfl, rfl⟩ := h
            refine ⟨sPre ++ i0 :: ids' ++ ec :: epre, ?_, ?_, ?_, ?_⟩
            · rw [hcs, hI1, hF2, hE2]
              simp [List.append_assoc]
            · cases sPre <;> simp
            · intro c hc
              rw [getLast?_append_left_ne (by simp)] at hc
              exact hElast c hc
            · intro X hX
              have hXd : ∀ c, X.head? = some c → isAsciiDigit c = false :=
                fun c hc => (safeBoundary_facts hX c hc).1
              have hecd : ∀ c, ((ec :: epre) ++ X).head? = some c →
                  isAsciiDigit c = false := by
                intro c hc
                simp only [List.cons_append, List.head?_cons,
                  Option.some_inj] at hc
                rw [← hc]
                rcases hec with rfl | rfl <;> decide
              have hecdot : ∀ c, ((ec :: epre) ++ X).head? = some c →
                  c ≠ '.' := by
                intro c hc
                simp only [List.cons_append, List.head?_cons,
                  Option.some_inj] at hc
                rw [← hc]
                rcases hec with rfl | rfl <;> decide
              unfold parseJsonNumber
              have hnorm : (sPre ++ i0 :: ids' ++ ec :: epre) ++ X =
                  sPre ++ i0 :: (ids' ++ ((ec :: epre) ++ X)) := by
                simp [List.append_assoc]
              rw [hnorm, hSfwd i0 _ hi0]
              simp only []
              have hIfwd2 := hIfwd ((ec :: epre) ++ X) hecd
              rw [List.cons_append] at hIfwd2
              rw [hIfwd2]
              simp only []
              rw [parseJsonFrac_not_dot hecdot]
              simp only []
              rw [hEfwd X hXd]
        · obtain ⟨fa, ft, rfl⟩ : ∃ fa ft, fds = fa :: ft := by
            cases fds with
            | nil => exact absurd rfl hFne
            | cons a b => exact ⟨a, b, rfl⟩
          rcases parseJsonExpOpt_chop hE with ⟨rfl, hE2⟩ |
            ⟨ec, epre, hec, hE2, hEne, ⟨ev, rfl⟩, hElast, hEfwd⟩
          · -- frac present, no exp
            simp only [] at h
            rw [Option.some_inj, Prod.mk.injEq] at h
            obtain ⟨rfl, rfl⟩ := h
            refine ⟨sPre ++ i0 :: ids' ++ '.' :: fa :: ft, ?_, ?_, ?_, ?_⟩
            · rw [hcs, hI1, hF2, hE2]
              simp [List.append_assoc]
            · cases sPre <;> simp
            · intro c hc
              rw [getLast?_append_left_ne (by simp),
                getLast?_cons_ne_nil (by simp)] at hc
              exact hFds c (List.mem_of_mem_getLast? hc)
            · intro X hX
              have hXd : ∀ c, X.head? = some c → isAsciiDigit c = false :=
                fun c hc => (safeBoundary_facts hX c hc).1
              have hXe : ∀ c, X.head? = some c → c ≠ 'e' ∧ c ≠ 'E' :=
                fun c hc => ⟨(safeBoundary_facts hX c hc).2.2.1,
                  (safeBoundary_facts hX c hc).2.2.2⟩
              have hdotd : ∀ c, (('.' :: fa :: ft) ++ X).head? = some c →
                  isAsciiDigit c = false := by
                intro c hc
                simp only [List.cons_append, List.head?_cons,
                  Option.some_inj] at hc
                rw [← hc]
                decide
              unfold parseJsonNumber
              have hnorm : (sPre ++ i0 :: ids' ++ '.' :: fa :: ft) ++ X =
                  sPre ++ i0 :: (ids' ++ (('.' :: fa :: ft) ++ X)) := by
                simp [List.append_assoc]
              rw [hnorm, hSfwd i0 _ hi0]
              simp only []
              have hIfwd2 := hIfwd (('.' :: fa :: ft) ++ X) hdotd
              rw [List.cons_append] at hIfwd2
              rw [hIfwd2]
              simp only []
              have hFr := parseJsonFrac_dot (t := fa :: ft) (by simp) hFds hXd
              rw [hFr]
              simp only []
              rw [parseJsonExpOpt_not_e hXe]
          · -- frac present, exponent present
            simp only [] at h
            rw [Option.some_inj, Prod.mk.injEq] at h
            obtain ⟨rfl, rfl⟩ := h
            refine ⟨sPre ++ i0 :: ids' ++ '.' :: fa :: ft ++ ec :: epre,
              ?_, ?_, ?_, ?_⟩
            · rw [hcs, hI1, hF2, hE2]
              simp [List.append_assoc]
            · cases sPre <;> simp
            · intro c hc
              rw [getLast?_append_left_ne (by simp)] at hc
              exact hElast c hc
            · intro X hX
              have hXd : ∀ c, X.head? = some c → isAsciiDigit c = false :=
                fun c hc => (safeBoundary_facts hX c hc).1
              have hecd : ∀ c, ((ec :: epre) ++ X).head? = some c →
                  isAsciiDigit c = false := by
                intro c hc
                simp only [List.cons_append, List.head?_cons,
                  Option.some_inj] at hc
                rw [← hc]
                rcases hec with rfl | rfl <;> decide
              have hdotd : ∀ c,
                  (('.' :: fa :: ft) ++ ((ec :: epre) ++ X)).head? = some c →
                  isAsciiDigit c = false := by
                intro c hc
                simp only [List.cons_append, List.head?_cons,
                  Option.some_inj] at hc
                rw [← hc]
                decide
              unfold parseJsonNumber
              have hnorm :
                  (sPre ++ i0 :: ids' ++ '.' :: fa :: ft ++ ec :: epre) ++ X =
                  sPre ++ i0 ::
                    (ids' ++ (('.' :: fa :: ft) ++ ((ec :: epre) ++ X))) := by
                simp [List.append_assoc]
              rw [hnorm, hSfwd i0 _ hi0]
              simp only []
              have hIfwd2 := hIfwd (('.' :: fa :: ft) ++ ((ec :: epre) ++ X))
                hdotd
              rw [List.cons_append] at hIfwd2
              rw [hIfwd2]
              simp only []
              have hFr := parseJsonFrac_dot (t := fa :: ft) (by simp) hFds hecd
              rw [hFr]
              simp only []
              rw [hEfwd X hXd]

lemma parseJsonValueF_ws_front (fuel : Nat) {w : List Char}
    (hw : ∀ c ∈ w, isJsonWs c = true) (t : List Char) :
    parseJsonValueF fuel (w ++ t) = parseJsonValueF fuel t := by
  cases fuel with
  | zero => rfl
  | succ f =>
      conv_lhs => rw [parseJsonValueF.eq_def]
      conv_rhs => rw [parseJsonValueF.eq_def]
      simp only []
      rw [skipJsonWs_append_ws hw]

lemma parseJsonArrayItems_ws_front (fuel : Nat) {w : List Char}
    (hw : ∀ c ∈ w, isJsonWs c = true) (t : List Char) :
    parseJsonArrayItems fuel (w ++ t) = parseJsonArrayItems fuel t := by
  cases fuel with
  | zero => rfl
  | succ f =>
      conv_lhs => rw [parseJsonArrayItems.eq_def]
      conv_rhs => rw [parseJsonArrayItems.eq_def]
      simp only []
      rw [parseJsonValueF_ws_front f hw]

lemma parseJsonObjectItems_ws_front (fuel : Nat) {w : List Char}
    (hw : ∀ c ∈ w, isJsonWs c = true) (t : List Char) :
    parseJsonObjectItems fuel (w ++ t) = parseJsonObjectItems fuel t := by
  cases fuel with
  | zero => rfl
  | succ f =>
      conv_lhs => rw [parseJsonObjectItems.eq_def]
      conv_rhs => rw [parseJsonObjectItems.eq_def]
      simp only []
      rw [skipJsonWs_append_ws hw]

lemma digit_not_bracket {c : Char} (h : isAsciiDigit c = true) : c ≠ ']' := by
  obtain ⟨h1, h2⟩ := digit_bounds h
  rintro rfl
  revert h1 h2
  decide

lemma pv_null (f : Nat) (r : List Char) :
    parseJsonValueF (f + 1) ('n' :: 'u' :: 'l' :: 'l' :: r) =
      some (.null, r) := rfl

lemma pv_true (f : Nat) (r : List Char) :
    parseJsonValueF (f + 1) ('t' :: 'r' :: 'u' :: 'e' :: r) =
      some (.bool true, r) := rfl

lemma pv_false (f : Nat) (r : List Char) :
    parseJsonValueF (f + 1) ('f' :: 'a' :: 'l' :: 's' :: 'e' :: r) =
      some (.bool false, r) := rfl

lemma pv_string (f : Nat) (r : List Char) :
    parseJsonValueF (f + 1) ('"' :: r) =
      (parseStringBody (r.length + 1) r).map (fun p =>
        (.str (String.mk p.1), p.2)) := rfl

lemma pv_lbracket (f : Nat) (r : List Char) :
    parseJsonValueF (f + 1) ('[' :: r) =
      (match skipJsonWs r with
       | ']' :: r2 => some (.arr [], r2)
       | cs2 => (parseJsonArrayItems f cs2).map (fun p => (.arr p.1, p.2))) := rfl

lemma pv_lbrace (f : Nat) (r : List Char) :
    parseJsonValueF (f + 1) ('{' :: r) =
      (match skipJsonWs r with
       | '}' :: r2 => some (.obj [], r2)
       | cs2 => (parseJsonObjectItems f cs2).map (fun p =>
           (.obj (buildJsonObj p.1), p.2))) := rfl

lemma pv_num (f : Nat) {c : Char} (hc : c = '-' ∨ isAsciiDigit c = true)
    (r : List Char) :
    parseJsonValueF (f + 1) (c :: r) =
      (parseJsonNumber (c :: r)).map (fun p => (.num p.1, p.2)) := by
  rcases hc with rfl | hc
  · rfl
  · obtain ⟨hb1, hb2⟩ := digit_bounds hc
    rw [parseJsonValueF.eq_def]
    simp only []
    rw [skipJsonWs_cons_not (rust_ws_not_json (digit_not_rust_ws hc))]
    simp only []
    rw [if_neg (by rintro rfl; revert hb1 hb2; decide),
      if_neg (by rintro rfl; revert hb1 hb2; decide),
      if_neg (by rintro rfl; revert hb1 hb2; decide),
      if_neg (by rintro rfl; revert hb1 hb2; decide),
      if_neg (by rintro rfl; revert hb1 hb2; decide),
      if_neg (by rintro rfl; revert hb1 hb2; decide),
      if_pos (Or.inr hc)]

lemma pai_succ (f : Nat) (cs : List Char) :
    parseJsonArrayItems (f + 1) cs =
      (match parseJsonValueF f cs with
       | none => none
       | some (v, r1) =>
           match skipJsonWs r1 with
           | ',' :: r2 => (parseJsonArrayItems f r2).map (fun p =>
               (v :: p.1, p.2))
           | ']' :: r2 => some ([v], r2)
           | _ => none) := rfl

lemma poi_succ (f : Nat) (cs : List Char) :
    parseJsonObjectItems (f + 1) cs =
      (match skipJsonWs cs with
       | '"' :: rest =>
           match parseStringBody (rest.length + 1) rest with
           | none => none
           | some (kcs, r1) =>
               match skipJsonWs r1 with
               | ':' :: r2 =>
                   match parseJsonValueF f r2 with
                   | none => none
                   | some (v, r3) =>
                       match skipJsonWs r3 with
                       | ',' :: r4 =>
                           (parseJsonObjectItems f r4).map (fun p =>
                             ((String.mk kcs, v) :: p.1, p.2))
                       | '}' :: r4 => some ([(String.mk kcs, v)], r4)
                       | _ => none
               | _ => none
       | _ => none) := rfl

lemma parser_chop :
    ∀ (fuel : Nat),
      (∀ cs v rest, parseJsonValueF fuel cs = some (v, rest) →
        ∃ w core, cs = w ++ core ++ rest ∧ (∀ c ∈ w, isJsonWs c = true) ∧
          core ≠ [] ∧
          (∀ c, core.head? = some c → isRustWhitespace c = false ∧ c ≠ ']') ∧
          (∀ c, core.getLast? = some c → isRustWhitespace c = false) ∧
          ∀ fuel₂ rest₂, core.length < fuel₂ → safeBoundary rest₂ →
            parseJsonValueF fuel₂ (core ++ rest₂) = some (v, rest₂)) ∧
      (∀ cs vs rest, parseJsonArrayItems fuel cs = some (vs, rest) →
        ∃ w core, cs = w ++ core ++ rest ∧ (∀ c ∈ w, isJsonWs c = true) ∧
          core ≠ [] ∧
          (∀ c, core.head? = some c → isRustWhitespace c = false ∧ c ≠ ']') ∧
          (∀ c, core.getLast? = some c → isRustWhitespace c = false) ∧
          ∀ fuel₂ rest₂, core.length < fuel₂ → safeBoundary rest₂ →
            parseJsonArrayItems fuel₂ (core ++ rest₂) = some (vs, rest₂)) ∧
      (∀ cs es rest, parseJsonObjectItems fuel cs = some (es, rest) →
        ∃ w core, cs = w ++ core ++ rest ∧ (∀ c ∈ w, isJsonWs c = true) ∧
          core ≠ [] ∧ core.head? = some '"' ∧
          (∀ c, core.getLast? = some c → isRustWhitespace c = false) ∧
          ∀ fuel₂ rest₂, core.length < fuel₂ → safeBoundary rest₂ →
            parseJsonObjectItems fuel₂ (core ++ rest₂) = some (es, rest₂)) := by
  intro fuel
  induction fuel with
  | zero =>
      refine ⟨?_, ?_, ?_⟩
      · intro cs v rest h
        rw [show parseJsonValueF 0 cs = none from rfl] at h
        cases h
      · intro cs vs rest h
        rw [show parseJsonArrayItems 0 cs = none from rfl] at h
        cases h
      · intro cs es rest h
        rw [show parseJsonObjectItems 0 cs = none from rfl] at h
        cases h
  | succ fuel ih =>
      obtain ⟨ihV, ihA, ihO⟩ := ih
      refine ⟨?_, ?_, ?_⟩
      · intro cs v rest h
        simp only [parseJsonValueF] at h
        rcases hs : skipJsonWs cs with _ | ⟨c, rest0⟩
        · rw [hs] at h; cases h
        · rw [hs] at h
          simp only [] at h
          obtain ⟨w, hw1, hw2⟩ := skipJsonWs_decomp cs
          rw [hs] at hw1
          by_cases h1 : c = 'n'
          · rw [if_pos h1] at h
            subst h1
            split at h
            · next r =>
                rw [Option.some_inj, Prod.mk.injEq] at h
                obtain ⟨rfl, rfl⟩ := h
                refine ⟨w, ['n', 'u', 'l', 'l'], ?_, hw2, by simp, ?_, ?_, ?_⟩
                · rw [hw1]; simp
                · intro x hx
                  simp only [List.head?_cons, Option.some_inj] at hx
                  rw [← hx]
                  exact ⟨by decide, by decide⟩
                · intro x hx
                  rw [show (['n', 'u', 'l', 'l'] : List Char).getLast? =
                    some 'l' from rfl, Option.some_inj] at hx
                  rw [← hx]
                  decide
                · intro fuel₂ rest₂ hf hsafe
                  cases fuel₂ with
                  | zero => omega
                  | succ f₂ =>
                      simp only [List.cons_append, List.nil_append]
                      exact pv_null f₂ rest₂
            · cases h
          · rw [if_neg h1] at h
            by_cases h2 : c = 't'
            · rw [if_pos h2] at h
              subst h2
              split at h
              · next r =>
                  rw [Option.some_inj, Prod.mk.injEq] at h
                  obtain ⟨rfl, rfl⟩ := h
                  refine ⟨w, ['t', 'r', 'u', 'e'], ?_, hw2, by simp, ?_, ?_, ?_⟩
                  · rw [hw1]; simp
                  · intro x hx
                    simp only [List.head?_cons, Option.some_inj] at hx
                    rw [← hx]
                    exact ⟨by decide, by decide⟩
                  · intro x hx
                    rw [show (['t', 'r', 'u', 'e'] : List Char).getLast? =
                      some 'e' from rfl, Option.some_inj] at hx
                    rw [← hx]
                    decide
                  · intro fuel₂ rest₂ hf hsafe
                    cases fuel₂ with
                    | zero => omega
                    | succ f₂ =>
                        simp only [List.cons_append, List.nil_append]
                        exact pv_true f₂ rest₂
              · cases h
            · rw [if_neg h2] at h
              by_cases h3 : c = 'f'
              · rw [if_pos h3] at h
                subst h3
                split at h
                · next r =>
                    rw [Option.some_inj, Prod.mk.injEq] at h
                    obtain ⟨rfl, rfl⟩ := h
                    refine ⟨w, ['f', 'a', 'l', 's', 'e'], ?_, hw2, by simp,
                      ?_, ?_, ?_⟩
                    · rw [hw1]; simp
                    · intro x hx
                      simp only [List.head?_cons, Option.some_inj] at hx
                      rw [← hx]
                      exact ⟨by decide, by decide⟩
                    · intro x hx
                      rw [show (['f', 'a', 'l', 's', 'e'] : List Char).getLast? =
                        some 'e' from rfl, Option.some_inj] at hx
                      rw [← hx]
                      decide
                    · intro fuel₂ rest₂ hf hsafe
                      cases fuel₂ with
                      | zero => omega
                      | succ f₂ =>
                          simp only [List.cons_append, List.nil_append]
                          exact pv_false f₂ rest₂
                · cases h
              · rw [if_neg h3] at h
                by_cases h4 : c = '"'
                · rw [if_pos h4] at h
                  subst h4
                  rw [Option.map_eq_some'] at h
                  obtain ⟨⟨s1, r1⟩, hp, heq⟩ := h
                  rw [Prod.mk.injEq] at heq
                  obtain ⟨rfl, rfl⟩ := heq
                  obtain ⟨preB, hb1, hbne, hblast, hbfwd⟩ :=
                    parseStringBody_chop _ rest0 s1 r1 hp
                  refine ⟨w, '"' :: preB, ?_, hw2, by simp, ?_, ?_, ?_⟩
                  · rw [hw1, hb1]; simp
                  · intro x hx
                    simp only [List.head?_cons, Option.some_inj] at hx
                    rw [← hx]
                    exact ⟨by decide, by decide⟩
                  · intro x hx
                    rw [getLast?_cons_ne_nil hbne, hblast,
                      Option.some_inj] at hx
                    rw [← hx]
                    decide
                  · intro fuel₂ rest₂ hf hsafe
                    cases fuel₂ with
                    | zero => omega
                    | succ f₂ =>
                        simp only [List.cons_append]
                        rw [pv_string f₂]
                        rw [hbfwd ((preB ++ rest₂).length + 1) rest₂
                          (by simp only [List.length_append]; omega)]
                        rfl
                · rw [if_neg h4] at h
                  by_cases h5 : c = '['
                  · rw [if_pos h5] at h
                    subst h5
                    obtain ⟨w₂, hw21, hw22⟩ := skipJsonWs_decomp rest0
                    split at h
                    · next r heq =>
                        rw [Option.some_inj, Prod.mk.injEq] at h
                        obtain ⟨rfl, rfl⟩ := h
                        rw [heq] at hw21
                        refine ⟨w, '[' :: (w₂ ++ [']']), ?_, hw2, by simp,
                          ?_, ?_, ?_⟩
                        · rw [hw1, hw21]; simp
                        · intro x hx
                          simp only [List.head?_cons, Option.some_inj] at hx
                          rw [← hx]
                          exact ⟨by decide, by decide⟩
                        · intro x hx
                          rw [getLast?_cons_ne_nil (by simp),
                            getLast?_append_left_ne (by simp),
                            show ([']'] : List Char).getLast? = some ']' from rfl,
                            Option.some_inj] at hx
                          rw [← hx]
                          decide
                        · intro fuel₂ rest₂ hf hsafe
                          cases fuel₂ with
                          | zero => omega
                          | succ f₂ =>
                              simp only [List.cons_append, List.append_assoc,
                                List.nil_append]
                              rw [pv_lbracket f₂]
                              rw [skipJsonWs_append_ws hw22,
                                skipJsonWs_cons_not (by decide)]
                              rfl
                    · rw [Option.map_eq_some'] at h
                      obtain ⟨⟨vs1, r1⟩, hp, heq2⟩ := h
                      rw [Prod.mk.injEq] at heq2
                      obtain ⟨rfl, rfl⟩ := heq2
                      obtain ⟨wI, coreI, hi1, hi2, hine, hihead, hilast, hifwd⟩ :=
                        ihA _ _ _ hp
                      rw [hi1] at hw21
                      refine ⟨w, '[' :: (w₂ ++ (wI ++ coreI)), ?_, hw2, by simp,
                        ?_, ?_, ?_⟩
                      · rw [hw1, hw21]; simp
                      · intro x hx
                        simp only [List.head?_cons, Option.some_inj] at hx
                        rw [← hx]
                        exact ⟨by decide, by decide⟩
                      · intro x hx
                        rw [getLast?_cons_ne_nil (by simp [hine]),
                          getLast?_append_left_ne (by simp [hine]),
                          getLast?_append_left_ne hine] at hx
                        exact hilast x hx
                      · intro fuel₂ rest₂ hf hsafe
                        cases fuel₂ with
                        | zero => omega
                        | succ f₂ =>
                            simp only [List.cons_append, List.append_assoc]
                            rw [pv_lbracket f₂]
                            rw [skipJsonWs_append_ws hw22,
                              skipJsonWs_append_ws hi2]
                            obtain ⟨ci, ti, rfl⟩ : ∃ ci ti, coreI = ci :: ti := by
                              cases coreI with
                              | nil => exact absurd rfl hine
                              | cons a b => exact ⟨a, b, rfl⟩
                            have hci := hihead ci rfl
                            rw [List.cons_append,
                              skipJsonWs_cons_not (rust_ws_not_json hci.1)]
                            split
                            · next r2 heq3 =>
                                injection heq3 with ha1 ha2
                                exact absurd ha1 hci.2
                            · next heq3 =>
                                have hfi := hifwd f₂ rest₂
                                  (by simp only [List.length_cons,
                                    List.length_append] at hf ⊢; omega) hsafe
                                rw [List.cons_append] at hfi
                                rw [hfi]
                                rfl
                  · rw [if_neg h5] at h
                    by_cases h6 : c = '{'
                    · rw [if_pos h6] at h
                      subst h6
                      obtain ⟨w₂, hw21, hw22⟩ := skipJsonWs_decomp rest0
                      split at h
                      · next r heq =>
                          rw [Option.some_inj, Prod.mk.injEq] at h
                          obtain ⟨rfl, rfl⟩ := h
                          rw [heq] at hw21
                          refine ⟨w, '{' :: (w₂ ++ ['}']), ?_, hw2, by simp,
                            ?_, ?_, ?_⟩
                          · rw [hw1, hw21]; simp
                          · intro x hx
                            simp only [List.head?_cons, Option.some_inj] at hx
                            rw [← hx]
                            exact ⟨by decide, by decide⟩
                          · intro x hx
                            rw [getLast?_cons_ne_nil (by simp),
                              getLast?_append_left_ne (by simp),
                              show (['}'] : List Char).getLast? = some '}' from
                                rfl,
                              Option.some_inj] at hx
                            rw [← hx]
                            decide
                          · intro fuel₂ rest₂ hf hsafe
                            cases fuel₂ with
                            | zero => omega
                            | succ f₂ =>
                                simp only [List.cons_append, List.append_assoc,
                                  List.nil_append]
                                rw [pv_lbrace f₂]
                                rw [skipJsonWs_append_ws hw22,
                                  skipJsonWs_cons_not (by decide)]
                                rfl
                      · rw [Option.map_eq_some'] at h
                        obtain ⟨⟨es1, r1⟩, hp, heq2⟩ := h
                        rw [Prod.mk.injEq] at heq2
                        obtain ⟨rfl, rfl⟩ := heq2
                        obtain ⟨wO, coreO, ho1, ho2, hone, hohead, holast,
                          hofwd⟩ := ihO _ _ _ hp
                        rw [ho1] at hw21
                        refine ⟨w, '{' :: (w₂ ++ (wO ++ coreO)), ?_, hw2,
                          by simp, ?_, ?_, ?_⟩
                        · rw [hw1, hw21]; simp
                        · intro x hx
                          simp only [List.head?_cons, Option.some_inj] at hx
                          rw [← hx]
                          exact ⟨by decide, by decide⟩
                        · intro x hx
                          rw [getLast?_cons_ne_nil (by simp [hone]),
                            getLast?_append_left_ne (by simp [hone]),
                            getLast?_append_left_ne hone] at hx
                          exact holast x hx
                        · intro fuel₂ rest₂ hf hsafe
                          cases fuel₂ with
                          | zero => omega
                          | succ f₂ =>
                              simp only [List.cons_append, List.append_assoc]
                              rw [pv_lbrace f₂]
                              rw [skipJsonWs_append_ws hw22,
                                skipJsonWs_append_ws ho2]
                              obtain ⟨tO, rfl⟩ : ∃ tO, coreO = '"' :: tO := by
                                cases coreO with
                                | nil => exact absurd hohead (by simp)
                                | cons a b =>
                                    rw [List.head?_cons,
                                      Option.some_inj] at hohead
                                    subst hohead
                                    exact ⟨b, rfl⟩
                              rw [List.cons_append,
                                skipJsonWs_cons_not (by decide)]
                              split
                              · next r2 heq3 =>
                                  injection heq3 with ha1 ha2
                                  exact absurd ha1 (by decide)
                              · next heq3 =>
                                  have hof := hofwd f₂ rest₂
                                    (by simp only [List.length_cons,
                                      List.length_append] at hf ⊢; omega) hsafe
                                  rw [List.cons_append] at hof
                                  rw [hof]
                                  rfl
                    · rw [if_neg h6] at h
                      by_cases h7 : c = '-' ∨ isAsciiDigit c = true
                      · rw [if_pos h7] at h
                        rw [Option.map_eq_some'] at h
                        obtain ⟨⟨n1, r1⟩, hp, heq⟩ := h
                        rw [Prod.mk.injEq] at heq
                        obtain ⟨rfl, rfl⟩ := heq
                        obtain ⟨preN, hn1, hnne, hnlast, hnfwd⟩ :=
                          parseJsonNumber_chop hp
                        obtain ⟨pn, rfl⟩ : ∃ pn, preN = c :: pn := by
                          cases preN with
                          | nil => exact absurd rfl hnne
                          | cons a b =>
                              rw [List.cons_append] at hn1
                              injection hn1 with hx1 hx2
                              exact ⟨b, by rw [hx1]⟩
                        rw [List.cons_append] at hn1
                        injection hn1 with hx1 hx2
                        refine ⟨w, c :: pn, ?_, hw2, by simp, ?_, ?_, ?_⟩
                        · rw [hw1, hx2]; simp
                        · intro x hx
                          simp only [List.head?_cons, Option.some_inj] at hx
                          rw [← hx]
                          rcases h7 with rfl | h7
                          · exact ⟨by decide, by decide⟩
                          · exact ⟨digit_not_rust_ws h7, digit_not_bracket h7⟩
                        · intro x hx
                          exact digit_not_rust_ws (hnlast x hx)
                        · intro fuel₂ rest₂ hf hsafe
                          cases fuel₂ with
                          | zero => omega
                          | succ f₂ =>
                              simp only [List.cons_append]
                              rw [pv_num f₂ h7]
                              have hnf := hnfwd rest₂ hsafe
                              rw [List.cons_append] at hnf
                              rw [hnf]
                              rfl
                      · rw [if_neg h7] at h
                        cases h
      · intro cs vs rest h
        simp only [parseJsonArrayItems] at h
        rcases hv : parseJsonValueF fuel cs with _ | ⟨v, r1⟩
        · rw [hv] at h; cases h
        · rw [hv] at h
          simp only [] at h
          obtain ⟨wV, coreV, hva, hvw, hvne, hvhead, hvlast, hvfwd⟩ :=
            ihV _ _ _ hv
          obtain ⟨cv, tv, rfl⟩ : ∃ cv tv, coreV = cv :: tv := by
            cases coreV with
            | nil => exact absurd rfl hvne
            | cons a b => exact ⟨a, b, rfl⟩
          obtain ⟨w2, hw21, hw22⟩ := skipJsonWs_decomp r1
          split at h
          · next r2 heq =>
              rw [Option.map_eq_some'] at h
              obtain ⟨⟨vs1, r3⟩, hp, heq2⟩ := h
              rw [Prod.mk.injEq] at heq2
              obtain ⟨rfl, rfl⟩ := heq2
              obtain ⟨wI, coreI, hia, hiw, hine, hihead, hilast, hifwd⟩ :=
                ihA _ _ _ hp
              rw [heq, hia] at hw21
              refine ⟨wV, (cv :: tv) ++ (w2 ++ ',' :: (wI ++ coreI)), ?_, hvw,
                by simp, ?_, ?_, ?_⟩
              · rw [hva, hw21]; simp
              · intro x hx
                simp only [List.cons_append, List.head?_cons,
                  Option.some_inj] at hx
                rw [← hx]
                exact hvhead cv rfl
              · intro x hx
                rw [getLast?_append_left_ne (by simp),
                  getLast?_append_left_ne (by simp),
                  getLast?_cons_ne_nil (by simp [hine]),
                  getLast?_append_left_ne hine] at hx
                exact hilast x hx
              · intro fuel₂ rest₂ hf hsafe
                cases fuel₂ with
                | zero => omega
                | succ f₂ =>
                    rw [pai_succ f₂]
                    simp only [List.cons_append, List.append_assoc]
                    have hvf := hvfwd f₂ (w2 ++ ',' :: (wI ++ (coreI ++ rest₂)))
                      (by simp only [List.length_cons, List.length_append]
                        at hf ⊢; omega)
                      (safeBoundary_ws_cons hw22 (by decide) _)
                    simp only [List.cons_append, List.append_assoc] at hvf
                    rw [hvf]
                    simp only []
                    rw [skipJsonWs_append_ws hw22,
                      skipJsonWs_cons_not (by decide)]
                    simp only []
                    rw [parseJsonArrayItems_ws_front f₂ hiw]
                    rw [hifwd f₂ rest₂
                      (by simp only [List.length_cons, List.length_append]
                        at hf ⊢; omega) hsafe]
                    rfl
          · next r2 heq =>
              rw [Option.some_inj, Prod.mk.injEq] at h
              obtain ⟨rfl, rfl⟩ := h
              rw [heq] at hw21
              refine ⟨wV, (cv :: tv) ++ (w2 ++ [']']), ?_, hvw,
                by simp, ?_, ?_, ?_⟩
              · rw [hva, hw21]; simp
              · intro x hx
                simp only [List.cons_append, List.head?_cons,
                  Option.some_inj] at hx
                rw [← hx]
                exact hvhead cv rfl
              · intro x hx
                rw [getLast?_append_left_ne (by simp),
                  getLast?_append_left_ne (by simp),
                  show ([']'] : List Char).getLast? = some ']' from rfl,
                  Option.some_inj] at hx
                rw [← hx]
                decide
              · intro fuel₂ rest₂ hf hsafe
                cases fuel₂ with
                | zero => omega
                | succ f₂ =>
                    rw [pai_succ f₂]
                    simp only [List.cons_append, List.append_assoc,
                      List.nil_append]
                    have hvf := hvfwd f₂ (w2 ++ ']' :: rest₂)
                      (by simp only [List.length_cons, List.length_append]
                        at hf ⊢; omega)
                      (safeBoundary_ws_cons hw22 (by decide) _)
                    simp only [List.cons_append, List.append_assoc] at hvf
                    rw [hvf]
                    simp only []
                    rw [skipJsonWs_append_ws hw22,
                      skipJsonWs_cons_not (by decide)]
                    rfl
          · cases h
      · intro cs es rest h
        simp only [parseJsonObjectItems] at h
        split at h
        · next rest1 heq =>
            obtain ⟨wK, hwk1, hwk2⟩ := skipJsonWs_decomp cs
            rw [heq] at hwk1
            rcases hk : parseStringBody (rest1.length + 1) rest1 with _ | ⟨kcs, r1⟩
            · rw [hk] at h; cases h
            · rw [hk] at h
              simp only [] at h
              obtain ⟨preK, hk1, hkne, hklast, hkfwd⟩ :=
                parseStringBody_chop _ rest1 kcs r1 hk
              have hklen : ∀ (Z : List Char),
                  preK.length < (preK ++ Z).length + 1 := by
                intro Z
                simp only [List.length_append]
                omega
              split at h
              · next r2 heq2 =>
                  obtain ⟨w3, hw31, hw32⟩ := skipJsonWs_decomp r1
                  rw [heq2] at hw31
                  rcases hv : parseJsonValueF fuel r2 with _ | ⟨v, r3⟩
                  · rw [hv] at h; cases h
                  · rw [hv] at h
                    simp only [] at h
                    obtain ⟨wV, coreV, hva, hvw, hvne, hvhead, hvlast, hvfwd⟩ :=
                      ihV _ _ _ hv
                    obtain ⟨cv, tv, rfl⟩ : ∃ cv tv, coreV = cv :: tv := by
                      cases coreV with
                      | nil => exact absurd rfl hvne
                      | cons a b => exact ⟨a, b, rfl⟩
                    obtain ⟨w4, hw41, hw42⟩ := skipJsonWs_decomp r3
                    split at h
                    · next r4 heq3 =>
                        rw [Option.map_eq_some'] at h
                        obtain ⟨⟨es1, r5⟩, hp, heq4⟩ := h
                        rw [Prod.mk.injEq] at heq4
                        obtain ⟨rfl, rfl⟩ := heq4
                        obtain ⟨wO, coreO, hoa, how, hone, hohead, holast,
                          hofwd⟩ := ihO _ _ _ hp
                        rw [heq3, hoa] at hw41
                        refine ⟨wK, '"' :: (preK ++ (w3 ++ ':' ::
                          (wV ++ ((cv :: tv) ++ (w4 ++ ',' ::
                            (wO ++ coreO)))))), ?_, hwk2, by simp, rfl, ?_, ?_⟩
                        · rw [hwk1, hk1, hw31, hva, hw41]; simp
                        · intro x hx
                          rw [getLast?_cons_ne_nil (by simp),
                            getLast?_append_left_ne (by simp),
                            getLast?_append_left_ne (by simp),
                            getLast?_cons_ne_nil (by simp),
                            getLast?_append_left_ne (by simp),
                            getLast?_append_left_ne (by simp),
                            getLast?_append_left_ne (by simp [hone]),
                            getLast?_cons_ne_nil (by simp [hone]),
                            getLast?_append_left_ne hone] at hx
                          exact holast x hx
                        · intro fuel₂ rest₂ hf hsafe
                          cases fuel₂ with
                          | zero => omega
                          | succ f₂ =>
                              rw [poi_succ f₂]
                              simp only [List.cons_append, List.append_assoc]
                              rw [skipJsonWs_cons_not (by decide)]
                              simp only []
                              rw [hkfwd _ _ (hklen _)]
                              simp only []
                              rw [skipJsonWs_append_ws hw32,
                                skipJsonWs_cons_not (by decide)]
                              simp only []
                              rw [parseJsonValueF_ws_front f₂ hvw]
                              have hvf := hvfwd f₂
                                (w4 ++ ',' :: (wO ++ (coreO ++ rest₂)))
                                (by simp only [List.length_cons,
                                  List.length_append] at hf ⊢; omega)
                                (safeBoundary_ws_cons hw42 (by decide) _)
                              simp only [List.cons_append,
                                List.append_assoc] at hvf
                              rw [hvf]
                              simp only []
                              rw [skipJsonWs_append_ws hw42,
                                skipJsonWs_cons_not (by decide)]
                              simp only []
                              rw [parseJsonObjectItems_ws_front f₂ how]
                              rw [hofwd f₂ rest₂
                                (by simp only [List.length_cons,
                                  List.length_append] at hf ⊢; omega) hsafe]
                              rfl
                    · next r4 heq3 =>
                        rw [Option.some_inj, Prod.mk.injEq] at h
                        obtain ⟨rfl, rfl⟩ := h
                        rw [heq3] at hw41
                        refine ⟨wK, '"' :: (preK ++ (w3 ++ ':' ::
                          (wV ++ ((cv :: tv) ++ (w4 ++ ['}']))))), ?_, hwk2,
                          by simp, rfl, ?_, ?_⟩
                        · rw [hwk1, hk1, hw31, hva, hw41]; simp
                        · intro x hx
                          rw [getLast?_cons_ne_nil (by simp),
                            getLast?_append_left_ne (by simp),
                            getLast?_append_left_ne (by simp),
                            getLast?_cons_ne_nil (by simp),
                            getLast?_append_left_ne (by simp),
                            getLast?_append_left_ne (by simp),
                            getLast?_append_left_ne (by simp),
                            show (['}'] : List Char).getLast? = some '}' from
                              rfl,
                            Option.some_inj] at hx
                          rw [← hx]
                          decide
                        · intro fuel₂ rest₂ hf hsafe
                          cases fuel₂ with
                          | zero => omega
                          | succ f₂ =>
                              rw [poi_succ f₂]
                              simp only [List.cons_append, List.append_assoc,
                                List.nil_append]
                              rw [skipJsonWs_cons_not (by decide)]
                              simp only []
                              rw [hkfwd _ _ (hklen _)]
                              simp only []
                              rw [skipJsonWs_append_ws hw32,
                                skipJsonWs_cons_not (by decide)]
                              simp only []
                              rw [parseJsonValueF_ws_front f₂ hvw]
                              have hvf := hvfwd f₂ (w4 ++ '}' :: rest₂)
                                (by simp only [List.length_cons,
                                  List.length_append] at hf ⊢; omega)
                                (safeBoundary_ws_cons hw42 (by decide) _)
                              simp only [List.cons_append,
                                List.append_assoc] at hvf
                              rw [hvf]
                              simp only []
                              rw [skipJsonWs_append_ws hw42,
                                skipJsonWs_cons_not (by decide)]
                              rfl
                    · cases h
              · cases h
        · cases h

lemma jsonFromStr_trim {cs : List Char} {v : JsonValue}
    (h : jsonFromStr cs = some v) :
    jsonFromStr (trimChars cs) = some v ∧
    skipJsonWs (trimChars cs) = trimChars cs := by
  unfold jsonFromStr at h
  split at h
  · next v1 rest heq =>
      split at h
      · next hskip =>
          rw [Option.some_inj] at h
          subst h
          obtain ⟨w, core, hcs, hw, hne, hhead, hlast, hfwd⟩ :=
            (parser_chop _).1 cs v1 rest heq
          have hrest : ∀ c ∈ rest, isJsonWs c = true := skipJsonWs_all_ws hskip
          have htr : trimChars cs = core := by
            rw [hcs, List.append_assoc]
            exact trimChars_exact (fun c hc => jsonWs_rust (hw c hc))
              (fun c hc => jsonWs_rust (hrest c hc)) hne
              (fun c hc => (hhead c hc).1) hlast
          constructor
          · rw [htr]
            unfold jsonFromStr
            have hp2 := hfwd (2 * core.length + 2) [] (by omega) safeBoundary_nil
            rw [List.append_nil] at hp2
            rw [hp2]
            rfl
          · rw [htr]
            cases core with
            | nil => exact absurd rfl hne
            | cons c0 t0 =>
                exact skipJsonWs_cons_not (rust_ws_not_json (hhead c0 rfl).1) t0
      · cases h
  · cases h

lemma skipJsonWs_eq_self_of_trim {cs : List Char} (htrim : trimChars cs = cs) :
    skipJsonWs cs = cs := by
  cases cs with
  | nil => rfl
  | cons c r =>
      have hws : isRustWhitespace c = false := by
        by_contra hcon
        rw [Bool.not_eq_false] at hcon
        have hlt : (trimChars (c :: r)).length < (c :: r).length := by
          have h1 : trimChars (c :: r) =
              ((r.dropWhile isRustWhitespace).reverse.dropWhile
                isRustWhitespace).reverse := by
            simp only [trimChars, List.dropWhile_cons, hcon, if_true]
          rw [h1, List.length_reverse]
          have h2 := dropWhile_length_le isRustWhitespace
            (r.dropWhile isRustWhitespace).reverse
          have h3 := dropWhile_length_le isRustWhitespace r
          rw [List.length_reverse] at h2
          simp only [List.length_cons]
          omega
        rw [htrim] at hlt
        omega
      have hjws : isJsonWs c = false := by
        by_contra hcon2
        rw [Bool.not_eq_false] at hcon2
        rw [jsonWs_rust hcon2] at hws
        cases hws
      simp [skipJsonWs, hjws]

lemma looks_like_json_of_valid {cs : List Char} {v : JsonValue}
    (h : jsonFromStr cs = some v) (hskip : skipJsonWs cs = cs) :
    looks_like_json cs = true := by
  unfold jsonFromStr at h
  split at h
  · next v1 rest heq =>
      rcases hfuel : 2 * cs.length + 2 with _ | k
      · omega
      · rw [hfuel] at heq
        cases cs with
        | nil => rw [show parseJsonValueF (k + 1) ([] : List Char) = none from rfl] at heq; cases heq
        | cons c rest0 =>
            simp only [parseJsonValueF] at heq
            rw [hskip] at heq
            simp only [] at heq
            by_cases h1 : c = 'n'
            · subst h1
              rw [if_pos rfl] at heq
              split at heq
              · simp [looks_like_json, List.isPrefixOf, isAsciiDigit]
              · cases heq
            · rw [if_neg h1] at heq
              by_cases h2 : c = 't'
              · subst h2
                rw [if_pos rfl] at heq
                split at heq
                · simp [looks_like_json, List.isPrefixOf, isAsciiDigit]
                · cases heq
              · rw [if_neg h2] at heq
                by_cases h3 : c = 'f'
                · subst h3
                  rw [if_pos rfl] at heq
                  split at heq
                  · simp [looks_like_json, List.isPrefixOf, isAsciiDigit]
                  · cases heq
                · rw [if_neg h3] at heq
                  by_cases h4 : c = '"'
                  · subst h4; simp [looks_like_json, List.isPrefixOf, isAsciiDigit]
                  · rw [if_neg h4] at heq
                    by_cases h5 : c = '['
                    · subst h5; simp [looks_like_json, List.isPrefixOf, isAsciiDigit]
                    · rw [if_neg h5] at heq
                      by_cases h6 : c = '{'
                      · subst h6; simp [looks_like_json, List.isPrefixOf, isAsciiDigit]
                      · rw [if_neg h6] at heq
                        by_cases h7 : c = '-' ∨ isAsciiDigit c
                        · rcases h7 with h7 | h7
                          · subst h7; simp [looks_like_json, List.isPrefixOf, isAsciiDigit]
                          · simp [looks_like_json, h7]
                        · rw [if_neg h7] at heq
                          cases heq
  · cases h

lemma direct_json_parse_of_valid {cs : List Char} {v : JsonValue}
    (htrim : trimChars cs = cs) (h : jsonFromStr cs = some v) :
    direct_json_parse cs = [FlexValue.new v .Direct] := by
  unfold direct_json_parse
  simp only [htrim]
  rw [if_pos (looks_like_json_of_valid h (skipJsonWs_eq_self_of_trim htrim)), h]

lemma direct_json_parse_of_parse {cs : List Char} {v : JsonValue}
    (h : jsonFromStr cs = some v) :
    direct_json_parse cs = [FlexValue.new v .Direct] := by
  obtain ⟨h1, h2⟩ := jsonFromStr_trim h
  unfold direct_json_parse
  simp only []
  rw [if_pos (looks_like_json_of_valid h1 h2), h1]

lemma multiple_objects_parse_shape (input : List Char) :
    multiple_objects_parse input = [] ∨
    ∃ vs, multiple_objects_parse input =
      [FlexValue.new (.arr vs) .MultiJsonArray] := by
  unfold multiple_objects_parse
  simp only []
  split_ifs
  · left; rfl
  · right; exact ⟨_, rfl⟩
  · left; rfl

lemma normalize_candidate_meta (fv : FlexValue) (hc : fv.confidence = 1)
    (ht : fv.transformations = []) :
    (normalize_candidate fv).source = fv.source ∧
    (normalize_candidate fv).confidence = 1 ∧
    (normalize_candidate fv).transformations = [] := by
  unfold normalize_candidate
  simp only []
  split
  · split
    · exact ⟨rfl, rfl, rfl⟩
    · split_ifs
      · split
        · exact ⟨rfl, rfl, rfl⟩
        · exact ⟨rfl, hc, ht⟩
      · exact ⟨rfl, hc, ht⟩
  · split_ifs
    · split
      · exact ⟨rfl, rfl, rfl⟩
      · exact ⟨rfl, hc, ht⟩
    · exact ⟨rfl, hc, ht⟩

lemma normalize_candidate_fixed (fv : FlexValue)
    (hstr : ∀ s, fv.value = .str s → jsonFromStr s.data = none)
    (hser : remove_invisible_chars (jsonToStringVal fv.value) =
      jsonToStringVal fv.value) :
    normalize_candidate fv = fv := by
  unfold normalize_candidate
  simp only []
  split
  · next s hs =>
      rw [hstr s hs]
      simp [normalize_field_names, hser]
  · simp [normalize_field_names, hser]

lemma ratAsU32_zero : ratAsU32 0 = 0 := by
  simp [ratAsU32, ratFloor_eq_intFloor]

lemma score_new_direct (v : JsonValue) :
    score_candidate (FlexValue.new v .Direct) = 0 := by
  unfold score_candidate score_candidate_recursive FlexValue.new
  norm_num [source_base_score, ratAsU32_zero]

lemma score_mja (fv : FlexValue) (hsrc : fv.source = .MultiJsonArray)
    (hc : fv.confidence = 1) (ht : fv.transformations = []) :
    score_candidate fv = 25 := by
  unfold score_candidate score_candidate_recursive
  rw [hsrc, hc, ht]
  rfl

lemma best_of_single (d : FlexValue) : best_candidate [d] = some d := rfl

lemma best_of_mja_direct (m d : FlexValue) (hm : score_candidate m = 25)
    (hd : score_candidate d = 0) :
    best_candidate [m, d] = some d := by
  unfold best_candidate rank_candidates
  simp only [rank_candidates, insertRanked, hm, hd]
  norm_num [List.head?]

lemma stage0_mo_direct (fallback : List Char → List FlexValue)
    (input : List Char) (rest : List (List Char → List FlexValue))
    {v : JsonValue}
    (hd : direct_json_parse input = [FlexValue.new v .Direct]) :
    stage0Loop fallback input
      (multiple_objects_parse :: direct_json_parse :: rest) false [] =
    normalize_candidates (multiple_objects_parse input ++
      [FlexValue.new v .Direct]) := by
  rcases multiple_objects_parse_shape input with hmo | ⟨vs, hmo⟩ <;>
    simp [stage0Loop, hmo, hd, FlexValue.new,
      show sourceIsDirect Source.MultiJsonArray = false from rfl,
      show sourceIsYaml Source.MultiJsonArray = false from rfl,
      show sourceIsDirect Source.Direct = true from rfl]
/-- Claim C1 counterexample: the input text is strict JSON (the reference
parser accepts it), but its string value contains the zero-width space
U+200B, which the pre-cleaner strips before any strategy runs: the
multi-stage parser's only candidate — the winning one — carries a value that
differs from the reference parse (structural equality on the values is
false). -/
theorem strict_json_counterexample :
    jsonFromStr "\x7b\"k\":\"a\u200bb\"\x7d".data =
      some (.obj [("k", .str "a\u200bb")]) ∧
    parse_multi_stage [multiple_objects_parse, direct_json_parse]
      (fun _ => []) "\x7b\"k\":\"a\u200bb\"\x7d".data =
      [FlexValue.new (.obj [("k", .str "ab")]) .Direct] ∧
    JsonValue.beq (.obj [("k", .str "a\u200bb")])
      (.obj [("k", .str "ab")]) = false :=
  ⟨rfl, rfl, rfl⟩

/-- Claim C1 (amended): for a strict-JSON input — surrounding whitespace
allowed — with no invisible characters, whose cleaner-counted nesting depths
(of the trimmed text) are at most 50, that is not itself a JSON string whose
content re-parses as JSON, and whose value re-serializes without invisible
characters, the multi-stage parser — with the multiple-objects and
direct-JSON strategies first, as in the default priority order, and any
further strategies and extraction fallback — elects the reference parse as
the winning candidate: a `Direct` candidate carrying exactly the reference
value, no transformations, and score 0. -/
theorem strict_json_direct_wins (input : List Char) (v : JsonValue)
    (rest : List (List Char → List FlexValue))
    (fallback : List Char → List FlexValue)
    (hparse : jsonFromStr input = some v)
    (hinv : remove_invisible_chars input = input)
    (hdepth : (maxNestDepths (trimChars input) false false 0 0 0 0).1 ≤
        MAX_NESTING_DEPTH ∧
      (maxNestDepths (trimChars input) false false 0 0 0 0).2 ≤
        MAX_NESTING_DEPTH)
    (hstr : ∀ s, v = .str s → jsonFromStr s.data = none)
    (hser : remove_invisible_chars (jsonToStringVal v) = jsonToStringVal v) :
    best_candidate (parse_multi_stage
      (multiple_objects_parse :: direct_json_parse :: rest) fallback input) =
      some (FlexValue.new v .Direct) ∧
    (FlexValue.new v .Direct).value = v ∧
    (FlexValue.new v .Direct).transformations = [] ∧
    score_candidate (FlexValue.new v .Direct) = 0 := by
  refine ⟨?_, rfl, rfl, score_new_direct v⟩
  have hfix : fix_unnecessary_backslashes input = input := by
    unfold fix_unnecessary_backslashes
    exact fixBackslashesGo_toks (jsonFromStr_toks hparse) 0
  have hdeep : extract_from_deep_nesting input MAX_NESTING_DEPTH = none := by
    unfold extract_from_deep_nesting
    simp only []
    split_ifs with hh1 <;> rfl
  have hpipe : parse_multi_stage
      (multiple_objects_parse :: direct_json_parse :: rest) fallback input =
      stage0Loop fallback input
        (multiple_objects_parse :: direct_json_parse :: rest) false [] := by
    unfold parse_multi_stage
    rw [hdeep]
    show stage0Loop fallback
        (fix_unnecessary_backslashes (remove_invisible_chars input))
        (multiple_objects_parse :: direct_json_parse :: rest) false [] = _
    rw [hinv, hfix]
  rw [hpipe, stage0_mo_direct fallback input rest
    (direct_json_parse_of_parse hparse)]
  have hncd : normalize_candidate (FlexValue.new v .Direct) =
      FlexValue.new v .Direct :=
    normalize_candidate_fixed _ (fun s hs => hstr s hs) hser
  rcases multiple_objects_parse_shape input with hmo | ⟨vs, hmo⟩
  · rw [hmo]
    show best_candidate
      (normalize_candidates [FlexValue.new v .Direct]) = _
    rw [show normalize_candidates [FlexValue.new v .Direct] =
        [FlexValue.new v .Direct] from by simp [normalize_candidates, hncd]]
    exact best_of_single _
  · rw [hmo]
    have hmeta := normalize_candidate_meta
      (FlexValue.new (.arr vs) .MultiJsonArray) rfl rfl
    have hscorem : score_candidate (normalize_candidate
        (FlexValue.new (.arr vs) .MultiJsonArray)) = 25 :=
      score_mja _ (hmeta.1.trans rfl) hmeta.2.1 hmeta.2.2
    show best_candidate (normalize_candidates
      (FlexValue.new (.arr vs) .MultiJsonArray :: [FlexValue.new v .Direct])) = _
    rw [show normalize_candidates
        (FlexValue.new (.arr vs) .MultiJsonArray :: [FlexValue.new v .Direct]) =
        [normalize_candidate (FlexValue.new (.arr vs) .MultiJsonArray),
         FlexValue.new v .Direct] from by simp [normalize_candidates, hncd]]
    exact best_of_mja_direct _ _ hscorem (score_new_direct v)

/-- The amended statement, checked on the concrete strict-JSON input
`\x7b"a":1\x7d` with the default leading strategies. -/
theorem strict_json_direct_wins_witness :
    best_candidate (parse_multi_stage
      [multiple_objects_parse, direct_json_parse] (fun _ => [])
      "\x7b\"a\":1\x7d".data) =
      some (FlexValue.new (.obj [("a", .num (.int 1))]) .Direct) ∧
    score_candidate (FlexValue.new (.obj [("a", .num (.int 1))]) .Direct) = 0 := by
  have h := strict_json_direct_wins "\x7b\"a\":1\x7d".data
    (.obj [("a", .num (.int 1))]) [] (fun _ => [])
    rfl rfl (by decide) (fun s hs => nomatch hs) rfl
  exact ⟨h.1, h.2.2.2⟩

end TryParse
